import Mathlib

/-!
# Verification of the evonomics simulation core

This file gives a shallow embedding, in Lean 4, of the core of the
`evomata/evonomics` artificial-life simulation (the bytecode "brain"
interpreter of `src/sim/brain.rs` and the cellular-automaton / market
engine of `src/sim.rs`), together with theorems settling the frozen
claims about it.

Modelling conventions:

* Rust `u32`/`usize`/`i32` quantities are modelled as `ℕ`/`ℤ`.  Places
  where the Rust code casts between them (`as u32`, `as i32`) are
  modelled with exact integer arithmetic plus `Int.toNat`; the theorems
  below establish the non-negativity that makes the Rust casts
  value-preserving on the runs they talk about.  `u32::saturating_sub`
  is exactly `ℕ` subtraction.
* Rust `f64` scalars are abstracted by a type parameter `F` together
  with a bundle `FOps F` of the operations the interpreter performs on
  them.  The claims settled here are control-flow properties that hold
  for every interpretation of the scalars, IEEE-754 included; witnesses
  instantiate `F := ℤ`.
* A Rust panic (out-of-bounds index, `% 0`) is modelled by `Option` /
  an explicit panic outcome.
* Randomness is modelled adversarially: every call of the form
  `rng.gen_range(0, n)` becomes an arbitrary natural number reduced
  `% n` (which realises exactly the values `0 .. n-1` the call can
  produce), and random decisions/shuffles become explicit parameters
  that theorems quantify over.
-/

set_option autoImplicit false

namespace Evo

open scoped List

/-- `MAX_EXECUTE` from `src/sim/brain.rs`: the hard step bound of one gene run. -/
def MAX_EXECUTE : ℕ := 128

/-- `NUM_STATE` from `src/sim/brain.rs`: the number of memory registers. -/
def NUM_STATE : ℕ := 4

/-- The four directions the program uses (`Codon` sampling draws from
exactly these four, the orientation counter lives in `{0,1,2,3}` quarter
turns, and the sensory vector is rotated in four groups).  The `gridsim`
crate is not part of this repository; its direction type is modelled by
the four cardinal directions the code actually produces. -/
inductive Dir : Type where
  | right
  | up
  | left
  | down
deriving DecidableEq, Repr, Fintype

/-- `MooreDirection::turn_counterclockwise`, one quarter turn. -/
def Dir.turnCCW : Dir → Dir
  | .right => .up
  | .up => .left
  | .left => .down
  | .down => .right

/-- Rotation by `n` quarter turns counterclockwise (the loop
`for _ in 0..self.rotation { dir = dir.turn_counterclockwise() }`). -/
def Dir.rotN (n : ℕ) (d : Dir) : Dir := Dir.turnCCW^[n] d

/-- The operations the interpreter performs on the scalar type (`f64` in
the source).  `toI32` models the composite `|n| clamp(n) as i32` used by
the `Trade` codon (clamping to `[-10000, 10000]`, `0` if non-finite,
then truncation to `i32`); its exact value never matters to the claims. -/
structure FOps (F : Type) where
  add : F → F → F
  sub : F → F → F
  mul : F → F → F
  div : F → F → F
  lt : F → F → Bool
  toI32 : F → ℤ

/-- The instruction vocabulary, `enum Codon` of `src/sim/brain.rs`.
Index operands are `u32` in the source, modelled as `ℕ`. -/
inductive Codon (F : Type) : Type where
  | add
  | sub
  | mul
  | div
  | literal (n : F)
  | less
  | copy (pos : ℕ)
  | read (pos : ℕ)
  | input (pos : ℕ)
  | write (pos : ℕ)
  | move (dir : Dir)
  | divide (dir : Dir)
  | trade
  | simpleTrade (rate food : ℤ)
  | rotateLeft
  | rotateRight
deriving DecidableEq, Repr

/-- `enum Action` of `src/sim/brain.rs`. -/
inductive Action (F : Type) : Type where
  | write (pos : ℕ) (v : F)
  | move (dir : Dir)
  | divide (dir : Dir)
  | trade (rate food : ℤ)
  | rotateLeft
  | rotateRight
  | nothing
deriving DecidableEq, Repr

/-- `enum Decision` of `src/sim/brain.rs`. -/
inductive Decision : Type where
  | move (dir : Dir)
  | divide (dir : Dir)
  | trade (rate food : ℤ)
  | nothing
deriving DecidableEq, Repr

/-- `impl From<Action> for Decision`: the catch-all arm of the source
`match` is a `panic!`, modelled as `none`. -/
def Decision.ofAction {F : Type} : Action F → Option Decision
  | .move dir => some (.move dir)
  | .divide dir => some (.divide dir)
  | .trade a b => some (.trade a b)
  | .nothing => some Decision.nothing
  | _ => none

/-- `struct Dna` of `src/sim/brain.rs`: the instruction sequence and the
gene entry offsets. -/
structure Dna (F : Type) : Type where
  sequence : List (Codon F)
  entries : List ℕ
deriving DecidableEq, Repr

/-- One iteration budgeted run of `Dna::execute`, structurally recursive
on the remaining fuel.  The stack is a list with its head as the top
(`Vec::push`/`pop` act on the head).  `none` models a Rust panic:
indexing `sequence[at]` out of bounds (which happens iff the initial
program counter is out of range, in particular for every empty
sequence), indexing `memory[pos]` out of bounds in `Read`, the
`stack[stack.len() - 1 - pos]` underflow in `Copy` when `pos` equals the
stack length (the guard checks `pos > stack.len()`, not `>=`), and the
`% 0` in `Input` when the input slice is empty.  `some Action.nothing`
without recursion models `break` (which exits the loop and returns
`Action::Nothing`). -/
def Dna.executeGo {F : Type} (ops : FOps F) (seq : List (Codon F))
    (inputs memory : List F) : ℕ → ℕ → List F → Option (Action F)
  | 0, _, _ => some Action.nothing
  | fuel + 1, pc, stack =>
    match seq.get? pc with
    | none => none
    | some c =>
      match c with
      | .add =>
        match stack with
        | b :: a :: rest =>
          Dna.executeGo ops seq inputs memory fuel ((pc + 1) % seq.length) (ops.add a b :: rest)
        | _ => some Action.nothing
      | .sub =>
        match stack with
        | b :: a :: rest =>
          Dna.executeGo ops seq inputs memory fuel ((pc + 1) % seq.length) (ops.sub a b :: rest)
        | _ => some Action.nothing
      | .mul =>
        match stack with
        | b :: a :: rest =>
          Dna.executeGo ops seq inputs memory fuel ((pc + 1) % seq.length) (ops.mul a b :: rest)
        | _ => some Action.nothing
      | .div =>
        match stack with
        | b :: a :: rest =>
          Dna.executeGo ops seq inputs memory fuel ((pc + 1) % seq.length) (ops.div a b :: rest)
        | _ => some Action.nothing
      | .literal n =>
        Dna.executeGo ops seq inputs memory fuel ((pc + 1) % seq.length) (n :: stack)
      | .less =>
        match stack with
        | b :: a :: rest =>
          if ops.lt a b then
            Dna.executeGo ops seq inputs memory fuel ((pc + 1) % seq.length) rest
          else
            some Action.nothing
        | _ => some Action.nothing
      | .copy pos =>
        if stack.isEmpty || decide (pos > stack.length) then some Action.nothing
        else
          match stack.get? pos with
          | some n =>
            Dna.executeGo ops seq inputs memory fuel ((pc + 1) % seq.length) (n :: stack)
          | none => none
      | .read pos =>
        match memory.get? pos with
        | some v =>
          Dna.executeGo ops seq inputs memory fuel ((pc + 1) % seq.length) (v :: stack)
        | none => none
      | .input pos =>
        match inputs.get? (pos % inputs.length) with
        | some v =>
          Dna.executeGo ops seq inputs memory fuel ((pc + 1) % seq.length) (v :: stack)
        | none => none
      | .write pos =>
        match stack with
        | n :: _ => some (Action.write pos n)
        | _ => some Action.nothing
      | .move dir => some (Action.move dir)
      | .divide dir => some (Action.divide dir)
      | .trade =>
        match stack with
        | a :: b :: _ => some (Action.trade (ops.toI32 a) (ops.toI32 b))
        | _ => some Action.nothing
      | .simpleTrade a b => some (Action.trade a b)
      | .rotateLeft => some Action.rotateLeft
      | .rotateRight => some Action.rotateRight

/-- `Dna::execute(inputs, memory, at)`. -/
def Dna.execute {F : Type} (ops : FOps F) (dna : Dna F)
    (inputs memory : List F) (entry : ℕ) : Option (Action F) :=
  Dna.executeGo ops dna.sequence inputs memory MAX_EXECUTE entry []

/-- `struct Brain` of `src/sim/brain.rs`. -/
structure Brain (F : Type) : Type where
  color : F
  rotation : ℕ
  generation : ℕ
  memory : List F
  code : Dna F

/-- Applying the brain's orientation to a decision's direction component
(`Brain::rotate`). -/
def rotateDec (rot : ℕ) : Decision → Decision
  | .move dir => .move (Dir.rotN rot dir)
  | .divide dir => .divide (Dir.rotN rot dir)
  | .trade a b => .trade a b
  | .nothing => Decision.nothing

/-- The result of one full run of the gene loop in `Brain::decide`:
either the final private memory, orientation and raw (not yet rotated)
decision, or one of the two places the loop can panic — inside
`Dna::execute` (or the `% self.memory.len()` of a `Write` result), or in
the `From<Action> for Decision` conversion of the catch-all arm. -/
inductive RunOut (F : Type) : Type where
  | ok (memory : List F) (rotation : ℕ) (dec : Decision)
  | execPanic
  | convPanic
deriving DecidableEq, Repr

/-- The gene loop of `Brain::decide`, iterating over the (shuffled)
entry list: `Write` actions update a register (index reduced
`% memory.len()`), `RotateLeft`/`RotateRight` update the orientation in
place, and every other action replaces the tentative decision via the
`From<Action> for Decision` conversion. -/
def decideGo {F : Type} (ops : FOps F) (code : Dna F) (inputs : List F) :
    List ℕ → List F → ℕ → Decision → RunOut F
  | [], mem, rot, dec => RunOut.ok mem rot dec
  | e :: es, mem, rot, dec =>
    match code.execute ops inputs mem e with
    | none => RunOut.execPanic
    | some a =>
      match a with
      | .write pos v =>
        if mem.length = 0 then RunOut.execPanic
        else decideGo ops code inputs es (mem.set (pos % mem.length) v) rot dec
      | .rotateLeft => decideGo ops code inputs es mem ((rot + 1) % 4) dec
      | .rotateRight => decideGo ops code inputs es mem ((rot + 3) % 4) dec
      | a =>
        match Decision.ofAction a with
        | some d => decideGo ops code inputs es mem rot d
        | none => RunOut.convPanic

/-- The observable outcome of `Brain::decide`. -/
inductive DecideOutcome : Type where
  | ok (d : Decision)
  | execPanic
  | convPanic
deriving DecidableEq, Repr

/-- `Brain::decide(rng, inputs)`.  The rng is used only to shuffle the
entry list; the shuffled list is passed explicitly (`shuffled`), and the
final decision is rotated by the brain's (possibly updated)
orientation. -/
def Brain.decide {F : Type} (ops : FOps F) (b : Brain F) (inputs : List F)
    (shuffled : List ℕ) : DecideOutcome :=
  match decideGo ops b.code inputs shuffled b.memory b.rotation Decision.nothing with
  | .ok _ rot dec => DecideOutcome.ok (rotateDec rot dec)
  | .execPanic => DecideOutcome.execPanic
  | .convPanic => DecideOutcome.convPanic

/-- A concrete scalar interpretation used by witnesses: integers with
their ordinary arithmetic. -/
def intOps : FOps ℤ where
  add := (· + ·)
  sub := (· - ·)
  mul := (· * ·)
  div := (· / ·)
  lt a b := decide (a < b)
  toI32 := id

/-- The random draws one `Dna::mutate` call can make, pre-sampled.  Each
`gen_range(0, n)` of the source consumes one of these values reduced
`% n`; the two `HALF_CHANCE` samples are the booleans. -/
structure MutChoices (F : Type) : Type where
  addCodon : Bool
  codonPos : ℕ
  newCodon : Codon F
  addEntry : Bool
  entryPos : ℕ
  entryVal : ℕ

/-- The first block of `Dna::mutate` ("Handle the creation and removal
of codons"): insert a fresh codon at a random offset (shifting entries
`>= position` up) or, if the sequence is non-empty, remove the codon at
a random offset (dropping entries equal to it and shifting larger ones
down).  The second block (`Dna.mutateEntries`), on a non-empty sequence,
inserts a new entry at a random index — skipped when the *index* occurs
among the entry *values*, which is the source's (buggy) uniqueness
check — and sorts, or else removes a random entry. -/
def Dna.mutateCodons {F : Type} (dna : Dna F) (c : MutChoices F) : Dna F :=
  if c.addCodon then
    let position := c.codonPos % (dna.sequence.length + 1)
    { sequence := dna.sequence.insertIdx position c.newCodon
      entries := dna.entries.map (fun e => if position ≤ e then e + 1 else e) }
  else if dna.sequence.length ≠ 0 then
    let position := c.codonPos % dna.sequence.length
    { sequence := dna.sequence.eraseIdx position
      entries := (dna.entries.filter (fun e => e ≠ position)).map
        (fun e => if position < e then e - 1 else e) }
  else dna

/-- The second block of `Dna::mutate` ("Handle the creation and removal
of entry points"), acting on the phase-1 result. -/
def Dna.mutateEntries {F : Type} (dna1 : Dna F) (c : MutChoices F) : Dna F :=
  if dna1.sequence.length ≠ 0 ∧ c.addEntry then
    let position := c.entryPos % (dna1.entries.length + 1)
    if dna1.entries.contains position then dna1
    else
      { dna1 with
        entries :=
          (dna1.entries.insertIdx position (c.entryVal % dna1.sequence.length)).insertionSort
            (· ≤ ·) }
  else if dna1.entries.length ≠ 0 then
    { dna1 with entries := dna1.entries.eraseIdx (c.entryPos % dna1.entries.length) }
  else dna1

/-- One full `Dna::mutate` call: the codon edit followed by the entry
edit. -/
def Dna.mutate {F : Type} (dna : Dna F) (c : MutChoices F) : Dna F :=
  (dna.mutateCodons c).mutateEntries c

/-- `split_points` of `src/sim/brain.rs`: cut `items` at the given
offsets (prepending an implicit `0` unless the first offset is already
`0` or there are no offsets), with a final cut at `items.len()`; each
adjacent pair `(a, b)` of cut points contributes the slice
`items[a..b]`. -/
def split_points {C : Type} (points : List ℕ) (items : List C) : List (List C) :=
  let pts :=
    (match points.head? with
      | some n => if n ≠ 0 then [0] else []
      | none => []) ++ points ++ [items.length]
  (pts.zip pts.tail).map (fun p => (items.drop p.1).take (p.2 - p.1))

/-- The gene list of a genome: its sequence split at its entry offsets. -/
def Dna.genes {F : Type} (dna : Dna F) : List (List (Codon F)) :=
  split_points dna.entries dna.sequence

/-- The padding loop of `crossover`: insert `offBy` empty genes, one at
a time, each at a random position of the current list. -/
def padGenes {C : Type} : ℕ → List ℕ → List (List C) → List (List C)
  | 0, _, g => g
  | n + 1, ch, g => padGenes n ch.tail (g.insertIdx (ch.headD 0 % (g.length + 1)) [])

/-- The random draws of one `crossover` call: per parent the pad
positions, per gene slot the parent selector. -/
structure CrossChoices : Type where
  padChoices : List (List ℕ)
  whichChoices : List ℕ

/-- The final build loop of `crossover`, refactored over the list of the
already chosen per-slot genes: each non-empty gene is appended to the
child sequence with a new entry recorded at its start offset. -/
def crossBuild {F : Type} :
    List (List (Codon F)) → List (Codon F) → List ℕ → List (Codon F) × List ℕ
  | [], seq, ent => (seq, ent)
  | g :: gs, seq, ent =>
    if g.isEmpty then crossBuild gs seq ent else crossBuild gs (seq ++ g) (ent ++ [seq.length])

/-- The gene chosen for slot `i`: a random parent's padded gene list,
indexed at `i`.  (`genes[which][i]` in the source; the padded lists all
have length `highest`, proved below, so the `getD` defaults are never
used on the runs the theorems talk about.) -/
def slotGene {F : Type} (padded : List (List (List (Codon F)))) (ch : CrossChoices)
    (i : ℕ) : List (Codon F) :=
  (padded.getD (ch.whichChoices.getD i 0 % padded.length) []).getD i []

/-- `crossover` of `src/sim/brain.rs`.  The rng shuffle of the parent
list is modelled by quantifying over the order of `dnas`; the
`.max().expect(..)` panic on an empty parent list is totalised to `0`
(theorems assume a non-empty parent list). -/
def crossover {F : Type} (dnas : List (Dna F)) (ch : CrossChoices) : Dna F :=
  let genes := dnas.map Dna.genes
  let highest := (genes.map List.length).foldr max 0
  let padded := genes.mapIdx (fun i g => padGenes (highest - g.length) (ch.padChoices.getD i []) g)
  let r := crossBuild ((List.range highest).map (slotGene padded ch)) [] []
  { sequence := r.1, entries := r.2 }

/-- The sensory input vector as assembled by `Evonomics::step`: the 20
neighbor-derived values (5 per neighbor, in world order) rotated left by
`5 * rotation`, followed by the cell's own food and money. -/
def assembleInputs {F : Type} (rot : ℕ) (neighborVals selfVals : List F) : List F :=
  neighborVals.rotate (5 * rot) ++ selfVals

/-- Mapping a function over the decision of a successful outcome. -/
def DecideOutcome.mapDec (f : Decision → Decision) : DecideOutcome → DecideOutcome
  | .ok d => .ok (f d)
  | .execPanic => DecideOutcome.execPanic
  | .convPanic => DecideOutcome.convPanic

/-- Shifting the final orientation of a gene-loop run by `k` quarter
turns. -/
def RunOut.shiftRot {F : Type} (k : ℕ) : RunOut F → RunOut F
  | .ok m r d => .ok m ((r + k) % 4) d
  | .execPanic => RunOut.execPanic
  | .convPanic => RunOut.convPanic


-- ===================== SIMULATION DEFINITIONS BELOW =====================

/-- The start offsets of the members of a concatenation:
`cumStarts off [g1, g2, ...] = [off, off + |g1|, off + |g1| + |g2|, ...]`. -/
def cumStarts {C : Type} : ℕ → List (List C) → List ℕ
  | _, [] => []
  | off, g :: gs => off :: cumStarts (off + g.length) gs

/-- A concrete genome used by the C4 witness. -/
def c4d : Dna ℤ := ⟨[Codon.add], [0]⟩

/-- A concrete mutation-choice vector used by the C4 witness. -/
def c4c : MutChoices ℤ := ⟨true, 0, Codon.less, true, 1, 0⟩

/-- Concrete parent genomes used by the C7 witness. -/
def c7dnas : List (Dna ℤ) := [⟨[Codon.add, Codon.less], [1]⟩, ⟨[Codon.mul], [0]⟩]

/-- Concrete crossover choices used by the C7 witness. -/
def c7ch : CrossChoices := ⟨[[0], [1]], [0, 1]⟩

/-- `SPAWN_FOOD` from `src/sim.rs`. -/
def SPAWN_FOOD : ℕ := 16

/-- `MOVE_PENALTY` from `src/sim.rs`. -/
def MOVE_PENALTY : ℕ := 8

/-- `RESERVE_MULTIPLIER` from `src/sim.rs`. -/
def RESERVE_MULTIPLIER : ℕ := 64

/-- `REPO` from `src/sim.rs`: the bid-side reserve fallback is compiled
out. -/
def REPO : Bool := false

/-- `enum CellType` of `src/sim.rs`. -/
inductive CellType : Type where
  | wall
  | source
  | empty
deriving DecidableEq, Repr

/-- `struct Trade` of `src/sim.rs` (`rate` and `food` are `i32`). -/
structure MTrade : Type where
  rate : ℤ
  food : ℤ
deriving DecidableEq, Repr

/-- `struct Cell` of `src/sim.rs`, over an abstract brain type `B` and
signal type `S` (the signal is `f64` in the source; nothing proved here
depends on it). -/
structure MCell (B S : Type) : Type where
  food : ℕ
  money : ℕ
  ty : CellType
  signal : S
  brain : Option B
  trade : Option MTrade

/-- `struct Diff` of `src/sim.rs`. -/
structure MDiff : Type where
  consume : ℕ
  spend : ℕ
  moved : Bool
  trade : Option MTrade

/-- `struct Move` of `src/sim.rs`. -/
structure MMove (B : Type) : Type where
  food : ℕ
  money : ℕ
  brain : Option B

/-- The pure, brain-independent environment of the simulation: the zero
signal (`0.0`), the signal read from a brain (`Brain::signal`, register
0), and the generation bump applied to the clone a `Divide` sends out.
Abstract because the money/occupancy claims are independent of them. -/
structure SimEnv (B S : Type) : Type where
  zeroSig : S
  sigOf : B → S
  incGen : B → B

/-- The per-cell random draws of one `Evonomics::update` call and the
brain operations whose rng-dependent results are abstracted: the
`combine` of co-arriving brains, the mutation coin and mutation result,
the spawn coin and the freshly sampled brain, the food-regeneration
coin, and the `CORNACOPIA_FOOD_SPAWN` bounty (a mutable global in the
source). -/
structure URng (B : Type) : Type where
  combineFn : List B → B
  doMutate : Bool
  mutateFn : B → B
  doSpawn : Bool
  spawnBrain : B
  doFood : Bool
  bounty : ℕ

/-- The four neighbor directions in a fixed iteration order. -/
def dirList : List Dir := [Dir.right, Dir.up, Dir.left, Dir.down]

/-- The opposite direction: the payload a cell emits toward `d` is the
payload its `d`-neighbor receives from direction `opp d`. -/
def Dir.opp : Dir → Dir
  | .right => .left
  | .left => .right
  | .up => .down
  | .down => .up

/-- The `just_exist` closure of `Evonomics::step`: consume one food, no
movement. -/
def justExist {B : Type} (t : Option MTrade) : MDiff × (Dir → MMove B) :=
  (⟨1, 0, false, t⟩, fun _ => ⟨0, 0, none⟩)

/-- `Evonomics::step`.  The decision is the (rng-dependent) result of
`Brain::decide` on the assembled sensory vector, abstracted as an input;
every decision a brain can produce is covered.  An unaffordable decision
degrades to `just_exist`. -/
def mstep {B S : Type} (env : SimEnv B S) (c : MCell B S) (dec : Decision) :
    MDiff × (Dir → MMove B) :=
  if c.brain.isNone ∨ c.food = 0 then
    (⟨0, 0, true, none⟩, fun _ => ⟨0, 0, none⟩)
  else
    match dec with
    | .move dir =>
      if MOVE_PENALTY < c.food then
        (⟨c.food, c.money, true, none⟩,
          fun nd =>
            if nd = dir then ⟨c.food - 1 - MOVE_PENALTY, c.money, c.brain⟩ else ⟨0, 0, none⟩)
      else justExist none
    | .divide dir =>
      if 2 + MOVE_PENALTY ≤ c.food then
        (⟨c.food / 2 + 1 + MOVE_PENALTY / 2, c.money / 2, false, none⟩,
          fun nd =>
            if nd = dir then
              ⟨c.food / 2 - MOVE_PENALTY / 2, c.money / 2, c.brain.map env.incGen⟩
            else ⟨0, 0, none⟩)
      else justExist none
    | .trade rate food =>
      if food < (c.food : ℤ) ∧ -(rate * food) ≤ (c.money : ℤ) then
        justExist (some ⟨rate, food⟩)
      else justExist none
    | .nothing => justExist none

/-- Total money carried by the four incoming move payloads. -/
def moneyIn {B : Type} (inc : Dir → MMove B) : ℕ := ∑ d : Dir, (inc d).money

/-- Total food carried by the four incoming move payloads. -/
def foodIn {B : Type} (inc : Dir → MMove B) : ℕ := ∑ d : Dir, (inc d).food

/-- `Evonomics::update`.  Wall cells only accumulate incoming money (to
be reclaimed by the reserve at the end of the tick); all other effects —
resource subtraction (`saturating_sub` is `ℕ` subtraction), vacating,
trade installation, brain arrival/merging, mutation, spawning, food
regeneration and the signal — follow the source order. -/
def update {B S : Type} (env : SimEnv B S) (c : MCell B S) (d : MDiff)
    (inc : Dir → MMove B) (r : URng B) : MCell B S :=
  let money1 := c.money + moneyIn inc
  if c.ty = CellType.wall then
    { c with money := money1 }
  else
    let food1 := c.food - d.consume
    let money2 := money1 - d.spend
    let brain1 := if d.moved then none else c.brain
    let brainMoves := (dirList.map (fun dd => (inc dd).brain)).reduceOption
    let brain2 :=
      if 1 < brainMoves.length + (if brain1.isSome then 1 else 0) then
        some (r.combineFn (brain1.toList ++ brainMoves))
      else if brainMoves.length = 1 then brainMoves.head?
      else brain1
    let food2 := food1 + foodIn inc
    let brain3 :=
      match brain2 with
      | some b => if r.doMutate then some (r.mutateFn b) else some b
      | none => none
    let brain4 := if brain3.isNone ∧ r.doSpawn = true then some r.spawnBrain else brain3
    let food3 := if brain3.isNone ∧ r.doSpawn = true then food2 + SPAWN_FOOD else food2
    let food4 :=
      if c.ty = CellType.source then (if r.doFood then food3 + r.bounty else food3)
      else (if r.doFood then food3 + 1 else food3)
    { food := food4, money := money2, ty := c.ty,
      signal := match brain4 with | some b => env.sigOf b | none => env.zeroSig,
      brain := brain4, trade := d.trade }

/-- The wrapping successor on `Fin n`. -/
def finSucc {n : ℕ} (i : Fin n) : Fin n :=
  ⟨(i.1 + 1) % n, Nat.mod_lt _ (Nat.lt_of_le_of_lt (Nat.zero_le _) i.isLt)⟩

/-- The wrapping predecessor on `Fin n`. -/
def finPred {n : ℕ} (i : Fin n) : Fin n :=
  ⟨(i.1 + (n - 1)) % n, Nat.mod_lt _ (Nat.lt_of_le_of_lt (Nat.zero_le _) i.isLt)⟩

/-- The toroidal neighbor map of the square grid (`gridsim` wraps both
axes). -/
def nbr {w h : ℕ} (p : Fin h × Fin w) (d : Dir) : Fin h × Fin w :=
  match d with
  | .right => (p.1, finSucc p.2)
  | .left => (p.1, finPred p.2)
  | .up => (finPred p.1, p.2)
  | .down => (finSucc p.1, p.2)

/-- One synchronous grid cycle (`SquareGrid::cycle`): every cell is
stepped on the old grid, and every cell is updated with its own diff
plus the move payloads its neighbors directed at it. -/
def cycleCells {B S : Type} {w h : ℕ} (env : SimEnv B S)
    (cells : Fin h × Fin w → MCell B S) (dec : Fin h × Fin w → Decision)
    (urng : Fin h × Fin w → URng B) : Fin h × Fin w → MCell B S :=
  fun p =>
    update env (cells p) (mstep env (cells p) (dec p)).1
      (fun d => (mstep env (cells (nbr p d)) (dec (nbr p d))).2 d.opp)
      (urng p)

/-- `struct Order` of `Sim::tick` (the flat cell index is kept as a grid
position). -/
structure MOrder (w h : ℕ) : Type where
  index : Fin h × Fin w
  rate : ℤ
  food : ℤ
deriving DecidableEq

/-- `struct Sim` of `src/sim.rs`: the grid plus the market telemetry.
The bid/ask priority queues are *not* part of this state — they are
local variables of `tick` in the source. -/
structure SimSt (B S : Type) (w h : ℕ) : Type where
  cells : Fin h × Fin w → MCell B S
  reserve : ℕ
  lastBid : Option ℤ
  lastAsk : Option ℤ
  buyVolume : ℕ
  sellVolume : ℕ

/-- Update one cell of the grid. -/
def updCell {B S : Type} {w h : ℕ} (s : SimSt B S w h) (i : Fin h × Fin w)
    (f : MCell B S → MCell B S) : SimSt B S w h :=
  { s with cells := Function.update s.cells i (f (s.cells i)) }

/-- `MinMaxHeap::pop_min` on the resting-order book, modelled on a list:
remove a minimal-rate order (the heap's tie order among equal rates is
unspecified; the first is taken). -/
def popMinRate {w h : ℕ} : List (MOrder w h) → Option (MOrder w h × List (MOrder w h))
  | [] => none
  | o :: os =>
    match popMinRate os with
    | none => some (o, [])
    | some (m, rest) => if o.rate ≤ m.rate then some (o, os) else some (m, o :: rest)

/-- `MinMaxHeap::pop_max`, the mirror of `popMinRate`. -/
def popMaxRate {w h : ℕ} : List (MOrder w h) → Option (MOrder w h × List (MOrder w h))
  | [] => none
  | o :: os =>
    match popMaxRate os with
    | none => some (o, [])
    | some (m, rest) => if m.rate ≤ o.rate then some (o, os) else some (m, o :: rest)

/-- The `fulfill` closure of `Sim::tick`: trade `min(|new|, |existing|)`
units at the *resting* (`existing`) order's rate, moving money and food
between the two cells in opposite directions and counting the volume on
both sides.  The `(x as i32 ± …) as u32` casts are modelled by exact
integer arithmetic plus `Int.toNat`; the conservation proof shows the
money results are non-negative (and bounded by the conserved total), so
the casts are value-preserving on the runs the theorems cover. -/
def fulfill {B S : Type} {w h : ℕ} (s : SimSt B S w h) (new existing : MOrder w h) :
    SimSt B S w h × MOrder w h × MOrder w h :=
  let rate := existing.rate
  let num : ℤ := ↑(min new.food.natAbs existing.food.natAbs)
  let s1 := updCell s new.index (fun c =>
    { c with money := ((c.money : ℤ) + rate * num * new.food.sign).toNat
             food := ((c.food : ℤ) - num * new.food.sign).toNat })
  let new' := { new with food := new.food - new.food.sign * num }
  let s2 := updCell s1 existing.index (fun c =>
    { c with money := ((c.money : ℤ) + rate * num * existing.food.sign).toNat
             food := ((c.food : ℤ) - num * existing.food.sign).toNat })
  let existing' := { existing with food := existing.food - existing.food.sign * num }
  ({ s2 with buyVolume := s2.buyVolume + num.toNat, sellVolume := s2.sellVolume + num.toNat },
    new', existing')

/-- The `fulfill_reserve` closure: an ask sells up to `reserve` units to
the reserve at one money per food. -/
def fulfillReserve {B S : Type} {w h : ℕ} (s : SimSt B S w h) (o : MOrder w h) :
    SimSt B S w h × MOrder w h :=
  let num : ℤ := min o.food (s.reserve : ℤ)
  let s1 := updCell s o.index (fun c =>
    { c with money := ((c.money : ℤ) + num * o.food.sign).toNat
             food := ((c.food : ℤ) - num * o.food.sign).toNat })
  let o' := { o with food := o.food - o.food.sign * num }
  ({ s1 with reserve := ((s1.reserve : ℤ) - num).toNat,
             sellVolume := s1.sellVolume + num.toNat }, o')

/-- The `food_reserve` closure: a bid buys its whole remainder from the
reserve at one money per food.  Dead code in the source (`REPO` is
`false`), included for fidelity. -/
def foodReserve {B S : Type} {w h : ℕ} (s : SimSt B S w h) (o : MOrder w h) :
    SimSt B S w h × MOrder w h :=
  let num : ℤ := -o.food
  let s1 := updCell s o.index (fun c =>
    { c with money := ((c.money : ℤ) + num * o.food.sign).toNat
             food := ((c.food : ℤ) - num * o.food.sign).toNat })
  let o' := { o with food := o.food - o.food.sign * num }
  ({ s1 with reserve := s1.reserve + num.toNat,
             buyVolume := s1.buyVolume + num.toNat }, o')

/-- If one side of a fill keeps a non-zero remainder, the other side was
filled completely (`num` is the minimum of the two magnitudes). -/
theorem fulfill_remainder (a b : ℤ) :
    a - a.sign * ↑(min a.natAbs b.natAbs) = 0 ∨
    b - b.sign * ↑(min a.natAbs b.natAbs) = 0 := by
  rcases le_total a.natAbs b.natAbs with hab | hab
  · left
    rw [min_eq_left hab, Int.sign_mul_natAbs]
    ring
  · right
    rw [min_eq_right hab, Int.sign_mul_natAbs]
    ring

/-- `popMinRate` fails only on the empty book. -/
theorem popMinRate_none {w h : ℕ} (l : List (MOrder w h)) : popMinRate l = none ↔ l = [] := by
  cases l with
  | nil => simp [popMinRate]
  | cons a os =>
    simp only [popMinRate]
    cases popMinRate os with
    | none => simp
    | some pr =>
      obtain ⟨m, r⟩ := pr
      dsimp only
      split <;> simp

/-- Popping the minimum splits the book into the popped order and the
rest (this theorem precedes the matching loops because their termination
arguments use it). -/
theorem popMinRate_perm {w h : ℕ} :
    ∀ (l : List (MOrder w h)) (o : MOrder w h) (rest : List (MOrder w h)),
      popMinRate l = some (o, rest) → l.Perm (o :: rest) := by
  intro l
  induction l with
  | nil => intro o rest h; simp [popMinRate] at h
  | cons a os ih =>
    intro o rest h
    rw [popMinRate] at h
    cases hrec : popMinRate os with
    | none =>
      rw [hrec] at h
      simp only [Option.some.injEq, Prod.mk.injEq] at h
      obtain ⟨rfl, rfl⟩ := h
      have hos : os = [] := (popMinRate_none os).mp hrec
      subst hos
      exact List.Perm.refl _
    | some pr =>
      obtain ⟨m, r⟩ := pr
      rw [hrec] at h
      dsimp only at h
      split at h
      · simp only [Option.some.injEq, Prod.mk.injEq] at h
        obtain ⟨rfl, rfl⟩ := h
        exact List.Perm.refl _
      · simp only [Option.some.injEq, Prod.mk.injEq] at h
        obtain ⟨rfl, rfl⟩ := h
        exact ((ih m r hrec).cons a).trans (List.Perm.swap _ _ _)

/-- `popMaxRate` fails only on the empty book. -/
theorem popMaxRate_none {w h : ℕ} (l : List (MOrder w h)) : popMaxRate l = none ↔ l = [] := by
  cases l with
  | nil => simp [popMaxRate]
  | cons a os =>
    simp only [popMaxRate]
    cases popMaxRate os with
    | none => simp
    | some pr =>
      obtain ⟨m, r⟩ := pr
      dsimp only
      split <;> simp

/-- Popping the maximum splits the book into the popped order and the
rest. -/
theorem popMaxRate_perm {w h : ℕ} :
    ∀ (l : List (MOrder w h)) (o : MOrder w h) (rest : List (MOrder w h)),
      popMaxRate l = some (o, rest) → l.Perm (o :: rest) := by
  intro l
  induction l with
  | nil => intro o rest h; simp [popMaxRate] at h
  | cons a os ih =>
    intro o rest h
    rw [popMaxRate] at h
    cases hrec : popMaxRate os with
    | none =>
      rw [hrec] at h
      simp only [Option.some.injEq, Prod.mk.injEq] at h
      obtain ⟨rfl, rfl⟩ := h
      have hos : os = [] := (popMaxRate_none os).mp hrec
      subst hos
      exact List.Perm.refl _
    | some pr =>
      obtain ⟨m, r⟩ := pr
      rw [hrec] at h
      dsimp only at h
      split at h
      · simp only [Option.some.injEq, Prod.mk.injEq] at h
        obtain ⟨rfl, rfl⟩ := h
        exact List.Perm.refl _
      · simp only [Option.some.injEq, Prod.mk.injEq] at h
        obtain ⟨rfl, rfl⟩ := h
        exact ((ih m r hrec).cons a).trans (List.Perm.swap _ _ _)

/-- The `Intent::Bid` matching loop of `Sim::tick`: repeatedly pop the
lowest-rate resting ask; if none fits, rest the bid (the popped
unmatchable ask, if any, is dropped — the source does not push it back);
otherwise fill at the resting ask's rate, push back the ask's remainder,
and stop when the bid completes.  Returns the updated sim state and the
two books. -/
def bidLoop {B S : Type} {w h : ℕ} (s : SimSt B S w h) (o : MOrder w h)
    (bids asks : List (MOrder w h)) :
    SimSt B S w h × List (MOrder w h) × List (MOrder w h) :=
  match hpop : popMinRate asks with
  | none =>
    let pair := if REPO ∧ 1 ≤ o.rate then foodReserve s o else (s, o)
    (pair.1, if pair.2.food ≠ 0 then bids ++ [pair.2] else bids, asks)
  | some (ask, rest) =>
    if o.rate < ask.rate then
      (s, if o.food ≠ 0 then bids ++ [o] else bids, rest)
    else
      let t := fulfill s o ask
      let asks1 := if t.2.2.food ≠ 0 then rest ++ [t.2.2] else rest
      if hdone : t.2.1.food = 0 then (t.1, bids, asks1)
      else bidLoop t.1 t.2.1 bids asks1
termination_by asks.length
decreasing_by
  have hlen : rest.length < asks.length := by
    have := (popMinRate_perm asks ask rest hpop).length_eq
    simp at this
    omega
  have hask : t.2.2.food = 0 := by
    rcases fulfill_remainder o.food ask.food with hz | hz
    · exact absurd hz hdone
    · exact hz
  split
  · exact absurd hask (by assumption)
  · exact hlen

/-- The `Intent::Ask` matching loop of `Sim::tick`: repeatedly pop the
highest-rate resting bid; if none fits, sell to the reserve when the ask
rate is at most 1 and rest the ask (an unmatchable popped bid is
dropped); otherwise — selling to the reserve first when the popped bid's
rate is below 1 — fill at the resting bid's rate, push back the bid's
remainder, and stop when the ask completes. -/
def askLoop {B S : Type} {w h : ℕ} (s : SimSt B S w h) (o : MOrder w h)
    (bids asks : List (MOrder w h)) :
    SimSt B S w h × List (MOrder w h) × List (MOrder w h) :=
  match hpop : popMaxRate bids with
  | none =>
    let pair := if o.rate ≤ 1 then fulfillReserve s o else (s, o)
    (pair.1, bids, if pair.2.food ≠ 0 then asks ++ [pair.2] else asks)
  | some (bid, rest) =>
    if bid.rate < o.rate then
      let pair := if o.rate ≤ 1 then fulfillReserve s o else (s, o)
      (pair.1, rest, if pair.2.food ≠ 0 then asks ++ [pair.2] else asks)
    else
      if bid.rate < 1 then
        let t := fulfill (fulfillReserve s o).1 (fulfillReserve s o).2 bid
        let bids1 := if t.2.2.food ≠ 0 then rest ++ [t.2.2] else rest
        if hdone : t.2.1.food = 0 then (t.1, bids1, asks)
        else askLoop t.1 t.2.1 bids1 asks
      else
        let t := fulfill s o bid
        let bids1 := if t.2.2.food ≠ 0 then rest ++ [t.2.2] else rest
        if hdone : t.2.1.food = 0 then (t.1, bids1, asks)
        else askLoop t.1 t.2.1 bids1 asks
termination_by bids.length
decreasing_by
  · have hlen : rest.length < bids.length := by
      have := (popMaxRate_perm bids bid rest hpop).length_eq
      simp at this
      omega
    have hbid : t.2.2.food = 0 := by
      rcases fulfill_remainder (fulfillReserve s o).2.food bid.food with hz | hz
      · exact absurd hz hdone
      · exact hz
    split
    · exact absurd hbid (by assumption)
    · exact hlen
  · have hlen : rest.length < bids.length := by
      have := (popMaxRate_perm bids bid rest hpop).length_eq
      simp at this
      omega
    have hbid : t.2.2.food = 0 := by
      rcases fulfill_remainder o.food bid.food with hz | hz
      · exact absurd hz hdone
      · exact hz
    split
    · exact absurd hbid (by assumption)
    · exact hlen

/-- Dispatch of one order by the sign of its quantity (`Order::intent`). -/
def marketFold {B S : Type} {w h : ℕ}
    (acc : SimSt B S w h × List (MOrder w h) × List (MOrder w h)) (o : MOrder w h) :
    SimSt B S w h × List (MOrder w h) × List (MOrder w h) :=
  if o.food < 0 then bidLoop acc.1 o acc.2.1 acc.2.2
  else if 0 < o.food then askLoop acc.1 o acc.2.1 acc.2.2
  else acc

/-- All grid positions in grid-scan order. -/
def allIdx (w h : ℕ) : List (Fin h × Fin w) :=
  (List.finRange h).product (List.finRange w)

/-- Order extraction in `Sim::tick`: every cell's pending trade, paired
with its position, in grid-scan order (the extraction also clears the
cells' `trade` fields; `tick` below does the clearing). -/
def extractOrders {B S : Type} {w h : ℕ} (cells : Fin h × Fin w → MCell B S) :
    List (MOrder w h) :=
  (allIdx w h).filterMap (fun p => (cells p).trade.map (fun t => ⟨p, t.rate, t.food⟩))

/-- Money sitting on wall cells, reclaimed by the reserve at the end of
every tick. -/
def wallMoney {B S : Type} {w h : ℕ} (cells : Fin h × Fin w → MCell B S) : ℕ :=
  ∑ p : Fin h × Fin w, if (cells p).ty = CellType.wall then (cells p).money else 0

/-- `Sim::tick`.  The grid is cycled; the pending trades are extracted
(clearing them) and processed — in the rng-shuffled order `ords`, an
explicit parameter — against two *fresh, tick-local* books starting from
empty; the surviving best bid/ask rates are recorded as telemetry (the
orders themselves are discarded with the books); finally all money on
wall cells is swept into the reserve. -/
def tick {B S : Type} {w h : ℕ} (env : SimEnv B S) (s : SimSt B S w h)
    (dec : Fin h × Fin w → Decision) (urng : Fin h × Fin w → URng B)
    (ords : List (MOrder w h)) : SimSt B S w h :=
  let cells1 := cycleCells env s.cells dec urng
  let cells2 := fun p => { cells1 p with trade := none }
  let s1 : SimSt B S w h :=
    { cells := cells2, reserve := s.reserve, lastBid := s.lastBid, lastAsk := s.lastAsk,
      buyVolume := 0, sellVolume := 0 }
  let res := ords.foldl marketFold (s1, ([] : List (MOrder w h)), ([] : List (MOrder w h)))
  let s2 := res.1
  let s3 := { s2 with
    lastBid := (popMaxRate res.2.1).map (fun x : MOrder w h × List (MOrder w h) => x.1.rate),
    lastAsk := (popMinRate res.2.2).map (fun x : MOrder w h × List (MOrder w h) => x.1.rate) }
  { s3 with
    cells := fun p =>
      if (s3.cells p).ty = CellType.wall then { s3.cells p with money := 0 } else s3.cells p,
    reserve := s3.reserve + wallMoney s3.cells }

/-- `Sim::tick` with the identity shuffle: the orders are processed in
grid-scan extraction order (one realisation of the rng shuffle). -/
def tickCanon {B S : Type} {w h : ℕ} (env : SimEnv B S) (s : SimSt B S w h)
    (dec : Fin h × Fin w → Decision) (urng : Fin h × Fin w → URng B) : SimSt B S w h :=
  tick env s dec urng (extractOrders (cycleCells env s.cells dec urng))

/-- `Sim::new`: all cells default (no food, no money, no brain, no
pending trade), with the cell types carved by the maze generator and the
cornucopia sprinkling (`walls`, abstract — any pattern the generator can
produce is covered); the reserve starts at
`width * height * RESERVE_MULTIPLIER`. -/
def SimSt.new {B S : Type} (env : SimEnv B S) (w h : ℕ)
    (walls : Fin h × Fin w → CellType) : SimSt B S w h :=
  { cells := fun p =>
      { food := 0, money := 0, ty := walls p, signal := env.zeroSig, brain := none,
        trade := none },
    reserve := w * h * RESERVE_MULTIPLIER,
    lastBid := none, lastAsk := none, buyVolume := 0, sellVolume := 0 }

/-- The states reachable from `Sim::new` by complete ticks, over all
wall patterns, all brain decisions, all per-cell randomness and all
order shuffles (`ords` ranges over the permutations of the extracted
order batch). -/
inductive Reachable {B S : Type} (env : SimEnv B S) (w h : ℕ) : SimSt B S w h → Prop where
  | init (walls : Fin h × Fin w → CellType) : Reachable env w h (SimSt.new env w h walls)
  | step (s : SimSt B S w h) (dec : Fin h × Fin w → Decision)
      (urng : Fin h × Fin w → URng B) (ords : List (MOrder w h))
      (hs : Reachable env w h s)
      (hperm : ords.Perm (extractOrders (cycleCells env s.cells dec urng))) :
      Reachable env w h (tick env s dec urng ords)

/-- Total money held by the grid cells. -/
def moneySum {B S : Type} {w h : ℕ} (s : SimSt B S w h) : ℕ :=
  ∑ p : Fin h × Fin w, (s.cells p).money

/-- A trivial environment and brain type for concrete runs. -/
def unitEnv : SimEnv Unit Unit := ⟨(), fun _ => (), fun _ => ()⟩

/-- Total money held by a cell field. -/
def cellsMoney {B S : Type} {w h : ℕ} (cells : Fin h × Fin w → MCell B S) : ℕ :=
  ∑ p : Fin h × Fin w, (cells p).money

/-- Total money in the system: cells plus reserve. -/
def totalMoney {B S : Type} {w h : ℕ} (s : SimSt B S w h) : ℕ :=
  moneySum s + s.reserve

/-- The order's owner can afford it: the cost check of the `Trade`
branch of `Evonomics::step` (`cost = -rate * food <= cell.money`),
re-read against the current grid. -/
def afford {B S : Type} {w h : ℕ} (s : SimSt B S w h) (o : MOrder w h) : Prop :=
  -(o.rate * o.food) ≤ (((s.cells o.index).money : ℤ))

/-- Well-formed books: resting bids have negative quantity, resting asks
positive, and every resting order is still affordable by its cell. -/
def BookWF {B S : Type} {w h : ℕ} (s : SimSt B S w h)
    (bids asks : List (MOrder w h)) : Prop :=
  (∀ o ∈ bids, o.food < 0 ∧ afford s o) ∧ (∀ o ∈ asks, 0 < o.food ∧ afford s o)

/-- The concrete 1×2 grid used by the C3/C5 scenarios: cell `(0,0)` (the
bidder) holds 10 food and 100 money, cell `(0,1)` (the asker) 20 food
and 50 money, both occupied. -/
def mktCells : Fin 1 × Fin 2 → MCell Unit Unit := fun p =>
  if p.2 = (0 : Fin 2) then ⟨10, 100, CellType.empty, (), some (), none⟩
  else ⟨20, 50, CellType.empty, (), some (), none⟩

/-- The bidder's position in the scenario grid. -/
def mp0 : Fin 1 × Fin 2 := (0, 0)

/-- The asker's position in the scenario grid. -/
def mp1 : Fin 1 × Fin 2 := (0, 1)

/-- The scenario simulation state. -/
def mktSt : SimSt Unit Unit 2 1 :=
  { cells := mktCells, reserve := 128, lastBid := none, lastAsk := none,
    buyVolume := 0, sellVolume := 0 }

/-- Per-cell randomness with every coin off. -/
def noRng : URng Unit := ⟨fun _ => (), false, id, false, (), false, 0⟩

/-- Tick-1 decisions of the C5 scenario: the asker emits
`Trade(rate 3, qty 4)`. -/
def c5dec1 : Fin 1 × Fin 2 → Decision := fun p =>
  if p = mp1 then Decision.trade 3 4 else Decision.nothing

/-- Tick-2 decisions of the C5 scenario: the bidder emits
`Trade(rate 5, qty -3)`. -/
def c5dec2 : Fin 1 × Fin 2 → Decision := fun p =>
  if p = mp0 then Decision.trade 5 (-3) else Decision.nothing

/-- The market pass never touches a cell's type, occupant or pending
trade; this predicate records that. -/
def metaSame {B S : Type} (c c' : MCell B S) : Prop :=
  c'.ty = c.ty ∧ c'.brain = c.brain ∧ c'.trade = c.trade

/-- The C3 order batch: the bid (rate 5, quantity -3) from the bidder
cell, then the ask (rate 3, quantity 4) from the asker cell. -/
def c3ords : List (MOrder 2 1) := [⟨mp0, 5, -3⟩, ⟨mp1, 3, 4⟩]

-- ===================== THEOREMS =====================

theorem rotN_four (d : Dir) : Dir.rotN 4 d = d := by
  cases d <;> rfl

theorem rotN_add (a b : ℕ) (d : Dir) : Dir.rotN (a + b) d = Dir.rotN b (Dir.rotN a d) := by
  unfold Dir.rotN
  rw [Nat.add_comm]
  exact Function.iterate_add_apply _ _ _ _

theorem rotN_four_mul (q : ℕ) (d : Dir) : Dir.rotN (4 * q) d = d := by
  induction q with
  | zero => rfl
  | succ n ih =>
    have : 4 * (n + 1) = 4 * n + 4 := by ring
    rw [this, rotN_add, ih, rotN_four]

theorem rotN_mod4 (n : ℕ) (d : Dir) : Dir.rotN (n % 4) d = Dir.rotN n d := by
  conv_rhs => rw [← Nat.div_add_mod n 4]
  rw [Nat.add_comm, rotN_add, rotN_four_mul]

theorem rotateDec_comp (a k : ℕ) (d : Decision) :
    rotateDec ((a + k) % 4) d = rotateDec k (rotateDec a d) := by
  cases d <;> simp [rotateDec, rotN_mod4, rotN_add]

/-- C2: the claim is that `Dna::execute` never panics, with Copy, Read,
Write and Input operands reduced modulo their container's length.  The
code falls short in two places, evaluated here: a `Copy` operand equal
to the current stack length passes the `pos > stack.len()` guard and
indexes `stack[stack.len() - 1 - pos]`, underflowing (a panic); a `Read`
operand is applied to `memory[pos]` with no modulo at all and panics for
`pos >= NUM_STATE`.  `none` is the model's panic value. -/
theorem C2_execute_panics_on_copy_and_read_operands :
    Dna.execute intOps ⟨[Codon.literal 1, Codon.copy 1], [0]⟩ [] [0, 0, 0, 0] 0 = none ∧
    Dna.execute intOps ⟨[Codon.read 4], [0]⟩ [] [0, 0, 0, 0] 0 = none := by
  constructor <;> rfl

/-- C6 counterexample: `Dna::execute` on an empty sequence does not
return `Action::Nothing`; it indexes `sequence[at]` out of bounds and
panics (modelled by `none`). -/
theorem C6_cex_execute_empty_panics :
    Dna.execute intOps ⟨[], []⟩ [] [0, 0, 0, 0] 0 ≠ some Action.nothing := by
  decide

/-- C6 amended: on an empty sequence `Dna::execute` panics for every
entry, input slice and memory slice (first conjunct); the totality the
claim aims at holds one level up: every constructed empty-sequence
genome has no entries, so `Brain::decide` runs no genes and returns
`Decision::Nothing` without ever calling `execute` (second conjunct). -/
theorem C6_empty_genome :
    (∀ (F : Type) (ops : FOps F) (inputs memory : List F) (entry : ℕ),
      Dna.execute ops ⟨[], []⟩ inputs memory entry = none) ∧
    (∀ (F : Type) (ops : FOps F) (color : F) (rot gen : ℕ) (mem inputs : List F),
      Brain.decide ops ⟨color, rot, gen, mem, ⟨[], []⟩⟩ inputs [] =
        DecideOutcome.ok Decision.nothing) := by
  constructor
  · intro F ops inputs memory entry
    rfl
  · intro F ops color rot gen mem inputs
    rfl

/-- C10: `Brain::decide` never reaches the panicking catch-all arm of
the `From<Action> for Decision` conversion: `Write`, `RotateLeft` and
`RotateRight` actions are consumed by the earlier match arms (as a
register write resp. orientation updates `+1`/`+3 mod 4`), so only
`Move`, `Divide`, `Trade` and `Nothing` actions ever meet the
conversion, and its panic branch is unreachable from `decide`. -/
theorem C10_decide_never_conversion_panics (F : Type) (ops : FOps F) (b : Brain F)
    (inputs : List F) (shuffled : List ℕ) :
    Brain.decide ops b inputs shuffled ≠ DecideOutcome.convPanic := by
  have key : ∀ (es : List ℕ) (mem : List F) (rot : ℕ) (dec : Decision),
      decideGo ops b.code inputs es mem rot dec ≠ RunOut.convPanic := by
    intro es
    induction es with
    | nil => intro mem rot dec h; exact RunOut.noConfusion h
    | cons e es ih =>
      intro mem rot dec
      show (match b.code.execute ops inputs mem e with
        | none => RunOut.execPanic
        | some a =>
          match a with
          | .write pos v =>
            if mem.length = 0 then RunOut.execPanic
            else decideGo ops b.code inputs es (mem.set (pos % mem.length) v) rot dec
          | .rotateLeft => decideGo ops b.code inputs es mem ((rot + 1) % 4) dec
          | .rotateRight => decideGo ops b.code inputs es mem ((rot + 3) % 4) dec
          | a =>
            match Decision.ofAction a with
            | some d => decideGo ops b.code inputs es mem rot d
            | none => RunOut.convPanic) ≠ RunOut.convPanic
      cases b.code.execute ops inputs mem e with
      | none => simp
      | some a =>
        cases a with
        | write pos v =>
          by_cases h : mem.length = 0 <;> simp [h, ih]
        | rotateLeft => simp [ih]
        | rotateRight => simp [ih]
        | move dir => simp [Decision.ofAction, ih]
        | divide dir => simp [Decision.ofAction, ih]
        | trade r q => simp [Decision.ofAction, ih]
        | nothing => simp [Decision.ofAction, ih]
  unfold Brain.decide
  cases h : decideGo ops b.code inputs shuffled b.memory b.rotation Decision.nothing with
  | ok mem rot dec => simp
  | execPanic => simp
  | convPanic => exact absurd h (key _ _ _ _)

/-- Running the gene loop from an orientation shifted by `k` quarter
turns shifts the final orientation by `k` and changes nothing else: the
executed genes see the same inputs and memory, and the orientation
updates commute with the shift. -/
theorem decideGo_shiftRot (F : Type) (ops : FOps F) (code : Dna F) (inputs : List F)
    (k : ℕ) :
    ∀ (es : List ℕ) (mem : List F) (rot : ℕ) (dec : Decision),
      decideGo ops code inputs es mem ((rot + k) % 4) dec =
        RunOut.shiftRot k (decideGo ops code inputs es mem rot dec) := by
  intro es
  induction es with
  | nil => intro mem rot dec; rfl
  | cons e es ih =>
    intro mem rot dec
    simp only [decideGo]
    cases hE : code.execute ops inputs mem e with
    | none => rfl
    | some a =>
      cases a with
      | write pos v =>
        by_cases h : mem.length = 0
        · simp [h]
          rfl
        · simp [h]
          exact ih _ rot dec
      | rotateLeft =>
        have e1 : ((rot + k) % 4 + 1) % 4 = ((rot + 1) % 4 + k) % 4 := by omega
        show decideGo ops code inputs es mem (((rot + k) % 4 + 1) % 4) dec =
          RunOut.shiftRot k (decideGo ops code inputs es mem ((rot + 1) % 4) dec)
        rw [e1]
        exact ih _ _ dec
      | rotateRight =>
        have e1 : ((rot + k) % 4 + 3) % 4 = ((rot + 3) % 4 + k) % 4 := by omega
        show decideGo ops code inputs es mem (((rot + k) % 4 + 3) % 4) dec =
          RunOut.shiftRot k (decideGo ops code inputs es mem ((rot + 3) % 4) dec)
        rw [e1]
        exact ih _ _ dec
      | move dir => exact ih _ rot _
      | divide dir => exact ih _ rot _
      | trade r q => exact ih _ rot _
      | nothing => exact ih _ rot _

/-- C8, rotation invariance of `decide`: with the rng (and hence the
gene shuffle) in the same state for both runs, increasing the brain's
orientation by `k` quarter turns and cyclically rotating the 20
neighbor-derived sensory values by the same `k` groups (in the direction
that relabels the neighbors consistently with the orientation increase,
i.e. a further left-rotation by `5 * ((4 - k) % 4)` positions) yields
exactly the baseline outcome with the decision's direction component
rotated by `k` extra quarter turns — so rotating the modified run's
direction back by `k` recovers the baseline direction. -/
theorem C8_rotation_invariance (F : Type) (ops : FOps F) (b : Brain F) (k : ℕ)
    (W selfVals : List F) (shuffled : List ℕ)
    (hk : k < 4) (hW : W.length = 20) :
    Brain.decide ops { b with rotation := (b.rotation + k) % 4 }
      (assembleInputs ((b.rotation + k) % 4) (W.rotate (5 * ((4 - k) % 4))) selfVals)
      shuffled =
    DecideOutcome.mapDec (rotateDec k)
      (Brain.decide ops b (assembleInputs b.rotation W selfVals) shuffled) := by
  have hinputs :
      assembleInputs ((b.rotation + k) % 4) (W.rotate (5 * ((4 - k) % 4))) selfVals =
        assembleInputs b.rotation W selfVals := by
    unfold assembleInputs
    congr 1
    rw [List.rotate_rotate]
    rw [← List.rotate_mod W (5 * ((4 - k) % 4) + 5 * ((b.rotation + k) % 4))]
    rw [← List.rotate_mod W (5 * b.rotation)]
    rw [hW]
    congr 1
    omega
  rw [hinputs]
  unfold Brain.decide
  have hmem : ({ b with rotation := (b.rotation + k) % 4 } : Brain F).memory = b.memory := rfl
  have hcode : ({ b with rotation := (b.rotation + k) % 4 } : Brain F).code = b.code := rfl
  have hrot2 : ({ b with rotation := (b.rotation + k) % 4 } : Brain F).rotation =
      (b.rotation + k) % 4 := rfl
  rw [hmem, hcode, hrot2, decideGo_shiftRot]
  cases decideGo ops b.code (assembleInputs b.rotation W selfVals) shuffled b.memory
      b.rotation Decision.nothing with
  | ok m r d =>
    show DecideOutcome.ok (rotateDec ((r + k) % 4) d) =
      DecideOutcome.mapDec (rotateDec k) (DecideOutcome.ok (rotateDec r d))
    rw [rotateDec_comp]
    rfl
  | execPanic => rfl
  | convPanic => rfl

/-- Witness for C8 at a concrete brain, orientation shift and input
vector. -/
theorem C8_witness :
    (1 : ℕ) < 4 ∧ (List.replicate 20 (0 : ℤ)).length = 20 ∧
    Brain.decide intOps
        { color := 0, rotation := (1 + 1) % 4, generation := 0, memory := [0, 0, 0, 0],
          code := ⟨[Codon.move Dir.up], [0]⟩ }
        (assembleInputs ((1 + 1) % 4)
          ((List.replicate 20 (0 : ℤ)).rotate (5 * ((4 - 1) % 4))) [0, 0])
        [0] =
      DecideOutcome.mapDec (rotateDec 1)
        (Brain.decide intOps
          { color := 0, rotation := 1, generation := 0, memory := [0, 0, 0, 0],
            code := ⟨[Codon.move Dir.up], [0]⟩ }
          (assembleInputs 1 (List.replicate 20 (0 : ℤ)) [0, 0]) [0]) :=
  ⟨by decide, by decide,
    C8_rotation_invariance ℤ intOps
      ⟨0, 1, 0, [0, 0, 0, 0], ⟨[Codon.move Dir.up], [0]⟩⟩ 1
      (List.replicate 20 0) [0, 0] [0] (by decide) (by decide)⟩

/-- C4 counterexample: one `mutate` call can change the number of
entries by 2.  On the genome `⟨[Add, Add], [0, 1]⟩` (all entries valid
and distinct), with both coins on the removal branches and both
positions drawn as `0`, the codon-removal block drops entry `0` and the
entry-removal block drops the remaining entry: 2 entries become 0,
contradicting the claimed bound
`|new.entries.len() - old.entries.len()| <= 1`. -/
theorem C4_cex_entries_drop_by_two :
    ((⟨[Codon.add, Codon.add], [0, 1]⟩ : Dna ℤ).entries.length : ℤ) -
      ((Dna.mutate (⟨[Codon.add, Codon.add], [0, 1]⟩ : Dna ℤ)
        ⟨false, 0, Codon.add, false, 0, 0⟩).entries.length : ℤ) = 2 := by
  decide

/-- With no duplicates, filtering one value away removes at most one
element. -/
theorem length_filter_ne_nodup {l : List ℕ} {p : ℕ} (h : l.Nodup) :
    l.length ≤ (l.filter (fun e => e ≠ p)).length + 1 := by
  induction l with
  | nil => simp
  | cons a l ih =>
    rcases List.nodup_cons.mp h with ⟨ha, hl⟩
    rw [List.filter_cons]
    by_cases hap : a = p
    · subst hap
      have hda : (decide (a ≠ a)) = false := by simp
      rw [hda]
      simp only [Bool.false_eq_true, if_false]
      have hfl : List.filter (fun e => decide (e ≠ a)) l = l :=
        List.filter_eq_self.mpr (fun b hb => by
          have hba : b ≠ a := fun hba => ha (hba ▸ hb)
          simpa using hba)
      rw [hfl]
      simp
    · have hda : (decide (a ≠ p)) = true := by simpa using hap
      rw [hda]
      simp only [if_true, List.length_cons]
      have := ih hl
      omega

/-- The codon-edit block changes the sequence length by at most one,
never adds entries, drops at most one entry (for duplicate-free
entries), and preserves entry validity. -/
theorem mutateCodons_spec (F : Type) (d : Dna F) (c : MutChoices F)
    (hval : ∀ e ∈ d.entries, e < d.sequence.length) (hnd : d.entries.Nodup) :
    ((d.mutateCodons c).sequence.length ≤ d.sequence.length + 1 ∧
      d.sequence.length ≤ (d.mutateCodons c).sequence.length + 1) ∧
    ((d.mutateCodons c).entries.length ≤ d.entries.length ∧
      d.entries.length ≤ (d.mutateCodons c).entries.length + 1) ∧
    (∀ e ∈ (d.mutateCodons c).entries, e < (d.mutateCodons c).sequence.length) := by
  unfold Dna.mutateCodons
  cases hc : c.addCodon with
  | true =>
    simp only [if_true]
    have hpos : c.codonPos % (d.sequence.length + 1) ≤ d.sequence.length :=
      Nat.le_of_lt_succ (Nat.mod_lt _ (Nat.succ_pos _))
    have hlen : (d.sequence.insertIdx (c.codonPos % (d.sequence.length + 1))
        c.newCodon).length = d.sequence.length + 1 :=
      List.length_insertIdx _ _ hpos
    refine ⟨⟨by rw [hlen], by rw [hlen]; omega⟩, ⟨by simp, by simp⟩, ?_⟩
    intro e he
    simp only [List.mem_map] at he
    obtain ⟨e', he', rfl⟩ := he
    have := hval e' he'
    simp only [hlen]
    split <;> omega
  | false =>
    simp only [Bool.false_eq_true, if_false]
    by_cases hne : d.sequence.length ≠ 0
    · simp only [if_pos hne]
      have hlt : c.codonPos % d.sequence.length < d.sequence.length :=
        Nat.mod_lt _ (Nat.pos_of_ne_zero hne)
      have hlen : (d.sequence.eraseIdx (c.codonPos % d.sequence.length)).length + 1 =
          d.sequence.length :=
        List.length_eraseIdx_add_one hlt
      refine ⟨⟨by omega, by omega⟩, ⟨?_, ?_⟩, ?_⟩
      · simp only [List.length_map]
        exact List.length_filter_le _ _
      · simp only [List.length_map]
        exact length_filter_ne_nodup hnd
      · intro e he
        simp only [List.mem_map, List.mem_filter] at he
        obtain ⟨e', ⟨he', hne'⟩, rfl⟩ := he
        have hv := hval e' he'
        have hne'' : e' ≠ c.codonPos % d.sequence.length := by
          simpa using hne'
        split <;> omega
    · simp only [if_neg hne]
      exact ⟨⟨by omega, by omega⟩, ⟨le_refl _, by omega⟩, hval⟩

/-- The entry-edit block leaves the sequence untouched, changes the
number of entries by at most one, and preserves entry validity. -/
theorem mutateEntries_spec (F : Type) (d1 : Dna F) (c : MutChoices F)
    (hval : ∀ e ∈ d1.entries, e < d1.sequence.length) :
    (d1.mutateEntries c).sequence = d1.sequence ∧
    ((d1.mutateEntries c).entries.length ≤ d1.entries.length + 1 ∧
      d1.entries.length ≤ (d1.mutateEntries c).entries.length + 1) ∧
    (∀ e ∈ (d1.mutateEntries c).entries, e < (d1.mutateEntries c).sequence.length) := by
  unfold Dna.mutateEntries
  by_cases h1 : d1.sequence.length ≠ 0 ∧ c.addEntry = true
  · rw [if_pos h1]
    by_cases h2 : d1.entries.contains (c.entryPos % (d1.entries.length + 1))
    · rw [if_pos h2]
      exact ⟨rfl, ⟨by omega, by omega⟩, hval⟩
    · rw [if_neg h2]
      have hpos : c.entryPos % (d1.entries.length + 1) ≤ d1.entries.length :=
        Nat.le_of_lt_succ (Nat.mod_lt _ (Nat.succ_pos _))
      have hlen :
          ((d1.entries.insertIdx (c.entryPos % (d1.entries.length + 1))
            (c.entryVal % d1.sequence.length)).insertionSort (· ≤ ·)).length =
            d1.entries.length + 1 := by
        rw [List.length_insertionSort, List.length_insertIdx _ _ hpos]
      refine ⟨rfl, ⟨by rw [hlen], by rw [hlen]; omega⟩, ?_⟩
      intro e he
      rw [List.mem_insertionSort] at he
      rcases (List.mem_insertIdx hpos).mp he with h | h
      · subst h
        exact Nat.mod_lt _ (Nat.pos_of_ne_zero h1.1)
      · exact hval e h
  · rw [if_neg h1]
    by_cases h3 : d1.entries.length ≠ 0
    · rw [if_pos h3]
      have hlt : c.entryPos % d1.entries.length < d1.entries.length :=
        Nat.mod_lt _ (Nat.pos_of_ne_zero h3)
      have hlen := List.length_eraseIdx_add_one hlt
      refine ⟨rfl, ⟨by dsimp only; omega, by dsimp only; omega⟩, ?_⟩
      intro e he
      exact hval e (List.eraseIdx_subset _ _ he)
    · rw [if_neg h3]
      exact ⟨rfl, ⟨by omega, by omega⟩, hval⟩

/-- C4 amended: one `Dna::mutate` call changes the sequence length by at
most 1 and, for a genome whose entries are valid offsets *without
duplicates*, changes the number of entries by at most 2 (at most one
entry dropped together with a removed codon, plus the one entry the
entry-edit phase adds or removes — the claimed bound of 1 fails, see the
counterexample), and every entry of the result is a valid offset into
the resulting sequence. -/
theorem C4_mutate_step_bounds (F : Type) (d : Dna F) (c : MutChoices F)
    (hval : ∀ e ∈ d.entries, e < d.sequence.length) (hnd : d.entries.Nodup) :
    ((d.mutate c).sequence.length ≤ d.sequence.length + 1 ∧
      d.sequence.length ≤ (d.mutate c).sequence.length + 1) ∧
    ((d.mutate c).entries.length ≤ d.entries.length + 1 ∧
      d.entries.length ≤ (d.mutate c).entries.length + 2) ∧
    (∀ e ∈ (d.mutate c).entries, e < (d.mutate c).sequence.length) := by
  obtain ⟨⟨hs1, hs2⟩, ⟨he1, he2⟩, hv1⟩ := mutateCodons_spec F d c hval hnd
  obtain ⟨hseq, ⟨hf1, hf2⟩, hv2⟩ := mutateEntries_spec F (d.mutateCodons c) c hv1
  unfold Dna.mutate
  refine ⟨⟨?_, ?_⟩, ⟨?_, ?_⟩, hv2⟩
  · rw [hseq]; omega
  · rw [hseq]; omega
  · omega
  · omega

/-- Witness for C4 at a concrete genome and choice vector. -/
theorem C4_witness :
    (∀ e ∈ c4d.entries, e < c4d.sequence.length) ∧ c4d.entries.Nodup ∧
    (((c4d.mutate c4c).sequence.length ≤ c4d.sequence.length + 1 ∧
      c4d.sequence.length ≤ (c4d.mutate c4c).sequence.length + 1) ∧
    ((c4d.mutate c4c).entries.length ≤ c4d.entries.length + 1 ∧
      c4d.entries.length ≤ (c4d.mutate c4c).entries.length + 2) ∧
    (∀ e ∈ (c4d.mutate c4c).entries, e < (c4d.mutate c4c).sequence.length)) :=
  ⟨by decide, by decide, C4_mutate_step_bounds ℤ c4d c4c (by decide) (by decide)⟩

theorem le_foldr_max (l : List ℕ) : ∀ x ∈ l, x ≤ l.foldr max 0 := by
  induction l with
  | nil => simp
  | cons a l ih =>
    intro x hx
    rcases List.mem_cons.mp hx with h | h
    · subst h; exact le_max_left _ _
    · exact le_trans (ih x h) (le_max_right _ _)

/-- Padding with empty genes adds exactly the requested number of
slots. -/
theorem padGenes_length (C : Type) :
    ∀ (n : ℕ) (ch : List ℕ) (g : List (List C)),
      (padGenes n ch g).length = g.length + n := by
  intro n
  induction n with
  | zero => intro ch g; rfl
  | succ n ih =>
    intro ch g
    show (padGenes n ch.tail (g.insertIdx (ch.headD 0 % (g.length + 1)) [])).length =
      g.length + (n + 1)
    rw [ih]
    rw [List.length_insertIdx _ _ (Nat.le_of_lt_succ (Nat.mod_lt _ (Nat.succ_pos _)))]
    omega

/-- Padding only inserts empty genes: every member of the padded list is
a member of the original list or empty. -/
theorem padGenes_mem (C : Type) :
    ∀ (n : ℕ) (ch : List ℕ) (g : List (List C)) (x : List C),
      x ∈ padGenes n ch g → x ∈ g ∨ x = [] := by
  intro n
  induction n with
  | zero => intro ch g x hx; exact Or.inl hx
  | succ n ih =>
    intro ch g x hx
    rcases ih ch.tail _ x hx with h | h
    · rcases (List.mem_insertIdx
        (Nat.le_of_lt_succ (Nat.mod_lt _ (Nat.succ_pos _)))).mp h with h' | h'
      · exact Or.inr h'
      · exact Or.inl h'
    · exact Or.inr h

/-- Closed form of the `crossover` build loop: the child sequence is the
concatenation of the non-empty slot genes and the child entries are
their start offsets. -/
theorem crossBuild_eq (F : Type) :
    ∀ (gs : List (List (Codon F))) (seq : List (Codon F)) (ent : List ℕ),
      crossBuild gs seq ent =
        (seq ++ (gs.filter (fun g => !g.isEmpty)).flatten,
          ent ++ cumStarts seq.length (gs.filter (fun g => !g.isEmpty))) := by
  intro gs
  induction gs with
  | nil => intro seq ent; simp [crossBuild, cumStarts]
  | cons g gs ih =>
    intro seq ent
    show (if g.isEmpty then crossBuild gs seq ent
        else crossBuild gs (seq ++ g) (ent ++ [seq.length])) = _
    by_cases hg : g.isEmpty
    · rw [if_pos hg, ih]
      simp [List.filter_cons, hg]
    · rw [if_neg hg, ih]
      have hg' : g.isEmpty = false := Bool.eq_false_iff.mpr hg
      simp [List.filter_cons, hg', cumStarts, List.append_assoc]

theorem getD_mem_of_lt {α : Type} (l : List α) (d : α) (i : ℕ) (h : i < l.length) :
    l.getD i d ∈ l := by
  rw [List.getD_eq_getElem?_getD, List.getElem?_eq_getElem h, Option.getD_some]
  exact List.getElem_mem h

/-- Cutting a concatenation of non-empty blocks at the blocks' start
offsets recovers exactly the blocks. -/
theorem zipwindows_cumStarts (C : Type) :
    ∀ (ne : List (List C)) (off : ℕ) (items : List C),
      (∀ g ∈ ne, g.isEmpty = false) →
      items.drop off = ne.flatten →
      off ≤ items.length →
      (((cumStarts off ne ++ [items.length]).zip
          (cumStarts off ne ++ [items.length]).tail).map
        (fun p => (items.drop p.1).take (p.2 - p.1))) = ne := by
  intro ne
  induction ne with
  | nil => intro off items _ _ _; simp [cumStarts]
  | cons g gs ih =>
    intro off items h1 h2 h3
    have hlens := congrArg List.length h2
    rw [List.length_drop, List.flatten_cons, List.length_append] at hlens
    have hcons : cumStarts off (g :: gs) ++ [items.length] =
        off :: (cumStarts (off + g.length) gs ++ [items.length]) := by
      simp [cumStarts]
    have hT : cumStarts (off + g.length) gs ++ [items.length] =
        (off + g.length) :: (cumStarts (off + g.length) gs ++ [items.length]).tail := by
      cases gs with
      | nil =>
        simp only [cumStarts, List.nil_append, List.tail_cons]
        have : items.length = off + g.length := by
          simp only [List.flatten_nil, List.length_nil] at hlens
          omega
        rw [this]
      | cons g' gs' => simp [cumStarts]
    rw [hcons]
    simp only [List.tail_cons]
    rw [hT, List.zip_cons_cons, List.map_cons, ← hT]
    refine congrArg₂ List.cons ?_ ?_
    · show (items.drop off).take (off + g.length - off) = g
      have hsub : off + g.length - off = g.length := by omega
      rw [hsub, h2, List.flatten_cons, List.take_left]
    · have hdrop' : items.drop (off + g.length) = gs.flatten := by
        have hdd : items.drop (off + g.length) = (items.drop off).drop g.length := by
          rw [List.drop_drop]
        rw [hdd, h2, List.flatten_cons, List.drop_left]
      have hle' : off + g.length ≤ items.length := by omega
      exact ih (off + g.length) items (fun x hx => h1 x (List.mem_cons_of_mem _ hx)) hdrop' hle'

/-- `split_points` at the cut offsets of a concatenation of non-empty
blocks recovers the blocks. -/
theorem split_points_of_cumStarts (C : Type) (ne : List (List C))
    (h : ∀ g ∈ ne, g.isEmpty = false) :
    split_points (cumStarts 0 ne) ne.flatten = ne := by
  cases ne with
  | nil => rfl
  | cons g gs =>
    exact zipwindows_cumStarts C (g :: gs) 0 ((g :: gs).flatten) h (by simp) (by simp)

/-- C7, crossover gene conservation: for a non-empty parent list (in the
rng-shuffled order), the child is built from exactly
`max(g1..gn)` gene slots (`slots.length = highest`); every slot's gene
is either empty or an exact, uncut member of some parent's gene list;
the child's sequence is precisely the concatenation of the non-empty
slot genes with an entry recorded at the start offset of each; and
re-splitting the child at its entries (`Dna.genes`) recovers exactly
those genes. -/
theorem C7_crossover_gene_conservation (F : Type) (dnas : List (Dna F)) (ch : CrossChoices)
    (hne : dnas ≠ []) :
    ∃ slots : List (List (Codon F)),
      slots.length = ((dnas.map Dna.genes).map List.length).foldr max 0 ∧
      (∀ g ∈ slots, g = [] ∨ ∃ d ∈ dnas, g ∈ d.genes) ∧
      (crossover dnas ch).sequence = (slots.filter (fun g => !g.isEmpty)).flatten ∧
      (crossover dnas ch).entries = cumStarts 0 (slots.filter (fun g => !g.isEmpty)) ∧
      (crossover dnas ch).genes = slots.filter (fun g => !g.isEmpty) := by
  have hgl : (dnas.map Dna.genes).length = dnas.length := List.length_map _ _
  have hglpos : 0 < (dnas.map Dna.genes).length := by
    rw [hgl]
    exact List.length_pos.mpr hne
  refine ⟨(List.range (((dnas.map Dna.genes).map List.length).foldr max 0)).map
      (slotGene ((dnas.map Dna.genes).mapIdx
        (fun i g => padGenes ((((dnas.map Dna.genes).map List.length).foldr max 0) - g.length)
          (ch.padChoices.getD i []) g)) ch), ?_, ?_, ?_, ?_, ?_⟩
  · simp
  · intro g hg
    rcases List.mem_map.mp hg with ⟨i, hi, rfl⟩
    set genes := dnas.map Dna.genes with hgenes
    set highest := (genes.map List.length).foldr max 0 with hhigh
    set padded := genes.mapIdx
      (fun i g => padGenes (highest - g.length) (ch.padChoices.getD i []) g) with hpadded
    have hplen : padded.length = genes.length := by
      rw [hpadded]; exact List.length_mapIdx
    have hw : ch.whichChoices.getD i 0 % padded.length < padded.length :=
      Nat.mod_lt _ (by rw [hplen]; exact hglpos)
    set w := ch.whichChoices.getD i 0 % padded.length with hwdef
    have hwg : w < genes.length := by rw [← hplen]; exact hw
    have hpw : padded[w]? = some (padGenes (highest - genes[w].length)
        (ch.padChoices.getD w []) genes[w]) := by
      rw [hpadded, List.getElem?_mapIdx, List.getElem?_eq_getElem hwg]
      rfl
    have hpadw : padded.getD w [] = padGenes (highest - genes[w].length)
        (ch.padChoices.getD w []) genes[w] := by
      rw [List.getD_eq_getElem?_getD, hpw]
      rfl
    have hgwlen : genes[w].length ≤ highest := by
      apply le_foldr_max
      exact List.mem_map_of_mem _ (genes.getElem_mem hwg)
    have hpadlen : (padGenes (highest - genes[w].length)
        (ch.padChoices.getD w []) genes[w]).length = highest := by
      rw [padGenes_length]
      omega
    have hi' : i < highest := List.mem_range.mp hi
    have hilt : i < (padGenes (highest - genes[w].length)
        (ch.padChoices.getD w []) genes[w]).length := by
      rw [hpadlen]
      exact hi'
    have hmem : (padGenes (highest - genes[w].length)
        (ch.padChoices.getD w []) genes[w]).getD i [] ∈
        padGenes (highest - genes[w].length) (ch.padChoices.getD w []) genes[w] :=
      getD_mem_of_lt _ [] i hilt
    rcases padGenes_mem (Codon F) _ _ _ _ hmem with hmem' | hmem'
    · right
      have hginl : genes[w] ∈ genes := genes.getElem_mem hwg
      rcases List.mem_map.mp
        (show genes[w] ∈ List.map Dna.genes dnas from hginl) with ⟨d, hd, hdg⟩
      refine ⟨d, hd, ?_⟩
      rw [hdg]
      show slotGene padded ch i ∈ genes[w]
      unfold slotGene
      rw [← hwdef, hpadw]
      exact hmem'
    · left
      show slotGene padded ch i = []
      unfold slotGene
      rw [← hwdef, hpadw]
      exact hmem'
  · show (crossBuild ((List.range (((dnas.map Dna.genes).map List.length).foldr max 0)).map
      (slotGene ((dnas.map Dna.genes).mapIdx
        (fun i g => padGenes ((((dnas.map Dna.genes).map List.length).foldr max 0) - g.length)
          (ch.padChoices.getD i []) g)) ch)) [] []).1 = _
    rw [crossBuild_eq]
    rfl
  · show (crossBuild ((List.range (((dnas.map Dna.genes).map List.length).foldr max 0)).map
      (slotGene ((dnas.map Dna.genes).mapIdx
        (fun i g => padGenes ((((dnas.map Dna.genes).map List.length).foldr max 0) - g.length)
          (ch.padChoices.getD i []) g)) ch)) [] []).2 = _
    rw [crossBuild_eq]
    rfl
  · show split_points (crossBuild ((List.range (((dnas.map Dna.genes).map List.length).foldr max 0)).map
      (slotGene ((dnas.map Dna.genes).mapIdx
        (fun i g => padGenes ((((dnas.map Dna.genes).map List.length).foldr max 0) - g.length)
          (ch.padChoices.getD i []) g)) ch)) [] []).2 (crossBuild ((List.range (((dnas.map Dna.genes).map List.length).foldr max 0)).map
      (slotGene ((dnas.map Dna.genes).mapIdx
        (fun i g => padGenes ((((dnas.map Dna.genes).map List.length).foldr max 0) - g.length)
          (ch.padChoices.getD i []) g)) ch)) [] []).1 = _
    rw [crossBuild_eq]
    have hemp : ∀ g ∈ ((List.range (((dnas.map Dna.genes).map List.length).foldr max 0)).map
      (slotGene ((dnas.map Dna.genes).mapIdx
        (fun i g => padGenes ((((dnas.map Dna.genes).map List.length).foldr max 0) - g.length)
          (ch.padChoices.getD i []) g)) ch)).filter (fun g => !g.isEmpty), g.isEmpty = false := by
      intro g hg
      have := (List.mem_filter.mp hg).2
      simpa using this
    show split_points ([] ++ cumStarts (List.length ([] : List (Codon F))) _) ([] ++ _) = _
    simp only [List.nil_append, List.length_nil]
    rw [split_points_of_cumStarts _ _ hemp]

/-- Witness for C7 at two concrete parents. -/
theorem C7_witness :
    c7dnas ≠ [] ∧
    ∃ slots : List (List (Codon ℤ)),
      slots.length = ((c7dnas.map Dna.genes).map List.length).foldr max 0 ∧
      (∀ g ∈ slots, g = [] ∨ ∃ d ∈ c7dnas, g ∈ d.genes) ∧
      (crossover c7dnas c7ch).sequence = (slots.filter (fun g => !g.isEmpty)).flatten ∧
      (crossover c7dnas c7ch).entries = cumStarts 0 (slots.filter (fun g => !g.isEmpty)) ∧
      (crossover c7dnas c7ch).genes = slots.filter (fun g => !g.isEmpty) :=
  ⟨by decide, C7_crossover_gene_conservation ℤ c7dnas c7ch (by decide)⟩

theorem mstep_spend_le {B S : Type} (env : SimEnv B S) (c : MCell B S) (dec : Decision) :
    (mstep env c dec).1.spend ≤ c.money := by
  unfold mstep
  split
  · exact Nat.zero_le _
  · cases dec with
    | move dir =>
      dsimp only
      split
      · exact le_refl _
      · exact Nat.zero_le _
    | divide dir =>
      dsimp only
      split
      · exact Nat.div_le_self _ _
      · exact Nat.zero_le _
    | trade rate food =>
      dsimp only
      split
      · exact Nat.zero_le _
      · exact Nat.zero_le _
    | nothing => exact Nat.zero_le _

theorem mstep_spend_of_brainless {B S : Type} (env : SimEnv B S) (c : MCell B S)
    (dec : Decision) (hb : c.brain = none) : (mstep env c dec).1.spend = 0 := by
  unfold mstep
  rw [if_pos (Or.inl (by rw [hb]; rfl))]

theorem mstep_moves_money_sum {B S : Type} (env : SimEnv B S) (c : MCell B S)
    (dec : Decision) :
    (∑ d : Dir, ((mstep env c dec).2 d).money) = (mstep env c dec).1.spend := by
  unfold mstep
  split
  · simp
  · cases dec with
    | move dir =>
      dsimp only
      split
      · rw [Finset.sum_congr rfl (fun x _ => apply_ite MMove.money (x = dir) _ _)]
        simp [Finset.sum_ite_eq' Finset.univ dir]
      · simp [justExist]
    | divide dir =>
      dsimp only
      split
      · rw [Finset.sum_congr rfl (fun x _ => apply_ite MMove.money (x = dir) _ _)]
        simp [Finset.sum_ite_eq' Finset.univ dir]
      · simp [justExist]
    | trade rate food =>
      dsimp only
      split
      · simp [justExist]
      · simp [justExist]
    | nothing => simp [justExist]

theorem mstep_trade_spec {B S : Type} (env : SimEnv B S) (c : MCell B S)
    (dec : Decision) (t : MTrade) (ht : (mstep env c dec).1.trade = some t) :
    (mstep env c dec).1.spend = 0 ∧ -(t.rate * t.food) ≤ (c.money : ℤ) := by
  unfold mstep at ht
  split at ht
  · exact absurd ht (by simp)
  · next hbrain =>
    cases dec with
    | move dir =>
      dsimp only at ht
      split at ht
      · exact absurd ht (by simp)
      · exact absurd ht (by simp [justExist])
    | divide dir =>
      dsimp only at ht
      split at ht
      · exact absurd ht (by simp)
      · exact absurd ht (by simp [justExist])
    | trade rate food =>
      dsimp only at ht
      split at ht
      · next hcond =>
        simp only [justExist, Option.some.injEq] at ht
        subst ht
        refine ⟨?_, hcond.2⟩
        unfold mstep
        rw [if_neg hbrain]
        dsimp only
        rw [if_pos hcond]
        rfl
      · exact absurd ht (by simp [justExist])
    | nothing => exact absurd ht (by simp [justExist])

theorem update_money_eq {B S : Type} (env : SimEnv B S) (c : MCell B S) (d : MDiff)
    (inc : Dir → MMove B) (r : URng B) (hle : d.spend ≤ c.money) :
    (update env c d inc r).money + (if c.ty = CellType.wall then 0 else d.spend)
      = c.money + moneyIn inc := by
  unfold update
  by_cases hw : c.ty = CellType.wall
  · rw [if_pos hw, if_pos hw]
    rfl
  · rw [if_neg hw, if_neg hw]
    show c.money + moneyIn inc - d.spend + d.spend = c.money + moneyIn inc
    omega

theorem update_ty {B S : Type} (env : SimEnv B S) (c : MCell B S) (d : MDiff)
    (inc : Dir → MMove B) (r : URng B) : (update env c d inc r).ty = c.ty := by
  unfold update
  split
  · rfl
  · rfl

theorem update_wall_fields {B S : Type} (env : SimEnv B S) (c : MCell B S) (d : MDiff)
    (inc : Dir → MMove B) (r : URng B) (hw : c.ty = CellType.wall) :
    (update env c d inc r).brain = c.brain ∧ (update env c d inc r).trade = c.trade := by
  unfold update
  rw [if_pos hw]
  exact ⟨rfl, rfl⟩

theorem update_trade_eq {B S : Type} (env : SimEnv B S) (c : MCell B S) (d : MDiff)
    (inc : Dir → MMove B) (r : URng B) (hw : c.ty ≠ CellType.wall) :
    (update env c d inc r).trade = d.trade := by
  unfold update
  rw [if_neg hw]

theorem finPred_finSucc {n : ℕ} (i : Fin n) : finPred (finSucc i) = i := by
  apply Fin.ext
  show ((i.1 + 1) % n + (n - 1)) % n = i.1
  have hn : 0 < n := Nat.lt_of_le_of_lt (Nat.zero_le _) i.isLt
  rw [Nat.mod_add_mod]
  have he : i.1 + 1 + (n - 1) = i.1 + n := by omega
  rw [he, Nat.add_mod_right]
  exact Nat.mod_eq_of_lt i.isLt

theorem finSucc_finPred {n : ℕ} (i : Fin n) : finSucc (finPred i) = i := by
  apply Fin.ext
  show ((i.1 + (n - 1)) % n + 1) % n = i.1
  have hn : 0 < n := Nat.lt_of_le_of_lt (Nat.zero_le _) i.isLt
  rw [Nat.mod_add_mod]
  have he : i.1 + (n - 1) + 1 = i.1 + n := by omega
  rw [he, Nat.add_mod_right]
  exact Nat.mod_eq_of_lt i.isLt

theorem opp_opp (d : Dir) : d.opp.opp = d := by
  cases d <;> rfl

theorem nbr_nbr_opp {w h : ℕ} (p : Fin h × Fin w) (d : Dir) : nbr (nbr p d) d.opp = p := by
  cases d with
  | right => show (p.1, finPred (finSucc p.2)) = p; rw [finPred_finSucc]
  | left => show (p.1, finSucc (finPred p.2)) = p; rw [finSucc_finPred]
  | up => show (finSucc (finPred p.1), p.2) = p; rw [finSucc_finPred]
  | down => show (finPred (finSucc p.1), p.2) = p; rw [finPred_finSucc]

/-- The synchronous grid cycle conserves total cell money: each cell's
outgoing payloads equal its spend, incoming payloads are a bijective
redistribution of outgoing ones, and wall cells (which are brainless on
every reachable state) spend nothing. -/
theorem cycle_money {B S : Type} (env : SimEnv B S) {w h : ℕ}
    (cells : Fin h × Fin w → MCell B S) (dec : Fin h × Fin w → Decision)
    (urng : Fin h × Fin w → URng B)
    (hw : ∀ p, (cells p).ty = CellType.wall → (cells p).brain = none) :
    cellsMoney (cycleCells env cells dec urng) = cellsMoney cells := by
  have hcell : ∀ p, (cycleCells env cells dec urng p).money
      + (if (cells p).ty = CellType.wall then 0 else (mstep env (cells p) (dec p)).1.spend)
      = (cells p).money
        + moneyIn (fun d => (mstep env (cells (nbr p d)) (dec (nbr p d))).2 d.opp) :=
    fun p => update_money_eq env (cells p) _ _ (urng p) (mstep_spend_le env (cells p) (dec p))
  have hspendEff : ∀ p,
      (if (cells p).ty = CellType.wall then 0 else (mstep env (cells p) (dec p)).1.spend)
        = (mstep env (cells p) (dec p)).1.spend := by
    intro p
    split
    · next hwall => rw [mstep_spend_of_brainless env _ _ (hw p hwall)]
    · rfl
  have hsum := Finset.sum_congr (rfl : (Finset.univ : Finset (Fin h × Fin w)) = _)
    (fun p _ => hcell p)
  rw [Finset.sum_add_distrib, Finset.sum_add_distrib] at hsum
  have hsums : (∑ p : Fin h × Fin w,
      (if (cells p).ty = CellType.wall then 0 else (mstep env (cells p) (dec p)).1.spend))
      = ∑ p : Fin h × Fin w, (mstep env (cells p) (dec p)).1.spend :=
    Finset.sum_congr rfl (fun p _ => hspendEff p)
  have hin : (∑ p : Fin h × Fin w,
      moneyIn (fun d => (mstep env (cells (nbr p d)) (dec (nbr p d))).2 d.opp))
      = ∑ p : Fin h × Fin w, (mstep env (cells p) (dec p)).1.spend := by
    unfold moneyIn
    have hstep : (∑ x : (Fin h × Fin w) × Dir,
        ((mstep env (cells (nbr x.1 x.2)) (dec (nbr x.1 x.2))).2 x.2.opp).money)
        = ∑ x : (Fin h × Fin w) × Dir, ((mstep env (cells x.1) (dec x.1)).2 x.2).money := by
      have := Equiv.sum_comp
        ((⟨fun x => (nbr x.1 x.2, x.2.opp), fun x => (nbr x.1 x.2, x.2.opp),
          fun x => by simp [nbr_nbr_opp, opp_opp],
          fun x => by simp [nbr_nbr_opp, opp_opp]⟩ :
          (Fin h × Fin w) × Dir ≃ (Fin h × Fin w) × Dir))
        (fun x : (Fin h × Fin w) × Dir => ((mstep env (cells x.1) (dec x.1)).2 x.2).money)
      simpa using this
    have h1 : (∑ p : Fin h × Fin w, ∑ d : Dir,
        ((mstep env (cells (nbr p d)) (dec (nbr p d))).2 d.opp).money)
        = ∑ x : (Fin h × Fin w) × Dir,
            ((mstep env (cells (nbr x.1 x.2)) (dec (nbr x.1 x.2))).2 x.2.opp).money :=
      (Fintype.sum_prod_type (fun x : (Fin h × Fin w) × Dir =>
        ((mstep env (cells (nbr x.1 x.2)) (dec (nbr x.1 x.2))).2 x.2.opp).money)).symm
    have h3 : (∑ x : (Fin h × Fin w) × Dir, ((mstep env (cells x.1) (dec x.1)).2 x.2).money)
        = ∑ p : Fin h × Fin w, ∑ d : Dir, ((mstep env (cells p) (dec p)).2 d).money :=
      Fintype.sum_prod_type (fun x : (Fin h × Fin w) × Dir =>
        ((mstep env (cells x.1) (dec x.1)).2 x.2).money)
    show (∑ p : Fin h × Fin w, ∑ d : Dir,
        ((mstep env (cells (nbr p d)) (dec (nbr p d))).2 d.opp).money)
        = ∑ p : Fin h × Fin w, (mstep env (cells p) (dec p)).1.spend
    rw [h1, hstep, h3]
    exact Finset.sum_congr rfl (fun p _ => mstep_moves_money_sum env (cells p) (dec p))
  rw [hsums, hin] at hsum
  unfold cellsMoney
  omega

theorem bid_fill_money (mo ma rate orate ofood afood num : ℤ)
    (hnum1 : 0 ≤ num) (hnum2 : num ≤ -ofood) (hnum3 : num ≤ afood)
    (hr : rate ≤ orate)
    (haf_o : -(orate * ofood) ≤ mo) (haf_a : -(rate * afood) ≤ ma)
    (hm0 : 0 ≤ mo) (ha0 : 0 ≤ ma) :
    0 ≤ mo - rate * num ∧ 0 ≤ ma + rate * num ∧
    -(orate * (ofood + num)) ≤ mo - rate * num ∧
    -(rate * (afood - num)) ≤ ma + rate * num := by
  have hrq : rate * num ≤ orate * num := mul_le_mul_of_nonneg_right hr hnum1
  refine ⟨?_, ?_, ?_, ?_⟩
  · rcases le_or_lt rate 0 with h | h
    · nlinarith [mul_nonpos_of_nonpos_of_nonneg h hnum1]
    · have horate : 0 < orate := lt_of_lt_of_le h hr
      nlinarith [mul_le_mul_of_nonneg_left hnum2 (le_of_lt horate)]
  · rcases le_or_lt 0 rate with h | h
    · nlinarith [mul_nonneg h hnum1]
    · nlinarith [mul_le_mul_of_nonneg_left hnum3 (by linarith : (0:ℤ) ≤ -rate)]
  · nlinarith
  · nlinarith

theorem ask_fill_money (mo mb rate orate ofood bfood num : ℤ)
    (hnum1 : 0 ≤ num) (hnum2 : num ≤ ofood) (hnum3 : num ≤ -bfood)
    (hr : orate ≤ rate)
    (haf_o : -(orate * ofood) ≤ mo) (haf_b : -(rate * bfood) ≤ mb)
    (hm0 : 0 ≤ mo) (hb0 : 0 ≤ mb) :
    0 ≤ mo + rate * num ∧ 0 ≤ mb - rate * num ∧
    -(orate * (ofood - num)) ≤ mo + rate * num ∧
    -(rate * (bfood + num)) ≤ mb - rate * num := by
  have hrq : orate * num ≤ rate * num := mul_le_mul_of_nonneg_right hr hnum1
  refine ⟨?_, ?_, ?_, ?_⟩
  · rcases le_or_lt 0 rate with h | h
    · nlinarith [mul_nonneg h hnum1]
    · have horate : orate < 0 := lt_of_le_of_lt hr h
      nlinarith [mul_le_mul_of_nonneg_left hnum2 (by linarith : (0:ℤ) ≤ -orate)]
  · rcases le_or_lt rate 0 with h | h
    · nlinarith [mul_nonpos_of_nonpos_of_nonneg h hnum1]
    · nlinarith [mul_le_mul_of_nonneg_left hnum3 (le_of_lt h)]
  · nlinarith
  · nlinarith

theorem updCell_cells_same {B S : Type} {w h : ℕ} (s : SimSt B S w h)
    (i : Fin h × Fin w) (f : MCell B S → MCell B S) :
    (updCell s i f).cells i = f (s.cells i) := by
  unfold updCell
  simp

theorem updCell_cells_other {B S : Type} {w h : ℕ} (s : SimSt B S w h)
    (i : Fin h × Fin w) (f : MCell B S → MCell B S) (q : Fin h × Fin w) (hq : q ≠ i) :
    (updCell s i f).cells q = s.cells q := by
  unfold updCell
  simp [Function.update_noteq hq]

theorem moneySum_updCell {B S : Type} {w h : ℕ} (s : SimSt B S w h)
    (i : Fin h × Fin w) (f : MCell B S → MCell B S) :
    moneySum (updCell s i f) + (s.cells i).money
      = moneySum s + (f (s.cells i)).money := by
  unfold moneySum
  have hupd : ∀ p, ((updCell s i f).cells p).money
      = Function.update (fun q => (s.cells q).money) i ((f (s.cells i)).money) p := by
    intro p
    show (Function.update s.cells i (f (s.cells i)) p).money = _
    exact Function.apply_update (fun _ c => c.money) s.cells i (f (s.cells i)) p
  rw [Finset.sum_congr rfl (fun p _ => hupd p)]
  rw [Finset.sum_update_of_mem (Finset.mem_univ i)]
  have hsplit : (∑ p : Fin h × Fin w, (s.cells p).money)
      = (s.cells i).money + ∑ p in Finset.univ.erase i, (s.cells p).money :=
    (Finset.add_sum_erase _ _ (Finset.mem_univ i)).symm
  rw [Finset.erase_eq] at hsplit
  omega

theorem fulfill_spec_bid {B S : Type} {w h : ℕ} (s : SimSt B S w h) (o a : MOrder w h)
    (ho : o.food < 0) (ha : 0 < a.food) (hr : a.rate ≤ o.rate)
    (haf_o : afford s o) (haf_a : afford s a) (hne : o.index ≠ a.index) :
    totalMoney (fulfill s o a).1 = totalMoney s ∧
    (fulfill s o a).2.1.index = o.index ∧ (fulfill s o a).2.1.rate = o.rate ∧
    (fulfill s o a).2.1.food ≤ 0 ∧ afford (fulfill s o a).1 (fulfill s o a).2.1 ∧
    (fulfill s o a).2.2.index = a.index ∧ (fulfill s o a).2.2.rate = a.rate ∧
    0 ≤ (fulfill s o a).2.2.food ∧ afford (fulfill s o a).1 (fulfill s o a).2.2 ∧
    (fulfill s o a).1.reserve = s.reserve ∧
    (∀ q, q ≠ o.index → q ≠ a.index → (fulfill s o a).1.cells q = s.cells q) ∧
    (∀ q, metaSame (s.cells q) ((fulfill s o a).1.cells q)) := by
  have hso : o.food.sign = -1 := Int.sign_eq_neg_one_of_neg ho
  have hsa : a.food.sign = 1 := Int.sign_eq_one_of_pos ha
  have hnum1 : (0:ℤ) ≤ ↑(min o.food.natAbs a.food.natAbs) := by positivity
  have hnum2 : (↑(min o.food.natAbs a.food.natAbs) : ℤ) ≤ -o.food := by omega
  have hnum3 : (↑(min o.food.natAbs a.food.natAbs) : ℤ) ≤ a.food := by omega
  have key := bid_fill_money ((s.cells o.index).money) ((s.cells a.index).money)
    a.rate o.rate o.food a.food (↑(min o.food.natAbs a.food.natAbs))
    hnum1 hnum2 hnum3 hr haf_o haf_a (by positivity) (by positivity)
  obtain ⟨k1, k2, k3, k4⟩ := key
  unfold fulfill
  dsimp only
  set num : ℤ := (↑(min o.food.natAbs a.food.natAbs) : ℤ) with hnumdef
  set f1 : MCell B S → MCell B S := fun c =>
    { c with money := ((c.money : ℤ) + a.rate * num * o.food.sign).toNat
             food := ((c.food : ℤ) - num * o.food.sign).toNat } with hf1
  set f2 : MCell B S → MCell B S := fun c =>
    { c with money := ((c.money : ℤ) + a.rate * num * a.food.sign).toNat
             food := ((c.food : ℤ) - num * a.food.sign).toNat } with hf2
  set s1 := updCell s o.index f1 with hs1
  set s2 := updCell s1 a.index f2 with hs2
  have hs1o : s1.cells o.index = f1 (s.cells o.index) := updCell_cells_same s o.index f1
  have hs1a : s1.cells a.index = s.cells a.index :=
    updCell_cells_other s o.index f1 a.index (Ne.symm hne)
  have hs2a : s2.cells a.index = f2 (s1.cells a.index) := updCell_cells_same s1 a.index f2
  have hs2o : s2.cells o.index = s1.cells o.index :=
    updCell_cells_other s1 a.index f2 o.index hne
  have hm1 : ((f1 (s.cells o.index)).money : ℤ) = ((s.cells o.index).money : ℤ) - a.rate * num := by
    rw [hf1]
    dsimp only
    rw [hso]
    rw [Int.toNat_of_nonneg (by linarith [k1])]
    ring
  have hm2 : ((f2 (s.cells a.index)).money : ℤ) = ((s.cells a.index).money : ℤ) + a.rate * num := by
    rw [hf2]
    dsimp only
    rw [hsa]
    rw [Int.toNat_of_nonneg (by linarith [k2])]
    ring
  have hsum1 := moneySum_updCell s o.index f1
  have hsum2 := moneySum_updCell s1 a.index f2
  rw [hs1a] at hsum2
  rw [← hs1] at hsum1
  rw [← hs2] at hsum2
  have hreserve1 : s1.reserve = s.reserve := rfl
  have hreserve2 : s2.reserve = s.reserve := rfl
  refine ⟨?_, rfl, rfl, ?_, ?_, rfl, rfl, ?_, ?_, rfl, ?_, ?_⟩
  · -- conservation
    show moneySum s2 + s2.reserve = moneySum s + s.reserve
    rw [hreserve2]
    have hz1 : (moneySum s1 : ℤ) + ((s.cells o.index).money : ℤ) =
        (moneySum s : ℤ) + ((f1 (s.cells o.index)).money : ℤ) := by exact_mod_cast hsum1
    have hz2 : (moneySum s2 : ℤ) + ((s.cells a.index).money : ℤ) =
        (moneySum s1 : ℤ) + ((f2 (s.cells a.index)).money : ℤ) := by exact_mod_cast hsum2
    omega
  · -- bid remainder nonpositive
    show o.food - o.food.sign * num ≤ 0
    rw [hso]
    omega
  · -- bid afford
    show -(o.rate * (o.food - o.food.sign * num)) ≤ ((s2.cells o.index).money : ℤ)
    rw [hso, hs2o, hs1o, hm1]
    have heq : o.food - (-1) * num = o.food + num := by ring
    rw [heq]
    exact k3
  · -- ask remainder nonneg
    show 0 ≤ a.food - a.food.sign * num
    rw [hsa]
    omega
  · -- ask afford
    show -(a.rate * (a.food - a.food.sign * num)) ≤ ((s2.cells a.index).money : ℤ)
    rw [hsa, hs2a, hs1a, hm2]
    have heq : a.food - 1 * num = a.food - num := by ring
    rw [heq]
    exact k4
  · -- untouched cells
    intro q hqo hqa
    show s2.cells q = s.cells q
    rw [updCell_cells_other s1 a.index f2 q hqa, updCell_cells_other s o.index f1 q hqo]
  · -- meta preserved
    intro q
    by_cases hqa : q = a.index
    · rw [hqa, hs2a, hs1a]
      exact ⟨rfl, rfl, rfl⟩
    · by_cases hqo : q = o.index
      · rw [hqo, hs2o, hs1o]
        exact ⟨rfl, rfl, rfl⟩
      · rw [updCell_cells_other s1 a.index f2 q hqa, updCell_cells_other s o.index f1 q hqo]
        exact ⟨rfl, rfl, rfl⟩

theorem fulfill_spec_ask {B S : Type} {w h : ℕ} (s : SimSt B S w h) (o b : MOrder w h)
    (ho : 0 ≤ o.food) (hb : b.food < 0) (hr : o.rate ≤ b.rate)
    (haf_o : afford s o) (haf_b : afford s b) (hne : o.index ≠ b.index) :
    totalMoney (fulfill s o b).1 = totalMoney s ∧
    (fulfill s o b).2.1.index = o.index ∧ (fulfill s o b).2.1.rate = o.rate ∧
    0 ≤ (fulfill s o b).2.1.food ∧ afford (fulfill s o b).1 (fulfill s o b).2.1 ∧
    (fulfill s o b).2.2.index = b.index ∧ (fulfill s o b).2.2.rate = b.rate ∧
    (fulfill s o b).2.2.food ≤ 0 ∧ afford (fulfill s o b).1 (fulfill s o b).2.2 ∧
    (fulfill s o b).1.reserve = s.reserve ∧
    (∀ q, q ≠ o.index → q ≠ b.index → (fulfill s o b).1.cells q = s.cells q) ∧
    (∀ q, metaSame (s.cells q) ((fulfill s o b).1.cells q)) := by
  have hsb : b.food.sign = -1 := Int.sign_eq_neg_one_of_neg hb
  have hnum1 : (0:ℤ) ≤ ↑(min o.food.natAbs b.food.natAbs) := by positivity
  have hnum2 : (↑(min o.food.natAbs b.food.natAbs) : ℤ) ≤ o.food := by omega
  have hnum3 : (↑(min o.food.natAbs b.food.natAbs) : ℤ) ≤ -b.food := by omega
  have key := ask_fill_money ((s.cells o.index).money) ((s.cells b.index).money)
    b.rate o.rate o.food b.food (↑(min o.food.natAbs b.food.natAbs))
    hnum1 hnum2 hnum3 hr haf_o haf_b (by positivity) (by positivity)
  obtain ⟨k1, k2, k3, k4⟩ := key
  unfold fulfill
  dsimp only
  set num : ℤ := (↑(min o.food.natAbs b.food.natAbs) : ℤ) with hnumdef
  have hsn : num * o.food.sign = num := by
    rcases lt_or_eq_of_le ho with hpos | hzero
    · rw [Int.sign_eq_one_of_pos hpos, mul_one]
    · have hnum0 : num = 0 := by omega
      rw [hnum0, zero_mul]
  have hsn' : o.food.sign * num = num := by rw [mul_comm]; exact hsn
  set f1 : MCell B S → MCell B S := fun c =>
    { c with money := ((c.money : ℤ) + b.rate * num * o.food.sign).toNat
             food := ((c.food : ℤ) - num * o.food.sign).toNat } with hf1
  set f2 : MCell B S → MCell B S := fun c =>
    { c with money := ((c.money : ℤ) + b.rate * num * b.food.sign).toNat
             food := ((c.food : ℤ) - num * b.food.sign).toNat } with hf2
  set s1 := updCell s o.index f1 with hs1
  set s2 := updCell s1 b.index f2 with hs2
  have hs1o : s1.cells o.index = f1 (s.cells o.index) := updCell_cells_same s o.index f1
  have hs1b : s1.cells b.index = s.cells b.index :=
    updCell_cells_other s o.index f1 b.index (Ne.symm hne)
  have hs2b : s2.cells b.index = f2 (s1.cells b.index) := updCell_cells_same s1 b.index f2
  have hs2o : s2.cells o.index = s1.cells o.index :=
    updCell_cells_other s1 b.index f2 o.index hne
  have hm1 : ((f1 (s.cells o.index)).money : ℤ)
      = ((s.cells o.index).money : ℤ) + b.rate * num := by
    rw [hf1]
    dsimp only
    rw [mul_assoc, hsn]
    rw [Int.toNat_of_nonneg (by linarith [k1])]
  have hm2 : ((f2 (s.cells b.index)).money : ℤ)
      = ((s.cells b.index).money : ℤ) - b.rate * num := by
    rw [hf2]
    dsimp only
    rw [hsb]
    rw [Int.toNat_of_nonneg (by linarith [k2])]
    ring
  have hsum1 := moneySum_updCell s o.index f1
  have hsum2 := moneySum_updCell s1 b.index f2
  rw [hs1b] at hsum2
  rw [← hs1] at hsum1
  rw [← hs2] at hsum2
  have hreserve2 : s2.reserve = s.reserve := rfl
  refine ⟨?_, rfl, rfl, ?_, ?_, rfl, rfl, ?_, ?_, rfl, ?_, ?_⟩
  · show moneySum s2 + s2.reserve = moneySum s + s.reserve
    rw [hreserve2]
    have hz1 : (moneySum s1 : ℤ) + ((s.cells o.index).money : ℤ) =
        (moneySum s : ℤ) + ((f1 (s.cells o.index)).money : ℤ) := by exact_mod_cast hsum1
    have hz2 : (moneySum s2 : ℤ) + ((s.cells b.index).money : ℤ) =
        (moneySum s1 : ℤ) + ((f2 (s.cells b.index)).money : ℤ) := by exact_mod_cast hsum2
    omega
  · show 0 ≤ o.food - o.food.sign * num
    rw [hsn']
    omega
  · show -(o.rate * (o.food - o.food.sign * num)) ≤ ((s2.cells o.index).money : ℤ)
    rw [hsn', hs2o, hs1o, hm1]
    exact k3
  · show b.food - b.food.sign * num ≤ 0
    rw [hsb]
    omega
  · show -(b.rate * (b.food - b.food.sign * num)) ≤ ((s2.cells b.index).money : ℤ)
    rw [hsb, hs2b, hs1b, hm2]
    have heq : b.food - (-1) * num = b.food + num := by ring
    rw [heq]
    exact k4
  · intro q hqo hqb
    show s2.cells q = s.cells q
    rw [updCell_cells_other s1 b.index f2 q hqb, updCell_cells_other s o.index f1 q hqo]
  · intro q
    by_cases hqb : q = b.index
    · rw [hqb, hs2b, hs1b]
      exact ⟨rfl, rfl, rfl⟩
    · by_cases hqo : q = o.index
      · rw [hqo, hs2o, hs1o]
        exact ⟨rfl, rfl, rfl⟩
      · rw [updCell_cells_other s1 b.index f2 q hqb, updCell_cells_other s o.index f1 q hqo]
        exact ⟨rfl, rfl, rfl⟩

theorem fulfillReserve_spec {B S : Type} {w h : ℕ} (s : SimSt B S w h) (o : MOrder w h)
    (ho : 0 ≤ o.food) (haf : afford s o) (hr1 : o.rate ≤ 1) :
    totalMoney (fulfillReserve s o).1 = totalMoney s ∧
    (fulfillReserve s o).2.index = o.index ∧ (fulfillReserve s o).2.rate = o.rate ∧
    0 ≤ (fulfillReserve s o).2.food ∧
    afford (fulfillReserve s o).1 (fulfillReserve s o).2 ∧
    (∀ q, q ≠ o.index → (fulfillReserve s o).1.cells q = s.cells q) ∧
    (∀ q, metaSame (s.cells q) ((fulfillReserve s o).1.cells q)) := by
  unfold fulfillReserve
  dsimp only
  set num : ℤ := min o.food (s.reserve : ℤ) with hnumdef
  have hnum1 : (0:ℤ) ≤ num := by omega
  have hnum2 : num ≤ o.food := by omega
  have hnum3 : num ≤ (s.reserve : ℤ) := by omega
  have hsn : num * o.food.sign = num := by
    rcases lt_or_eq_of_le ho with hpos | hzero
    · rw [Int.sign_eq_one_of_pos hpos, mul_one]
    · have hnum0 : num = 0 := by omega
      rw [hnum0, zero_mul]
  have hsn' : o.food.sign * num = num := by rw [mul_comm]; exact hsn
  set f1 : MCell B S → MCell B S := fun c =>
    { c with money := ((c.money : ℤ) + num * o.food.sign).toNat
             food := ((c.food : ℤ) - num * o.food.sign).toNat } with hf1
  set s1 := updCell s o.index f1 with hs1
  have hs1o : s1.cells o.index = f1 (s.cells o.index) := updCell_cells_same s o.index f1
  have hm1 : ((f1 (s.cells o.index)).money : ℤ)
      = ((s.cells o.index).money : ℤ) + num := by
    rw [hf1]
    dsimp only
    rw [hsn]
    rw [Int.toNat_of_nonneg (by omega)]
  have hres : ((((s1.reserve : ℤ) - num).toNat : ℕ) : ℤ) = (s.reserve : ℤ) - num := by
    have : s1.reserve = s.reserve := rfl
    rw [this, Int.toNat_of_nonneg (by omega)]
  have hsum1 := moneySum_updCell s o.index f1
  rw [← hs1] at hsum1
  refine ⟨?_, rfl, rfl, ?_, ?_, ?_, ?_⟩
  · show moneySum s1 + ((s1.reserve : ℤ) - num).toNat = moneySum s + s.reserve
    have hz1 : (moneySum s1 : ℤ) + ((s.cells o.index).money : ℤ) =
        (moneySum s : ℤ) + ((f1 (s.cells o.index)).money : ℤ) := by exact_mod_cast hsum1
    omega
  · show 0 ≤ o.food - o.food.sign * num
    rw [hsn']
    omega
  · show -(o.rate * (o.food - o.food.sign * num)) ≤ ((s1.cells o.index).money : ℤ)
    rw [hsn', hs1o, hm1]
    have hq : o.rate * num ≤ 1 * num := mul_le_mul_of_nonneg_right hr1 hnum1
    have haf' : -(o.rate * o.food) ≤ ((s.cells o.index).money : ℤ) := haf
    nlinarith [haf', hq]
  · intro q hq
    show s1.cells q = s.cells q
    exact updCell_cells_other s o.index f1 q hq
  · intro q
    by_cases hq : q = o.index
    · rw [hq, hs1o]
      exact ⟨rfl, rfl, rfl⟩
    · rw [updCell_cells_other s o.index f1 q hq]
      exact ⟨rfl, rfl, rfl⟩

theorem bidLoop_eq_none {B S : Type} {w h : ℕ} (s : SimSt B S w h) (o : MOrder w h)
    (bids asks : List (MOrder w h)) (hpop : popMinRate asks = none) :
    bidLoop s o bids asks = (s, (if o.food ≠ 0 then bids ++ [o] else bids), asks) := by
  conv_lhs => rw [bidLoop.eq_def]
  split
  · simp [REPO]
  · next a r heq =>
    rw [hpop] at heq
    cases heq

theorem bidLoop_eq_high {B S : Type} {w h : ℕ} (s : SimSt B S w h) (o : MOrder w h)
    (bids asks : List (MOrder w h)) (ask : MOrder w h) (rest : List (MOrder w h))
    (hpop : popMinRate asks = some (ask, rest)) (hlt : o.rate < ask.rate) :
    bidLoop s o bids asks = (s, (if o.food ≠ 0 then bids ++ [o] else bids), rest) := by
  conv_lhs => rw [bidLoop.eq_def]
  split
  · next heq =>
    rw [hpop] at heq
    cases heq
  · next a r heq =>
    rw [hpop] at heq
    simp only [Option.some.injEq, Prod.mk.injEq] at heq
    obtain ⟨rfl, rfl⟩ := heq
    rw [if_pos hlt]

theorem bidLoop_eq_fill {B S : Type} {w h : ℕ} (s : SimSt B S w h) (o : MOrder w h)
    (bids asks : List (MOrder w h)) (ask : MOrder w h) (rest : List (MOrder w h))
    (hpop : popMinRate asks = some (ask, rest)) (hge : ¬ o.rate < ask.rate) :
    bidLoop s o bids asks =
      (if (fulfill s o ask).2.1.food = 0
        then ((fulfill s o ask).1, bids,
          (if (fulfill s o ask).2.2.food ≠ 0 then rest ++ [(fulfill s o ask).2.2] else rest))
        else bidLoop (fulfill s o ask).1 (fulfill s o ask).2.1 bids
          (if (fulfill s o ask).2.2.food ≠ 0 then rest ++ [(fulfill s o ask).2.2] else rest)) := by
  conv_lhs => rw [bidLoop.eq_def]
  split
  · next heq =>
    rw [hpop] at heq
    cases heq
  · next a r heq =>
    rw [hpop] at heq
    simp only [Option.some.injEq, Prod.mk.injEq] at heq
    obtain ⟨rfl, rfl⟩ := heq
    rw [if_neg hge]
    dsimp only
    by_cases hd : (fulfill s o ask).2.1.food = 0
    · rw [dif_pos hd, if_pos hd]
    · rw [dif_neg hd, if_neg hd]

theorem askLoop_eq_none {B S : Type} {w h : ℕ} (s : SimSt B S w h) (o : MOrder w h)
    (bids asks : List (MOrder w h)) (hpop : popMaxRate bids = none) :
    askLoop s o bids asks =
      ((if o.rate ≤ 1 then fulfillReserve s o else (s, o)).1, bids,
        (if (if o.rate ≤ 1 then fulfillReserve s o else (s, o)).2.food ≠ 0
          then asks ++ [(if o.rate ≤ 1 then fulfillReserve s o else (s, o)).2] else asks)) := by
  conv_lhs => rw [askLoop.eq_def]
  split
  · rfl
  · next a r heq =>
    rw [hpop] at heq
    cases heq

theorem askLoop_eq_high {B S : Type} {w h : ℕ} (s : SimSt B S w h) (o : MOrder w h)
    (bids asks : List (MOrder w h)) (bid : MOrder w h) (rest : List (MOrder w h))
    (hpop : popMaxRate bids = some (bid, rest)) (hlt : bid.rate < o.rate) :
    askLoop s o bids asks =
      ((if o.rate ≤ 1 then fulfillReserve s o else (s, o)).1, rest,
        (if (if o.rate ≤ 1 then fulfillReserve s o else (s, o)).2.food ≠ 0
          then asks ++ [(if o.rate ≤ 1 then fulfillReserve s o else (s, o)).2] else asks)) := by
  conv_lhs => rw [askLoop.eq_def]
  split
  · next heq =>
    rw [hpop] at heq
    cases heq
  · next a r heq =>
    rw [hpop] at heq
    simp only [Option.some.injEq, Prod.mk.injEq] at heq
    obtain ⟨rfl, rfl⟩ := heq
    rw [if_pos hlt]

theorem askLoop_eq_low {B S : Type} {w h : ℕ} (s : SimSt B S w h) (o : MOrder w h)
    (bids asks : List (MOrder w h)) (bid : MOrder w h) (rest : List (MOrder w h))
    (hpop : popMaxRate bids = some (bid, rest)) (hge : ¬ bid.rate < o.rate)
    (hlow : bid.rate < 1) :
    askLoop s o bids asks =
      (if (fulfill (fulfillReserve s o).1 (fulfillReserve s o).2 bid).2.1.food = 0
        then ((fulfill (fulfillReserve s o).1 (fulfillReserve s o).2 bid).1,
          (if (fulfill (fulfillReserve s o).1 (fulfillReserve s o).2 bid).2.2.food ≠ 0
            then rest ++ [(fulfill (fulfillReserve s o).1 (fulfillReserve s o).2 bid).2.2]
            else rest), asks)
        else askLoop (fulfill (fulfillReserve s o).1 (fulfillReserve s o).2 bid).1
          (fulfill (fulfillReserve s o).1 (fulfillReserve s o).2 bid).2.1
          (if (fulfill (fulfillReserve s o).1 (fulfillReserve s o).2 bid).2.2.food ≠ 0
            then rest ++ [(fulfill (fulfillReserve s o).1 (fulfillReserve s o).2 bid).2.2]
            else rest) asks) := by
  conv_lhs => rw [askLoop.eq_def]
  split
  · next heq =>
    rw [hpop] at heq
    cases heq
  · next a r heq =>
    rw [hpop] at heq
    simp only [Option.some.injEq, Prod.mk.injEq] at heq
    obtain ⟨rfl, rfl⟩ := heq
    rw [if_neg hge, if_pos hlow]
    dsimp only
    by_cases hd : (fulfill (fulfillReserve s o).1 (fulfillReserve s o).2 bid).2.1.food = 0
    · rw [dif_pos hd, if_pos hd]
    · rw [dif_neg hd, if_neg hd]

theorem askLoop_eq_fill {B S : Type} {w h : ℕ} (s : SimSt B S w h) (o : MOrder w h)
    (bids asks : List (MOrder w h)) (bid : MOrder w h) (rest : List (MOrder w h))
    (hpop : popMaxRate bids = some (bid, rest)) (hge : ¬ bid.rate < o.rate)
    (hhigh : ¬ bid.rate < 1) :
    askLoop s o bids asks =
      (if (fulfill s o bid).2.1.food = 0
        then ((fulfill s o bid).1,
          (if (fulfill s o bid).2.2.food ≠ 0 then rest ++ [(fulfill s o bid).2.2] else rest),
          asks)
        else askLoop (fulfill s o bid).1 (fulfill s o bid).2.1
          (if (fulfill s o bid).2.2.food ≠ 0 then rest ++ [(fulfill s o bid).2.2] else rest)
          asks) := by
  conv_lhs => rw [askLoop.eq_def]
  split
  · next heq =>
    rw [hpop] at heq
    cases heq
  · next a r heq =>
    rw [hpop] at heq
    simp only [Option.some.injEq, Prod.mk.injEq] at heq
    obtain ⟨rfl, rfl⟩ := heq
    rw [if_neg hge, if_neg hhigh]
    dsimp only
    by_cases hd : (fulfill s o bid).2.1.food = 0
    · rw [dif_pos hd, if_pos hd]
    · rw [dif_neg hd, if_neg hd]

theorem nodup_subperm {α : Type _} {l₁ l₂ : List α} (hs : l₁ <+~ l₂) (hn : l₂.Nodup) :
    l₁.Nodup := by
  obtain ⟨l, hperm, hsub⟩ := hs
  exact hperm.nodup_iff.mp (hn.sublist hsub)

theorem afford_congr {B S : Type} {w h : ℕ} {s s' : SimSt B S w h} {o : MOrder w h}
    (heq : s'.cells o.index = s.cells o.index) (ha : afford s o) : afford s' o := by
  unfold afford at *
  rw [heq]
  exact ha

theorem metaSame_trans {B S : Type} {c₁ c₂ c₃ : MCell B S}
    (h₁ : metaSame c₁ c₂) (h₂ : metaSame c₂ c₃) : metaSame c₁ c₃ :=
  ⟨h₂.1.trans h₁.1, h₂.2.1.trans h₁.2.1, h₂.2.2.trans h₁.2.2⟩

theorem bidLoop_spec {B S : Type} {w h : ℕ} :
    ∀ (s : SimSt B S w h) (o : MOrder w h) (bids asks : List (MOrder w h)),
    o.food < 0 → afford s o →
    (∀ x ∈ bids, x.food < 0 ∧ afford s x) →
    (∀ x ∈ asks, 0 < x.food ∧ afford s x) →
    (o.index :: (bids.map MOrder.index ++ asks.map MOrder.index)).Nodup →
    totalMoney (bidLoop s o bids asks).1 = totalMoney s ∧
    (∀ x ∈ (bidLoop s o bids asks).2.1, x.food < 0 ∧ afford (bidLoop s o bids asks).1 x) ∧
    (∀ x ∈ (bidLoop s o bids asks).2.2, 0 < x.food ∧ afford (bidLoop s o bids asks).1 x) ∧
    ((bidLoop s o bids asks).2.1.map MOrder.index
        ++ (bidLoop s o bids asks).2.2.map MOrder.index)
      <+~ (o.index :: (bids.map MOrder.index ++ asks.map MOrder.index)) ∧
    (∀ q, q ≠ o.index → q ∉ asks.map MOrder.index →
      (bidLoop s o bids asks).1.cells q = s.cells q) ∧
    (∀ q, metaSame (s.cells q) ((bidLoop s o bids asks).1.cells q)) := by
  intro s o bids asks
  induction s, o, bids, asks using bidLoop.induct with
  | case1 s o bids asks hpop =>
    intro ho haf hwfB hwfA hnd
    rw [bidLoop_eq_none s o bids asks hpop]
    refine ⟨rfl, ?_, ?_, ?_, fun q _ _ => rfl, fun q => ⟨rfl, rfl, rfl⟩⟩
    · intro x hx
      by_cases hof : o.food ≠ 0
      · rw [if_pos hof] at hx
        rcases List.mem_append.mp hx with hx | hx
        · exact hwfB x hx
        · rw [List.mem_singleton.mp hx]
          exact ⟨ho, haf⟩
      · rw [if_neg hof] at hx
        exact hwfB x hx
    · intro x hx
      exact hwfA x hx
    · show ((if o.food ≠ 0 then bids ++ [o] else bids).map MOrder.index
          ++ asks.map MOrder.index) <+~ _
      by_cases hof : o.food ≠ 0
      · rw [if_pos hof, List.map_append]
        have hperm : (bids.map MOrder.index ++ [o].map MOrder.index) ++ asks.map MOrder.index
            = bids.map MOrder.index ++ (o.index :: asks.map MOrder.index) := by
          simp
        rw [hperm]
        exact List.perm_middle.subperm
      · rw [if_neg hof]
        exact List.Subperm.cons_right _ (List.Subperm.refl _)
  | case2 s o bids asks ask rest hpop hlt =>
    intro ho haf hwfB hwfA hnd
    rw [bidLoop_eq_high s o bids asks ask rest hpop hlt]
    have hperm := popMinRate_perm asks ask rest hpop
    have hrest_sub : ∀ x ∈ rest, x ∈ asks := fun x hx =>
      hperm.mem_iff.mpr (List.mem_cons_of_mem ask hx)
    refine ⟨rfl, ?_, ?_, ?_, fun q _ _ => rfl, fun q => ⟨rfl, rfl, rfl⟩⟩
    · intro x hx
      by_cases hof : o.food ≠ 0
      · rw [if_pos hof] at hx
        rcases List.mem_append.mp hx with hx | hx
        · exact hwfB x hx
        · rw [List.mem_singleton.mp hx]
          exact ⟨ho, haf⟩
      · rw [if_neg hof] at hx
        exact hwfB x hx
    · intro x hx
      exact hwfA x (hrest_sub x hx)
    · have hrest : rest.map MOrder.index <+~ asks.map MOrder.index :=
        ((List.sublist_cons_self ask.index (rest.map MOrder.index)).subperm).trans
          ((hperm.map MOrder.index).symm.subperm)
      have hmid : ((if o.food ≠ 0 then bids ++ [o] else bids).map MOrder.index
          ++ rest.map MOrder.index)
          <+~ ((if o.food ≠ 0 then bids ++ [o] else bids).map MOrder.index
            ++ asks.map MOrder.index) :=
        (List.subperm_append_left _).mpr hrest
      refine hmid.trans ?_
      by_cases hof : o.food ≠ 0
      · rw [if_pos hof, List.map_append]
        have hperm2 : (bids.map MOrder.index ++ [o].map MOrder.index) ++ asks.map MOrder.index
            = bids.map MOrder.index ++ (o.index :: asks.map MOrder.index) := by
          simp
        rw [hperm2]
        exact List.perm_middle.subperm
      · rw [if_neg hof]
        exact List.Subperm.cons_right _ (List.Subperm.refl _)
  | case3 s o bids asks ask rest hpop hge t hdone =>
    intro ho haf hwfB hwfA hnd
    have hdone' : (fulfill s o ask).2.1.food = 0 := hdone
    rw [bidLoop_eq_fill s o bids asks ask rest hpop hge]
    rw [if_pos hdone']
    have hperm := popMinRate_perm asks ask rest hpop
    have hmem : ask ∈ asks := hperm.mem_iff.mpr (List.mem_cons_self ask rest)
    have hrest_sub : ∀ x ∈ rest, x ∈ asks := fun x hx =>
      hperm.mem_iff.mpr (List.mem_cons_of_mem ask hx)
    have hno : o.index ∉ bids.map MOrder.index ++ asks.map MOrder.index :=
      (List.nodup_cons.mp hnd).1
    have hnd2 : (bids.map MOrder.index ++ asks.map MOrder.index).Nodup :=
      (List.nodup_cons.mp hnd).2
    have hndBA := List.nodup_append.mp hnd2
    have hne : o.index ≠ ask.index := by
      intro hcontra
      exact hno (List.mem_append.mpr (Or.inr
        (hcontra ▸ List.mem_map_of_mem MOrder.index hmem)))
    have spec := fulfill_spec_bid s o ask ho (hwfA ask hmem).1 (not_lt.mp hge)
      haf (hwfA ask hmem).2 hne
    obtain ⟨hmon, hi1, hr1, hf1, ha1, hi2, hr2, hf2, ha2, hres, huntouched, hmeta⟩ := spec
    have hmapPerm : asks.map MOrder.index ~ ask.index :: rest.map MOrder.index :=
      hperm.map MOrder.index
    have hnA : (asks.map MOrder.index).Nodup := hndBA.2.1
    have haskNotRest : ask.index ∉ rest.map MOrder.index :=
      (List.nodup_cons.mp (hmapPerm.nodup_iff.mp hnA)).1
    refine ⟨hmon, ?_, ?_, ?_, ?_, hmeta⟩
    · intro x hx
      have hxi : x.index ∈ bids.map MOrder.index := List.mem_map_of_mem MOrder.index hx
      have hxo : x.index ≠ o.index := by
        intro hcontra
        exact hno (List.mem_append.mpr (Or.inl (hcontra ▸ hxi)))
      have hxa : x.index ≠ ask.index := by
        intro hcontra
        exact (List.disjoint_right.mp hndBA.2.2
          (hcontra ▸ List.mem_map_of_mem MOrder.index hmem)) hxi
      exact ⟨(hwfB x hx).1, afford_congr (huntouched x.index hxo hxa) (hwfB x hx).2⟩
    · intro x hx
      by_cases hpush : (fulfill s o ask).2.2.food ≠ 0
      · rw [if_pos hpush] at hx
        rcases List.mem_append.mp hx with hx | hx
        · have hxmem := hrest_sub x hx
          have hxo : x.index ≠ o.index := by
            intro hcontra
            exact hno (List.mem_append.mpr (Or.inr
              (hcontra ▸ List.mem_map_of_mem MOrder.index hxmem)))
          have hxa : x.index ≠ ask.index := by
            intro hcontra
            exact haskNotRest (hcontra ▸ List.mem_map_of_mem MOrder.index hx)
          exact ⟨(hwfA x hxmem).1,
            afford_congr (huntouched x.index hxo hxa) (hwfA x hxmem).2⟩
        · rw [List.mem_singleton.mp hx]
          exact ⟨lt_of_le_of_ne hf2 (Ne.symm hpush), ha2⟩
      · rw [if_neg hpush] at hx
        have hxmem := hrest_sub x hx
        have hxo : x.index ≠ o.index := by
          intro hcontra
          exact hno (List.mem_append.mpr (Or.inr
            (hcontra ▸ List.mem_map_of_mem MOrder.index hxmem)))
        have hxa : x.index ≠ ask.index := by
          intro hcontra
          exact haskNotRest (hcontra ▸ List.mem_map_of_mem MOrder.index hx)
        exact ⟨(hwfA x hxmem).1,
          afford_congr (huntouched x.index hxo hxa) (hwfA x hxmem).2⟩
    · have hasks1 : (if (fulfill s o ask).2.2.food ≠ 0
          then rest ++ [(fulfill s o ask).2.2] else rest).map MOrder.index
          <+~ asks.map MOrder.index := by
        by_cases hpush : (fulfill s o ask).2.2.food ≠ 0
        · rw [if_pos hpush, List.map_append]
          have : rest.map MOrder.index ++ [(fulfill s o ask).2.2].map MOrder.index
              = rest.map MOrder.index ++ [ask.index] := by
            simp [hi2]
          rw [this]
          exact ((List.perm_append_singleton ask.index (rest.map MOrder.index)).trans
            hmapPerm.symm).subperm
        · rw [if_neg hpush]
          exact ((List.sublist_cons_self ask.index (rest.map MOrder.index)).subperm).trans
            hmapPerm.symm.subperm
      refine ((List.subperm_append_left _).mpr hasks1).trans ?_
      exact List.Subperm.cons_right _ (List.Subperm.refl _)
    · intro q hqo hqasks
      have hqa : q ≠ ask.index := by
        intro hcontra
        exact hqasks (hcontra ▸ List.mem_map_of_mem MOrder.index hmem)
      exact huntouched q hqo hqa
  | case4 s o bids asks ask rest hpop hge t asks1 hndone IH =>
    intro ho haf hwfB hwfA hnd
    have hndone' : ¬ (fulfill s o ask).2.1.food = 0 := hndone
    rw [bidLoop_eq_fill s o bids asks ask rest hpop hge]
    rw [if_neg hndone']
    have hperm := popMinRate_perm asks ask rest hpop
    have hmem : ask ∈ asks := hperm.mem_iff.mpr (List.mem_cons_self ask rest)
    have hrest_sub : ∀ x ∈ rest, x ∈ asks := fun x hx =>
      hperm.mem_iff.mpr (List.mem_cons_of_mem ask hx)
    have hno : o.index ∉ bids.map MOrder.index ++ asks.map MOrder.index :=
      (List.nodup_cons.mp hnd).1
    have hnd2 : (bids.map MOrder.index ++ asks.map MOrder.index).Nodup :=
      (List.nodup_cons.mp hnd).2
    have hndBA := List.nodup_append.mp hnd2
    have hne : o.index ≠ ask.index := by
      intro hcontra
      exact hno (List.mem_append.mpr (Or.inr
        (hcontra ▸ List.mem_map_of_mem MOrder.index hmem)))
    have spec := fulfill_spec_bid s o ask ho (hwfA ask hmem).1 (not_lt.mp hge)
      haf (hwfA ask hmem).2 hne
    obtain ⟨hmon, hi1, hr1, hf1, ha1, hi2, hr2, hf2, ha2, hres, huntouched, hmeta⟩ := spec
    have hmapPerm : asks.map MOrder.index ~ ask.index :: rest.map MOrder.index :=
      hperm.map MOrder.index
    have hnA : (asks.map MOrder.index).Nodup := hndBA.2.1
    have haskNotRest : ask.index ∉ rest.map MOrder.index :=
      (List.nodup_cons.mp (hmapPerm.nodup_iff.mp hnA)).1
    have hasks1sub : (if (fulfill s o ask).2.2.food ≠ 0
        then rest ++ [(fulfill s o ask).2.2] else rest).map MOrder.index
        <+~ asks.map MOrder.index := by
      by_cases hpush : (fulfill s o ask).2.2.food ≠ 0
      · rw [if_pos hpush, List.map_append]
        have heq2 : rest.map MOrder.index ++ [(fulfill s o ask).2.2].map MOrder.index
            = rest.map MOrder.index ++ [ask.index] := by
          simp [hi2]
        rw [heq2]
        exact ((List.perm_append_singleton ask.index (rest.map MOrder.index)).trans
          hmapPerm.symm).subperm
      · rw [if_neg hpush]
        exact ((List.sublist_cons_self ask.index (rest.map MOrder.index)).subperm).trans
          hmapPerm.symm.subperm
    have hwfB' : ∀ x ∈ bids, x.food < 0 ∧ afford (fulfill s o ask).1 x := by
      intro x hx
      have hxi : x.index ∈ bids.map MOrder.index := List.mem_map_of_mem MOrder.index hx
      have hxo : x.index ≠ o.index := by
        intro hcontra
        exact hno (List.mem_append.mpr (Or.inl (hcontra ▸ hxi)))
      have hxa : x.index ≠ ask.index := by
        intro hcontra
        exact (List.disjoint_right.mp hndBA.2.2
          (hcontra ▸ List.mem_map_of_mem MOrder.index hmem)) hxi
      exact ⟨(hwfB x hx).1, afford_congr (huntouched x.index hxo hxa) (hwfB x hx).2⟩
    have hwfA' : ∀ x ∈ (if (fulfill s o ask).2.2.food ≠ 0
        then rest ++ [(fulfill s o ask).2.2] else rest),
        0 < x.food ∧ afford (fulfill s o ask).1 x := by
      intro x hx
      have hrestCase : ∀ y ∈ rest, 0 < y.food ∧ afford (fulfill s o ask).1 y := by
        intro y hy
        have hymem := hrest_sub y hy
        have hyo : y.index ≠ o.index := by
          intro hcontra
          exact hno (List.mem_append.mpr (Or.inr
            (hcontra ▸ List.mem_map_of_mem MOrder.index hymem)))
        have hya : y.index ≠ ask.index := by
          intro hcontra
          exact haskNotRest (hcontra ▸ List.mem_map_of_mem MOrder.index hy)
        exact ⟨(hwfA y hymem).1,
          afford_congr (huntouched y.index hyo hya) (hwfA y hymem).2⟩
      by_cases hpush : (fulfill s o ask).2.2.food ≠ 0
      · rw [if_pos hpush] at hx
        rcases List.mem_append.mp hx with hx | hx
        · exact hrestCase x hx
        · rw [List.mem_singleton.mp hx]
          exact ⟨lt_of_le_of_ne hf2 (Ne.symm hpush), ha2⟩
      · rw [if_neg hpush] at hx
        exact hrestCase x hx
    have hnd' : ((fulfill s o ask).2.1.index :: (bids.map MOrder.index
        ++ (if (fulfill s o ask).2.2.food ≠ 0
          then rest ++ [(fulfill s o ask).2.2] else rest).map MOrder.index)).Nodup := by
      rw [hi1]
      refine nodup_subperm ?_ hnd
      rw [List.subperm_cons]
      exact (List.subperm_append_left _).mpr hasks1sub
    have hfood' : (fulfill s o ask).2.1.food < 0 := lt_of_le_of_ne hf1 hndone'
    have IHres := IH hfood' ha1 hwfB' hwfA' hnd'
    obtain ⟨ihmon, ihB, ihA, ihsub, ihun, ihmeta⟩ := IHres
    refine ⟨ihmon.trans hmon, ihB, ihA, ?_, ?_, ?_⟩
    · refine ihsub.trans ?_
      rw [hi1, List.subperm_cons]
      refine ((List.subperm_append_left _).mpr hasks1sub).trans (List.Subperm.refl _)
    · intro q hqo hqasks
      have hqa : q ≠ ask.index := by
        intro hcontra
        exact hqasks (hcontra ▸ List.mem_map_of_mem MOrder.index hmem)
      have hq1 : q ∉ (if (fulfill s o ask).2.2.food ≠ 0
          then rest ++ [(fulfill s o ask).2.2] else rest).map MOrder.index := by
        intro hcontra
        exact hqasks (hasks1sub.subset hcontra)
      have hq0 : q ≠ (fulfill s o ask).2.1.index := by
        rw [hi1]
        exact hqo
      exact (ihun q hq0 hq1).trans (huntouched q hqo hqa)
    · intro q
      exact metaSame_trans (hmeta q) (ihmeta q)

theorem askLoop_spec {B S : Type} {w h : ℕ} :
    ∀ (s : SimSt B S w h) (o : MOrder w h) (bids asks : List (MOrder w h)),
    0 < o.food → afford s o →
    (∀ x ∈ bids, x.food < 0 ∧ afford s x) →
    (∀ x ∈ asks, 0 < x.food ∧ afford s x) →
    (o.index :: (bids.map MOrder.index ++ asks.map MOrder.index)).Nodup →
    totalMoney (askLoop s o bids asks).1 = totalMoney s ∧
    (∀ x ∈ (askLoop s o bids asks).2.1, x.food < 0 ∧ afford (askLoop s o bids asks).1 x) ∧
    (∀ x ∈ (askLoop s o bids asks).2.2, 0 < x.food ∧ afford (askLoop s o bids asks).1 x) ∧
    ((askLoop s o bids asks).2.1.map MOrder.index
        ++ (askLoop s o bids asks).2.2.map MOrder.index)
      <+~ (o.index :: (bids.map MOrder.index ++ asks.map MOrder.index)) ∧
    (∀ q, q ≠ o.index → q ∉ bids.map MOrder.index →
      (askLoop s o bids asks).1.cells q = s.cells q) ∧
    (∀ q, metaSame (s.cells q) ((askLoop s o bids asks).1.cells q)) := by
  intro s o bids asks
  induction s, o, bids, asks using askLoop.induct with
  | case1 s o bids asks hpop =>
    intro ho haf hwfB hwfA hnd
    rw [askLoop_eq_none s o bids asks hpop]
    have hno : o.index ∉ bids.map MOrder.index ++ asks.map MOrder.index :=
      (List.nodup_cons.mp hnd).1
    have hnoB : ∀ x ∈ bids, x.index ≠ o.index := fun x hx hc =>
      hno (List.mem_append.mpr (Or.inl (hc ▸ List.mem_map_of_mem MOrder.index hx)))
    have hnoA : ∀ x ∈ asks, x.index ≠ o.index := fun x hx hc =>
      hno (List.mem_append.mpr (Or.inr (hc ▸ List.mem_map_of_mem MOrder.index hx)))
    by_cases hr1 : o.rate ≤ 1
    · rw [if_pos hr1]
      obtain ⟨rmon, rix, rrate, rfood, raff, run, rmeta⟩ :=
        fulfillReserve_spec s o (le_of_lt ho) haf hr1
      refine ⟨rmon, ?_, ?_, ?_, ?_, rmeta⟩
      · intro x hx
        exact ⟨(hwfB x hx).1, afford_congr (run x.index (hnoB x hx)) (hwfB x hx).2⟩
      · intro x hx
        by_cases hpush : (fulfillReserve s o).2.food ≠ 0
        · rw [if_pos hpush] at hx
          rcases List.mem_append.mp hx with hx | hx
          · exact ⟨(hwfA x hx).1, afford_congr (run x.index (hnoA x hx)) (hwfA x hx).2⟩
          · rw [List.mem_singleton.mp hx]
            exact ⟨lt_of_le_of_ne rfood (Ne.symm hpush), raff⟩
        · rw [if_neg hpush] at hx
          exact ⟨(hwfA x hx).1, afford_congr (run x.index (hnoA x hx)) (hwfA x hx).2⟩
      · by_cases hpush : (fulfillReserve s o).2.food ≠ 0
        · rw [if_pos hpush, List.map_append]
          have heq2 : [(fulfillReserve s o).2].map MOrder.index = [o.index] := by
            simp [rix]
          rw [heq2, ← List.append_assoc]
          exact (List.perm_append_singleton _ _).subperm
        · rw [if_neg hpush]
          exact List.Subperm.cons_right _ (List.Subperm.refl _)
      · intro q hqo _
        exact run q hqo
    · rw [if_neg hr1]
      refine ⟨rfl, ?_, ?_, ?_, fun q _ _ => rfl, fun q => ⟨rfl, rfl, rfl⟩⟩
      · intro x hx
        exact hwfB x hx
      · intro x hx
        by_cases hpush : (s, o).2.food ≠ 0
        · rw [if_pos hpush] at hx
          rcases List.mem_append.mp hx with hx | hx
          · exact hwfA x hx
          · rw [List.mem_singleton.mp hx]
            exact ⟨ho, haf⟩
        · rw [if_neg hpush] at hx
          exact hwfA x hx
      · by_cases hpush : (s, o).2.food ≠ 0
        · rw [if_pos hpush, List.map_append]
          have heq2 : [(s, o).2].map MOrder.index = [o.index] := rfl
          rw [heq2, ← List.append_assoc]
          exact (List.perm_append_singleton _ _).subperm
        · rw [if_neg hpush]
          exact List.Subperm.cons_right _ (List.Subperm.refl _)
  | case2 s o bids asks bid rest hpop hlt =>
    intro ho haf hwfB hwfA hnd
    rw [askLoop_eq_high s o bids asks bid rest hpop hlt]
    have hperm := popMaxRate_perm bids bid rest hpop
    have hrest_sub : ∀ x ∈ rest, x ∈ bids := fun x hx =>
      hperm.mem_iff.mpr (List.mem_cons_of_mem bid hx)
    have hno : o.index ∉ bids.map MOrder.index ++ asks.map MOrder.index :=
      (List.nodup_cons.mp hnd).1
    have hnoB : ∀ x ∈ bids, x.index ≠ o.index := fun x hx hc =>
      hno (List.mem_append.mpr (Or.inl (hc ▸ List.mem_map_of_mem MOrder.index hx)))
    have hnoA : ∀ x ∈ asks, x.index ≠ o.index := fun x hx hc =>
      hno (List.mem_append.mpr (Or.inr (hc ▸ List.mem_map_of_mem MOrder.index hx)))
    have hrsub : rest.map MOrder.index <+~ bids.map MOrder.index :=
      ((List.sublist_cons_self bid.index (rest.map MOrder.index)).subperm).trans
        ((hperm.map MOrder.index).symm.subperm)
    have hsubfin : ∀ tl : List (Fin h × Fin w),
        tl <+~ asks.map MOrder.index ++ [o.index] →
        rest.map MOrder.index ++ tl
          <+~ (o.index :: (bids.map MOrder.index ++ asks.map MOrder.index)) := by
      intro tl htl
      have h1 : rest.map MOrder.index ++ tl
          <+~ bids.map MOrder.index ++ (asks.map MOrder.index ++ [o.index]) := by
        exact List.Subperm.trans ((List.subperm_append_left _).mpr htl)
          ((List.subperm_append_right _).mpr hrsub)
      refine h1.trans ?_
      rw [← List.append_assoc]
      exact (List.perm_append_singleton _ _).subperm
    by_cases hr1 : o.rate ≤ 1
    · rw [if_pos hr1]
      obtain ⟨rmon, rix, rrate, rfood, raff, run, rmeta⟩ :=
        fulfillReserve_spec s o (le_of_lt ho) haf hr1
      refine ⟨rmon, ?_, ?_, ?_, ?_, rmeta⟩
      · intro x hx
        have hxb := hrest_sub x hx
        exact ⟨(hwfB x hxb).1, afford_congr (run x.index (hnoB x hxb)) (hwfB x hxb).2⟩
      · intro x hx
        by_cases hpush : (fulfillReserve s o).2.food ≠ 0
        · rw [if_pos hpush] at hx
          rcases List.mem_append.mp hx with hx | hx
          · exact ⟨(hwfA x hx).1, afford_congr (run x.index (hnoA x hx)) (hwfA x hx).2⟩
          · rw [List.mem_singleton.mp hx]
            exact ⟨lt_of_le_of_ne rfood (Ne.symm hpush), raff⟩
        · rw [if_neg hpush] at hx
          exact ⟨(hwfA x hx).1, afford_congr (run x.index (hnoA x hx)) (hwfA x hx).2⟩
      · refine hsubfin _ ?_
        by_cases hpush : (fulfillReserve s o).2.food ≠ 0
        · rw [if_pos hpush, List.map_append]
          have heq2 : [(fulfillReserve s o).2].map MOrder.index = [o.index] := by
            simp [rix]
          rw [heq2]
        · rw [if_neg hpush]
          exact (List.sublist_append_left _ _).subperm
      · intro q hqo _
        exact run q hqo
    · rw [if_neg hr1]
      refine ⟨rfl, ?_, ?_, ?_, fun q _ _ => rfl, fun q => ⟨rfl, rfl, rfl⟩⟩
      · intro x hx
        exact hwfB x (hrest_sub x hx)
      · intro x hx
        by_cases hpush : (s, o).2.food ≠ 0
        · rw [if_pos hpush] at hx
          rcases List.mem_append.mp hx with hx | hx
          · exact hwfA x hx
          · rw [List.mem_singleton.mp hx]
            exact ⟨ho, haf⟩
        · rw [if_neg hpush] at hx
          exact hwfA x hx
      · refine hsubfin _ ?_
        by_cases hpush : (s, o).2.food ≠ 0
        · rw [if_pos hpush, List.map_append]
          have heq2 : [(s, o).2].map MOrder.index = [o.index] := rfl
          rw [heq2]
        · rw [if_neg hpush]
          exact (List.sublist_append_left _ _).subperm

  | case3 s o bids asks bid rest hpop hge hlow t hdone =>
    intro ho haf hwfB hwfA hnd
    have hdone' : (fulfill (fulfillReserve s o).1 (fulfillReserve s o).2 bid).2.1.food = 0 :=
      hdone
    rw [askLoop_eq_low s o bids asks bid rest hpop hge hlow]
    rw [if_pos hdone']
    have hperm := popMaxRate_perm bids bid rest hpop
    have hmem : bid ∈ bids := hperm.mem_iff.mpr (List.mem_cons_self bid rest)
    have hrest_sub : ∀ x ∈ rest, x ∈ bids := fun x hx =>
      hperm.mem_iff.mpr (List.mem_cons_of_mem bid hx)
    have hno : o.index ∉ bids.map MOrder.index ++ asks.map MOrder.index :=
      (List.nodup_cons.mp hnd).1
    have hnd2 : (bids.map MOrder.index ++ asks.map MOrder.index).Nodup :=
      (List.nodup_cons.mp hnd).2
    have hndBA := List.nodup_append.mp hnd2
    have hnoB : ∀ x ∈ bids, x.index ≠ o.index := fun x hx hc =>
      hno (List.mem_append.mpr (Or.inl (hc ▸ List.mem_map_of_mem MOrder.index hx)))
    have hnoA : ∀ x ∈ asks, x.index ≠ o.index := fun x hx hc =>
      hno (List.mem_append.mpr (Or.inr (hc ▸ List.mem_map_of_mem MOrder.index hx)))
    have hmapPerm : bids.map MOrder.index ~ bid.index :: rest.map MOrder.index :=
      hperm.map MOrder.index
    have hnB : (bids.map MOrder.index).Nodup := hndBA.1
    have hbidNotRest : bid.index ∉ rest.map MOrder.index :=
      (List.nodup_cons.mp (hmapPerm.nodup_iff.mp hnB)).1
    have hr1 : o.rate ≤ 1 := le_of_lt (lt_of_le_of_lt (not_lt.mp hge) hlow)
    obtain ⟨rmon, rix, rrate, rfood, raff, run, rmeta⟩ :=
      fulfillReserve_spec s o (le_of_lt ho) haf hr1
    have hbne : (fulfillReserve s o).2.index ≠ bid.index := by
      rw [rix]
      exact fun hc => (hnoB bid hmem) hc.symm
    have hbidAff : afford (fulfillReserve s o).1 bid :=
      afford_congr (run bid.index (hnoB bid hmem)) (hwfB bid hmem).2
    have hor : (fulfillReserve s o).2.rate ≤ bid.rate := by
      rw [rrate]
      exact not_lt.mp hge
    obtain ⟨fmon, fi1, fr1, ff1, fa1, fi2, fr2, ff2, fa2, fres, funtouched, fmeta⟩ :=
      fulfill_spec_ask (fulfillReserve s o).1 (fulfillReserve s o).2 bid
        rfood (hwfB bid hmem).1 hor raff hbidAff hbne
    have htouch : ∀ q, q ≠ o.index → q ≠ bid.index →
        (fulfill (fulfillReserve s o).1 (fulfillReserve s o).2 bid).1.cells q = s.cells q := by
      intro q hqo hqb
      have hq1 : q ≠ (fulfillReserve s o).2.index := by
        rw [rix]
        exact hqo
      exact (funtouched q hq1 hqb).trans (run q hqo)
    refine ⟨fmon.trans rmon, ?_, ?_, ?_, ?_, ?_⟩
    · intro x hx
      by_cases hpush :
          (fulfill (fulfillReserve s o).1 (fulfillReserve s o).2 bid).2.2.food ≠ 0
      · rw [if_pos hpush] at hx
        rcases List.mem_append.mp hx with hx | hx
        · have hxb := hrest_sub x hx
          have hxbid : x.index ≠ bid.index := fun hc =>
            hbidNotRest (hc ▸ List.mem_map_of_mem MOrder.index hx)
          exact ⟨(hwfB x hxb).1,
            afford_congr (htouch x.index (hnoB x hxb) hxbid) (hwfB x hxb).2⟩
        · rw [List.mem_singleton.mp hx]
          exact ⟨lt_of_le_of_ne ff2 hpush, fa2⟩
      · rw [if_neg hpush] at hx
        have hxb := hrest_sub x hx
        have hxbid : x.index ≠ bid.index := fun hc =>
          hbidNotRest (hc ▸ List.mem_map_of_mem MOrder.index hx)
        exact ⟨(hwfB x hxb).1,
          afford_congr (htouch x.index (hnoB x hxb) hxbid) (hwfB x hxb).2⟩
    · intro x hx
      have hxbid : x.index ≠ bid.index := fun hc =>
        (List.disjoint_left.mp hndBA.2.2 (hc ▸ List.mem_map_of_mem MOrder.index hmem))
          (List.mem_map_of_mem MOrder.index hx)
      exact ⟨(hwfA x hx).1,
        afford_congr (htouch x.index (hnoA x hx) hxbid) (hwfA x hx).2⟩
    · have hbids1 : (if (fulfill (fulfillReserve s o).1 (fulfillReserve s o).2 bid).2.2.food ≠ 0
          then rest ++ [(fulfill (fulfillReserve s o).1 (fulfillReserve s o).2 bid).2.2]
          else rest).map MOrder.index
          <+~ bids.map MOrder.index := by
        by_cases hpush :
            (fulfill (fulfillReserve s o).1 (fulfillReserve s o).2 bid).2.2.food ≠ 0
        · rw [if_pos hpush, List.map_append]
          have heq2 : [(fulfill (fulfillReserve s o).1 (fulfillReserve s o).2 bid).2.2].map
              MOrder.index = [bid.index] := by
            simp [fi2]
          rw [heq2]
          exact ((List.perm_append_singleton bid.index (rest.map MOrder.index)).trans
            hmapPerm.symm).subperm
        · rw [if_neg hpush]
          exact ((List.sublist_cons_self bid.index (rest.map MOrder.index)).subperm).trans
            hmapPerm.symm.subperm
      refine List.Subperm.trans ?_ (List.Subperm.cons_right _ (List.Subperm.refl _))
      exact (List.subperm_append_right _).mpr hbids1
    · intro q hqo hqbids
      have hqb : q ≠ bid.index := fun hc =>
        hqbids (hc ▸ List.mem_map_of_mem MOrder.index hmem)
      exact htouch q hqo hqb
    · intro q
      exact metaSame_trans (rmeta q) (fmeta q)

  | case4 s o bids asks bid rest hpop hge hlow t bids1 hndone IH =>
    intro ho haf hwfB hwfA hnd
    have hndone' :
        ¬ (fulfill (fulfillReserve s o).1 (fulfillReserve s o).2 bid).2.1.food = 0 := hndone
    rw [askLoop_eq_low s o bids asks bid rest hpop hge hlow]
    rw [if_neg hndone']
    have hperm := popMaxRate_perm bids bid rest hpop
    have hmem : bid ∈ bids := hperm.mem_iff.mpr (List.mem_cons_self bid rest)
    have hrest_sub : ∀ x ∈ rest, x ∈ bids := fun x hx =>
      hperm.mem_iff.mpr (List.mem_cons_of_mem bid hx)
    have hno : o.index ∉ bids.map MOrder.index ++ asks.map MOrder.index :=
      (List.nodup_cons.mp hnd).1
    have hnd2 : (bids.map MOrder.index ++ asks.map MOrder.index).Nodup :=
      (List.nodup_cons.mp hnd).2
    have hndBA := List.nodup_append.mp hnd2
    have hnoB : ∀ x ∈ bids, x.index ≠ o.index := fun x hx hc =>
      hno (List.mem_append.mpr (Or.inl (hc ▸ List.mem_map_of_mem MOrder.index hx)))
    have hnoA : ∀ x ∈ asks, x.index ≠ o.index := fun x hx hc =>
      hno (List.mem_append.mpr (Or.inr (hc ▸ List.mem_map_of_mem MOrder.index hx)))
    have hmapPerm : bids.map MOrder.index ~ bid.index :: rest.map MOrder.index :=
      hperm.map MOrder.index
    have hnB : (bids.map MOrder.index).Nodup := hndBA.1
    have hbidNotRest : bid.index ∉ rest.map MOrder.index :=
      (List.nodup_cons.mp (hmapPerm.nodup_iff.mp hnB)).1
    have hr1 : o.rate ≤ 1 := le_of_lt (lt_of_le_of_lt (not_lt.mp hge) hlow)
    obtain ⟨rmon, rix, rrate, rfood, raff, run, rmeta⟩ :=
      fulfillReserve_spec s o (le_of_lt ho) haf hr1
    have hbne : (fulfillReserve s o).2.index ≠ bid.index := by
      rw [rix]
      exact fun hc => (hnoB bid hmem) hc.symm
    have hbidAff : afford (fulfillReserve s o).1 bid :=
      afford_congr (run bid.index (hnoB bid hmem)) (hwfB bid hmem).2
    have hor : (fulfillReserve s o).2.rate ≤ bid.rate := by
      rw [rrate]
      exact not_lt.mp hge
    obtain ⟨fmon, fi1, fr1, ff1, fa1, fi2, fr2, ff2, fa2, fres, funtouched, fmeta⟩ :=
      fulfill_spec_ask (fulfillReserve s o).1 (fulfillReserve s o).2 bid
        rfood (hwfB bid hmem).1 hor raff hbidAff hbne
    have htouch : ∀ q, q ≠ o.index → q ≠ bid.index →
        (fulfill (fulfillReserve s o).1 (fulfillReserve s o).2 bid).1.cells q = s.cells q := by
      intro q hqo hqb
      have hq1 : q ≠ (fulfillReserve s o).2.index := by
        rw [rix]
        exact hqo
      exact (funtouched q hq1 hqb).trans (run q hqo)
    have hbids1sub :
        (if (fulfill (fulfillReserve s o).1 (fulfillReserve s o).2 bid).2.2.food ≠ 0
          then rest ++ [(fulfill (fulfillReserve s o).1 (fulfillReserve s o).2 bid).2.2]
          else rest).map MOrder.index
        <+~ bids.map MOrder.index := by
      by_cases hpush :
          (fulfill (fulfillReserve s o).1 (fulfillReserve s o).2 bid).2.2.food ≠ 0
      · rw [if_pos hpush, List.map_append]
        have heq2 : [(fulfill (fulfillReserve s o).1 (fulfillReserve s o).2 bid).2.2].map
            MOrder.index = [bid.index] := by
          simp [fi2]
        rw [heq2]
        exact ((List.perm_append_singleton bid.index (rest.map MOrder.index)).trans
          hmapPerm.symm).subperm
      · rw [if_neg hpush]
        exact ((List.sublist_cons_self bid.index (rest.map MOrder.index)).subperm).trans
          hmapPerm.symm.subperm
    have hwfB' : ∀ x ∈ (if (fulfill (fulfillReserve s o).1
        (fulfillReserve s o).2 bid).2.2.food ≠ 0
        then rest ++ [(fulfill (fulfillReserve s o).1 (fulfillReserve s o).2 bid).2.2]
        else rest),
        x.food < 0 ∧ afford (fulfill (fulfillReserve s o).1 (fulfillReserve s o).2 bid).1 x := by
      intro x hx
      have hrestCase : ∀ y ∈ rest,
          y.food < 0 ∧ afford (fulfill (fulfillReserve s o).1 (fulfillReserve s o).2 bid).1 y := by
        intro y hy
        have hyb := hrest_sub y hy
        have hybid : y.index ≠ bid.index := fun hc =>
          hbidNotRest (hc ▸ List.mem_map_of_mem MOrder.index hy)
        exact ⟨(hwfB y hyb).1,
          afford_congr (htouch y.index (hnoB y hyb) hybid) (hwfB y hyb).2⟩
      by_cases hpush :
          (fulfill (fulfillReserve s o).1 (fulfillReserve s o).2 bid).2.2.food ≠ 0
      · rw [if_pos hpush] at hx
        rcases List.mem_append.mp hx with hx | hx
        · exact hrestCase x hx
        · rw [List.mem_singleton.mp hx]
          exact ⟨lt_of_le_of_ne ff2 hpush, fa2⟩
      · rw [if_neg hpush] at hx
        exact hrestCase x hx
    have hwfA' : ∀ x ∈ asks,
        0 < x.food ∧ afford (fulfill (fulfillReserve s o).1 (fulfillReserve s o).2 bid).1 x := by
      intro x hx
      have hxbid : x.index ≠ bid.index := fun hc =>
        (List.disjoint_left.mp hndBA.2.2 (hc ▸ List.mem_map_of_mem MOrder.index hmem))
          (List.mem_map_of_mem MOrder.index hx)
      exact ⟨(hwfA x hx).1,
        afford_congr (htouch x.index (hnoA x hx) hxbid) (hwfA x hx).2⟩
    have hoidx : (fulfill (fulfillReserve s o).1 (fulfillReserve s o).2 bid).2.1.index
        = o.index := fi1.trans rix
    have hnd' : ((fulfill (fulfillReserve s o).1 (fulfillReserve s o).2 bid).2.1.index ::
        ((if (fulfill (fulfillReserve s o).1 (fulfillReserve s o).2 bid).2.2.food ≠ 0
          then rest ++ [(fulfill (fulfillReserve s o).1 (fulfillReserve s o).2 bid).2.2]
          else rest).map MOrder.index ++ asks.map MOrder.index)).Nodup := by
      rw [hoidx]
      refine nodup_subperm ?_ hnd
      rw [List.subperm_cons]
      exact (List.subperm_append_right _).mpr hbids1sub
    have hfood' : 0 < (fulfill (fulfillReserve s o).1 (fulfillReserve s o).2 bid).2.1.food :=
      lt_of_le_of_ne ff1 (Ne.symm hndone')
    have IHres := IH hfood' fa1 hwfB' hwfA' hnd'
    obtain ⟨ihmon, ihB, ihA, ihsub, ihun, ihmeta⟩ := IHres
    refine ⟨ihmon.trans (fmon.trans rmon), ihB, ihA, ?_, ?_, ?_⟩
    · refine ihsub.trans ?_
      rw [hoidx, List.subperm_cons]
      exact (List.subperm_append_right _).mpr hbids1sub
    · intro q hqo hqbids
      have hqb : q ≠ bid.index := fun hc =>
        hqbids (hc ▸ List.mem_map_of_mem MOrder.index hmem)
      have hq0 : q ≠ (fulfill (fulfillReserve s o).1 (fulfillReserve s o).2 bid).2.1.index := by
        rw [hoidx]
        exact hqo
      have hq1 : q ∉ (if (fulfill (fulfillReserve s o).1
          (fulfillReserve s o).2 bid).2.2.food ≠ 0
          then rest ++ [(fulfill (fulfillReserve s o).1 (fulfillReserve s o).2 bid).2.2]
          else rest).map MOrder.index := by
        intro hcontra
        exact hqbids (hbids1sub.subset hcontra)
      exact (ihun q hq0 hq1).trans (htouch q hqo hqb)
    · intro q
      exact metaSame_trans (metaSame_trans (rmeta q) (fmeta q)) (ihmeta q)

  | case5 s o bids asks bid rest hpop hge hhigh t hdone =>
    intro ho haf hwfB hwfA hnd
    have hdone' : (fulfill s o bid).2.1.food = 0 := hdone
    rw [askLoop_eq_fill s o bids asks bid rest hpop hge hhigh]
    rw [if_pos hdone']
    have hperm := popMaxRate_perm bids bid rest hpop
    have hmem : bid ∈ bids := hperm.mem_iff.mpr (List.mem_cons_self bid rest)
    have hrest_sub : ∀ x ∈ rest, x ∈ bids := fun x hx =>
      hperm.mem_iff.mpr (List.mem_cons_of_mem bid hx)
    have hno : o.index ∉ bids.map MOrder.index ++ asks.map MOrder.index :=
      (List.nodup_cons.mp hnd).1
    have hnd2 : (bids.map MOrder.index ++ asks.map MOrder.index).Nodup :=
      (List.nodup_cons.mp hnd).2
    have hndBA := List.nodup_append.mp hnd2
    have hnoB : ∀ x ∈ bids, x.index ≠ o.index := fun x hx hc =>
      hno (List.mem_append.mpr (Or.inl (hc ▸ List.mem_map_of_mem MOrder.index hx)))
    have hnoA : ∀ x ∈ asks, x.index ≠ o.index := fun x hx hc =>
      hno (List.mem_append.mpr (Or.inr (hc ▸ List.mem_map_of_mem MOrder.index hx)))
    have hmapPerm : bids.map MOrder.index ~ bid.index :: rest.map MOrder.index :=
      hperm.map MOrder.index
    have hnB : (bids.map MOrder.index).Nodup := hndBA.1
    have hbidNotRest : bid.index ∉ rest.map MOrder.index :=
      (List.nodup_cons.mp (hmapPerm.nodup_iff.mp hnB)).1
    have hbne : o.index ≠ bid.index := fun hc => (hnoB bid hmem) hc.symm
    obtain ⟨fmon, fi1, fr1, ff1, fa1, fi2, fr2, ff2, fa2, fres, funtouched, fmeta⟩ :=
      fulfill_spec_ask s o bid (le_of_lt ho) (hwfB bid hmem).1 (not_lt.mp hge)
        haf (hwfB bid hmem).2 hbne
    refine ⟨fmon, ?_, ?_, ?_, ?_, fmeta⟩
    · intro x hx
      by_cases hpush : (fulfill s o bid).2.2.food ≠ 0
      · rw [if_pos hpush] at hx
        rcases List.mem_append.mp hx with hx | hx
        · have hxb := hrest_sub x hx
          have hxbid : x.index ≠ bid.index := fun hc =>
            hbidNotRest (hc ▸ List.mem_map_of_mem MOrder.index hx)
          exact ⟨(hwfB x hxb).1,
            afford_congr (funtouched x.index (hnoB x hxb) hxbid) (hwfB x hxb).2⟩
        · rw [List.mem_singleton.mp hx]
          exact ⟨lt_of_le_of_ne ff2 hpush, fa2⟩
      · rw [if_neg hpush] at hx
        have hxb := hrest_sub x hx
        have hxbid : x.index ≠ bid.index := fun hc =>
          hbidNotRest (hc ▸ List.mem_map_of_mem MOrder.index hx)
        exact ⟨(hwfB x hxb).1,
          afford_congr (funtouched x.index (hnoB x hxb) hxbid) (hwfB x hxb).2⟩
    · intro x hx
      have hxbid : x.index ≠ bid.index := fun hc =>
        (List.disjoint_left.mp hndBA.2.2 (hc ▸ List.mem_map_of_mem MOrder.index hmem))
          (List.mem_map_of_mem MOrder.index hx)
      exact ⟨(hwfA x hx).1,
        afford_congr (funtouched x.index (hnoA x hx) hxbid) (hwfA x hx).2⟩
    · have hbids1 : (if (fulfill s o bid).2.2.food ≠ 0
          then rest ++ [(fulfill s o bid).2.2] else rest).map MOrder.index
          <+~ bids.map MOrder.index := by
        by_cases hpush : (fulfill s o bid).2.2.food ≠ 0
        · rw [if_pos hpush, List.map_append]
          have heq2 : [(fulfill s o bid).2.2].map MOrder.index = [bid.index] := by
            simp [fi2]
          rw [heq2]
          exact ((List.perm_append_singleton bid.index (rest.map MOrder.index)).trans
            hmapPerm.symm).subperm
        · rw [if_neg hpush]
          exact ((List.sublist_cons_self bid.index (rest.map MOrder.index)).subperm).trans
            hmapPerm.symm.subperm
      refine List.Subperm.trans ?_ (List.Subperm.cons_right _ (List.Subperm.refl _))
      exact (List.subperm_append_right _).mpr hbids1
    · intro q hqo hqbids
      have hqb : q ≠ bid.index := fun hc =>
        hqbids (hc ▸ List.mem_map_of_mem MOrder.index hmem)
      exact funtouched q hqo hqb
  | case6 s o bids asks bid rest hpop hge hhigh t bids1 hndone IH =>
    intro ho haf hwfB hwfA hnd
    have hndone' : ¬ (fulfill s o bid).2.1.food = 0 := hndone
    rw [askLoop_eq_fill s o bids asks bid rest hpop hge hhigh]
    rw [if_neg hndone']
    have hperm := popMaxRate_perm bids bid rest hpop
    have hmem : bid ∈ bids := hperm.mem_iff.mpr (List.mem_cons_self bid rest)
    have hrest_sub : ∀ x ∈ rest, x ∈ bids := fun x hx =>
      hperm.mem_iff.mpr (List.mem_cons_of_mem bid hx)
    have hno : o.index ∉ bids.map MOrder.index ++ asks.map MOrder.index :=
      (List.nodup_cons.mp hnd).1
    have hnd2 : (bids.map MOrder.index ++ asks.map MOrder.index).Nodup :=
      (List.nodup_cons.mp hnd).2
    have hndBA := List.nodup_append.mp hnd2
    have hnoB : ∀ x ∈ bids, x.index ≠ o.index := fun x hx hc =>
      hno (List.mem_append.mpr (Or.inl (hc ▸ List.mem_map_of_mem MOrder.index hx)))
    have hnoA : ∀ x ∈ asks, x.index ≠ o.index := fun x hx hc =>
      hno (List.mem_append.mpr (Or.inr (hc ▸ List.mem_map_of_mem MOrder.index hx)))
    have hmapPerm : bids.map MOrder.index ~ bid.index :: rest.map MOrder.index :=
      hperm.map MOrder.index
    have hnB : (bids.map MOrder.index).Nodup := hndBA.1
    have hbidNotRest : bid.index ∉ rest.map MOrder.index :=
      (List.nodup_cons.mp (hmapPerm.nodup_iff.mp hnB)).1
    have hbne : o.index ≠ bid.index := fun hc => (hnoB bid hmem) hc.symm
    obtain ⟨fmon, fi1, fr1, ff1, fa1, fi2, fr2, ff2, fa2, fres, funtouched, fmeta⟩ :=
      fulfill_spec_ask s o bid (le_of_lt ho) (hwfB bid hmem).1 (not_lt.mp hge)
        haf (hwfB bid hmem).2 hbne
    have hbids1sub : (if (fulfill s o bid).2.2.food ≠ 0
        then rest ++ [(fulfill s o bid).2.2] else rest).map MOrder.index
        <+~ bids.map MOrder.index := by
      by_cases hpush : (fulfill s o bid).2.2.food ≠ 0
      · rw [if_pos hpush, List.map_append]
        have heq2 : [(fulfill s o bid).2.2].map MOrder.index = [bid.index] := by
          simp [fi2]
        rw [heq2]
        exact ((List.perm_append_singleton bid.index (rest.map MOrder.index)).trans
          hmapPerm.symm).subperm
      · rw [if_neg hpush]
        exact ((List.sublist_cons_self bid.index (rest.map MOrder.index)).subperm).trans
          hmapPerm.symm.subperm
    have hwfB' : ∀ x ∈ (if (fulfill s o bid).2.2.food ≠ 0
        then rest ++ [(fulfill s o bid).2.2] else rest),
        x.food < 0 ∧ afford (fulfill s o bid).1 x := by
      intro x hx
      have hrestCase : ∀ y ∈ rest, y.food < 0 ∧ afford (fulfill s o bid).1 y := by
        intro y hy
        have hyb := hrest_sub y hy
        have hybid : y.index ≠ bid.index := fun hc =>
          hbidNotRest (hc ▸ List.mem_map_of_mem MOrder.index hy)
        exact ⟨(hwfB y hyb).1,
          afford_congr (funtouched y.index (hnoB y hyb) hybid) (hwfB y hyb).2⟩
      by_cases hpush : (fulfill s o bid).2.2.food ≠ 0
      · rw [if_pos hpush] at hx
        rcases List.mem_append.mp hx with hx | hx
        · exact hrestCase x hx
        · rw [List.mem_singleton.mp hx]
          exact ⟨lt_of_le_of_ne ff2 hpush, fa2⟩
      · rw [if_neg hpush] at hx
        exact hrestCase x hx
    have hwfA' : ∀ x ∈ asks, 0 < x.food ∧ afford (fulfill s o bid).1 x := by
      intro x hx
      have hxbid : x.index ≠ bid.index := fun hc =>
        (List.disjoint_left.mp hndBA.2.2 (hc ▸ List.mem_map_of_mem MOrder.index hmem))
          (List.mem_map_of_mem MOrder.index hx)
      exact ⟨(hwfA x hx).1,
        afford_congr (funtouched x.index (hnoA x hx) hxbid) (hwfA x hx).2⟩
    have hnd' : ((fulfill s o bid).2.1.index ::
        ((if (fulfill s o bid).2.2.food ≠ 0
          then rest ++ [(fulfill s o bid).2.2] else rest).map MOrder.index
          ++ asks.map MOrder.index)).Nodup := by
      rw [fi1]
      refine nodup_subperm ?_ hnd
      rw [List.subperm_cons]
      exact (List.subperm_append_right _).mpr hbids1sub
    have hfood' : 0 < (fulfill s o bid).2.1.food := lt_of_le_of_ne ff1 (Ne.symm hndone')
    have IHres := IH hfood' fa1 hwfB' hwfA' hnd'
    obtain ⟨ihmon, ihB, ihA, ihsub, ihun, ihmeta⟩ := IHres
    refine ⟨ihmon.trans fmon, ihB, ihA, ?_, ?_, ?_⟩
    · refine ihsub.trans ?_
      rw [fi1, List.subperm_cons]
      exact (List.subperm_append_right _).mpr hbids1sub
    · intro q hqo hqbids
      have hqb : q ≠ bid.index := fun hc =>
        hqbids (hc ▸ List.mem_map_of_mem MOrder.index hmem)
      have hq0 : q ≠ (fulfill s o bid).2.1.index := by
        rw [fi1]
        exact hqo
      have hq1 : q ∉ (if (fulfill s o bid).2.2.food ≠ 0
          then rest ++ [(fulfill s o bid).2.2] else rest).map MOrder.index := by
        intro hcontra
        exact hqbids (hbids1sub.subset hcontra)
      exact (ihun q hq0 hq1).trans (funtouched q hqo hqb)
    · intro q
      exact metaSame_trans (fmeta q) (ihmeta q)

theorem marketFold_spec {B S : Type} {w h : ℕ} :
    ∀ (pending : List (MOrder w h)) (st : SimSt B S w h) (bids asks : List (MOrder w h)),
    (∀ x ∈ pending, afford st x) →
    (∀ x ∈ bids, x.food < 0 ∧ afford st x) →
    (∀ x ∈ asks, 0 < x.food ∧ afford st x) →
    ((pending.map MOrder.index ++ bids.map MOrder.index) ++ asks.map MOrder.index).Nodup →
    totalMoney (pending.foldl marketFold (st, bids, asks)).1 = totalMoney st ∧
    (∀ q, metaSame (st.cells q) ((pending.foldl marketFold (st, bids, asks)).1.cells q)) := by
  intro pending
  induction pending with
  | nil =>
    intro st bids asks _ _ _ _
    exact ⟨rfl, fun q => ⟨rfl, rfl, rfl⟩⟩
  | cons o rest IH =>
    intro st bids asks hp hb ha hnd
    rw [List.foldl_cons]
    have hcons : (((o :: rest).map MOrder.index ++ bids.map MOrder.index)
        ++ asks.map MOrder.index)
        = o.index :: ((rest.map MOrder.index ++ bids.map MOrder.index)
          ++ asks.map MOrder.index) := by
      simp
    rw [hcons] at hnd
    have hno : o.index ∉ ((rest.map MOrder.index ++ bids.map MOrder.index)
        ++ asks.map MOrder.index) := (List.nodup_cons.mp hnd).1
    have hndRest : ((rest.map MOrder.index ++ bids.map MOrder.index)
        ++ asks.map MOrder.index).Nodup := (List.nodup_cons.mp hnd).2
    have hndSplit := List.nodup_append.mp hndRest
    have hndSplit2 := List.nodup_append.mp hndSplit.1
    have hndHead : (o.index :: (bids.map MOrder.index ++ asks.map MOrder.index)).Nodup := by
      refine nodup_subperm ?_ hnd
      rw [List.subperm_cons]
      exact (List.subperm_append_right _).mpr
        (List.sublist_append_right (rest.map MOrder.index) (bids.map MOrder.index)).subperm
    have hRO : ∀ x ∈ rest, x.index ≠ o.index := by
      intro x hx hc
      exact hno (List.mem_append.mpr (Or.inl (List.mem_append.mpr
        (Or.inl (hc ▸ List.mem_map_of_mem MOrder.index hx)))))
    have hRA : ∀ x ∈ rest, x.index ∉ asks.map MOrder.index := by
      intro x hx hc
      exact (List.disjoint_left.mp hndSplit.2.2
        (List.mem_append.mpr (Or.inl (List.mem_map_of_mem MOrder.index hx)))) hc
    have hRB : ∀ x ∈ rest, x.index ∉ bids.map MOrder.index := by
      intro x hx hc
      exact (List.disjoint_left.mp hndSplit2.2.2 (List.mem_map_of_mem MOrder.index hx)) hc
    have hndAssoc : (o.index :: (rest.map MOrder.index
        ++ (bids.map MOrder.index ++ asks.map MOrder.index))).Nodup := by
      rw [← List.append_assoc]
      exact hnd
    rcases lt_trichotomy o.food 0 with hfo | hfo | hfo
    · have hstep : marketFold (st, bids, asks) o = bidLoop st o bids asks := by
        unfold marketFold
        rw [if_pos hfo]
      rw [hstep]
      obtain ⟨lmon, lB, lA, lsub, lun, lmeta⟩ :=
        bidLoop_spec st o bids asks hfo (hp o (List.mem_cons_self o rest)) hb ha hndHead
      have hp' : ∀ x ∈ rest, afford (bidLoop st o bids asks).1 x := fun x hx =>
        afford_congr (lun x.index (hRO x hx) (hRA x hx)) (hp x (List.mem_cons_of_mem o hx))
      have hnd' : ((rest.map MOrder.index
          ++ (bidLoop st o bids asks).2.1.map MOrder.index)
          ++ (bidLoop st o bids asks).2.2.map MOrder.index).Nodup := by
        rw [List.append_assoc]
        refine nodup_subperm ?_ hndAssoc
        refine List.Subperm.trans ((List.subperm_append_left _).mpr lsub) ?_
        exact List.perm_middle.subperm
      have IHres := IH (bidLoop st o bids asks).1 (bidLoop st o bids asks).2.1
        (bidLoop st o bids asks).2.2 hp' lB lA hnd'
      exact ⟨IHres.1.trans lmon, fun q => metaSame_trans (lmeta q) (IHres.2 q)⟩
    · have hstep : marketFold (st, bids, asks) o = (st, bids, asks) := by
        unfold marketFold
        rw [if_neg (by omega), if_neg (by omega)]
      rw [hstep]
      have hp' : ∀ x ∈ rest, afford st x := fun x hx => hp x (List.mem_cons_of_mem o hx)
      exact IH st bids asks hp' hb ha hndRest
    · have hstep : marketFold (st, bids, asks) o = askLoop st o bids asks := by
        unfold marketFold
        rw [if_neg (by omega), if_pos hfo]
      rw [hstep]
      obtain ⟨lmon, lB, lA, lsub, lun, lmeta⟩ :=
        askLoop_spec st o bids asks hfo (hp o (List.mem_cons_self o rest)) hb ha hndHead
      have hp' : ∀ x ∈ rest, afford (askLoop st o bids asks).1 x := fun x hx =>
        afford_congr (lun x.index (hRO x hx) (hRB x hx)) (hp x (List.mem_cons_of_mem o hx))
      have hnd' : ((rest.map MOrder.index
          ++ (askLoop st o bids asks).2.1.map MOrder.index)
          ++ (askLoop st o bids asks).2.2.map MOrder.index).Nodup := by
        rw [List.append_assoc]
        refine nodup_subperm ?_ hndAssoc
        refine List.Subperm.trans ((List.subperm_append_left _).mpr lsub) ?_
        exact List.perm_middle.subperm
      have IHres := IH (askLoop st o bids asks).1 (askLoop st o bids asks).2.1
        (askLoop st o bids asks).2.2 hp' lB lA hnd'
      exact ⟨IHres.1.trans lmon, fun q => metaSame_trans (lmeta q) (IHres.2 q)⟩

theorem extract_mem {B S : Type} {w h : ℕ} (cells : Fin h × Fin w → MCell B S)
    (o : MOrder w h) (hmem : o ∈ extractOrders cells) :
    (cells o.index).trade = some ⟨o.rate, o.food⟩ := by
  unfold extractOrders at hmem
  obtain ⟨p, hp, hfp⟩ := List.mem_filterMap.mp hmem
  cases htr : (cells p).trade with
  | none =>
    rw [htr] at hfp
    cases hfp
  | some t =>
    rw [htr, Option.map_some'] at hfp
    obtain rfl := Option.some.inj hfp
    rw [htr]

theorem extract_map_index_sublist {B S : Type} {w h : ℕ}
    (cells : Fin h × Fin w → MCell B S) :
    ∀ l : List (Fin h × Fin w),
    ((l.filterMap (fun p =>
      (cells p).trade.map (fun t => (⟨p, t.rate, t.food⟩ : MOrder w h)))).map
        MOrder.index) <+ l := by
  intro l
  induction l with
  | nil => simp
  | cons p l ih =>
    rw [List.filterMap_cons]
    cases htr : (cells p).trade with
    | none =>
      exact ih.cons p
    | some t =>
      exact ih.cons₂ p

theorem allIdx_nodup (w h : ℕ) : (allIdx w h).Nodup := by
  unfold allIdx
  exact (List.nodup_finRange h).product (List.nodup_finRange w)

theorem extract_map_index_nodup {B S : Type} {w h : ℕ}
    (cells : Fin h × Fin w → MCell B S) :
    ((extractOrders cells).map MOrder.index).Nodup :=
  (allIdx_nodup w h).sublist (extract_map_index_sublist cells (allIdx w h))

theorem tick_spec {B S : Type} {w h : ℕ} (env : SimEnv B S) (s : SimSt B S w h)
    (dec : Fin h × Fin w → Decision) (urng : Fin h × Fin w → URng B)
    (ords : List (MOrder w h))
    (hperm : ords.Perm (extractOrders (cycleCells env s.cells dec urng)))
    (hwall : ∀ p, (s.cells p).ty = CellType.wall → (s.cells p).brain = none)
    (htr : ∀ p, (s.cells p).trade = none) :
    totalMoney (tick env s dec urng ords) = totalMoney s ∧
    (∀ p, ((tick env s dec urng ords).cells p).ty = (s.cells p).ty) ∧
    (∀ p, ((tick env s dec urng ords).cells p).trade = none) ∧
    (∀ p, ((tick env s dec urng ords).cells p).ty = CellType.wall →
      ((tick env s dec urng ords).cells p).money = 0 ∧
      ((tick env s dec urng ords).cells p).brain = none) := by
  set C := cycleCells env s.cells dec urng with hC
  set s1 : SimSt B S w h :=
    ⟨fun p => { C p with trade := none }, s.reserve, s.lastBid, s.lastAsk, 0, 0⟩ with hs1
  set res := ords.foldl marketFold
    (s1, ([] : List (MOrder w h)), ([] : List (MOrder w h))) with hresdef
  have htick_cells : ∀ p, (tick env s dec urng ords).cells p
      = if (res.1.cells p).ty = CellType.wall
        then { res.1.cells p with money := 0 } else res.1.cells p := fun p => rfl
  have htick_reserve : (tick env s dec urng ords).reserve
      = res.1.reserve + wallMoney res.1.cells := rfl
  have hCp : ∀ p, C p = update env (s.cells p) (mstep env (s.cells p) (dec p)).1
      (fun d => (mstep env (s.cells (nbr p d)) (dec (nbr p d))).2 d.opp) (urng p) :=
    fun p => rfl
  have hext : ∀ o ∈ extractOrders C, afford s1 o := by
    intro o hmem
    have htrade := extract_mem C o hmem
    by_cases hwp : (s.cells o.index).ty = CellType.wall
    · exfalso
      have h2 := (update_wall_fields env (s.cells o.index)
        (mstep env (s.cells o.index) (dec o.index)).1
        (fun d => (mstep env (s.cells (nbr o.index d)) (dec (nbr o.index d))).2 d.opp)
        (urng o.index) hwp).2
      rw [hCp o.index, h2, htr o.index] at htrade
      cases htrade
    · have h2 := update_trade_eq env (s.cells o.index)
        (mstep env (s.cells o.index) (dec o.index)).1
        (fun d => (mstep env (s.cells (nbr o.index d)) (dec (nbr o.index d))).2 d.opp)
        (urng o.index) hwp
      rw [hCp o.index, h2] at htrade
      obtain ⟨hspend, hcost⟩ :=
        mstep_trade_spec env (s.cells o.index) (dec o.index) ⟨o.rate, o.food⟩ htrade
      have hle := mstep_spend_le env (s.cells o.index) (dec o.index)
      have hmoney := update_money_eq env (s.cells o.index)
        (mstep env (s.cells o.index) (dec o.index)).1
        (fun d => (mstep env (s.cells (nbr o.index d)) (dec (nbr o.index d))).2 d.opp)
        (urng o.index) hle
      rw [if_neg hwp] at hmoney
      show -(o.rate * o.food) ≤ ((s1.cells o.index).money : ℤ)
      have hs1m : (s1.cells o.index).money = (C o.index).money := rfl
      rw [hs1m, hCp o.index]
      have hcost' : -(o.rate * o.food) ≤ ((s.cells o.index).money : ℤ) := hcost
      omega
  have hords_aff : ∀ o ∈ ords, afford s1 o := fun o ho => hext o (hperm.subset ho)
  have hndords : (ords.map MOrder.index).Nodup :=
    ((hperm.map MOrder.index).nodup_iff).mpr (extract_map_index_nodup C)
  have hmf := marketFold_spec ords s1 [] []
    hords_aff (by intro x hx; cases hx) (by intro x hx; cases hx) (by simpa using hndords)
  obtain ⟨hmon, hmeta⟩ := hmf
  rw [← hresdef] at hmon hmeta
  have hms1 : moneySum s1 = moneySum s := by
    have e1 : moneySum s1 = cellsMoney C := Finset.sum_congr rfl (fun p _ => rfl)
    have e2 : cellsMoney C = cellsMoney s.cells := by
      rw [hC]
      exact cycle_money env s.cells dec urng hwall
    have e3 : cellsMoney s.cells = moneySum s := Finset.sum_congr rfl (fun p _ => rfl)
    rw [e1, e2, e3]
  have hFsplit : moneySum (tick env s dec urng ords) + wallMoney res.1.cells
      = moneySum res.1 := by
    unfold moneySum wallMoney
    rw [← Finset.sum_add_distrib]
    refine Finset.sum_congr rfl ?_
    intro p _
    rw [htick_cells p]
    by_cases hw : (res.1.cells p).ty = CellType.wall
    · rw [if_pos hw, if_pos hw]
      show 0 + (res.1.cells p).money = (res.1.cells p).money
      simp
    · rw [if_neg hw, if_neg hw]
      simp
  have hmain : totalMoney (tick env s dec urng ords) = totalMoney s := by
    unfold totalMoney
    rw [htick_reserve]
    unfold totalMoney at hmon
    have h4 : s1.reserve = s.reserve := rfl
    omega
  have hty : ∀ p, (res.1.cells p).ty = (s.cells p).ty := by
    intro p
    have h1 : (res.1.cells p).ty = (s1.cells p).ty := (hmeta p).1
    have h2 : (s1.cells p).ty = (C p).ty := rfl
    have h3 : (C p).ty = (s.cells p).ty := by
      rw [hCp p]
      exact update_ty env _ _ _ _
    rw [h1, h2, h3]
  have htrade' : ∀ p, (res.1.cells p).trade = none := by
    intro p
    have h1 : (res.1.cells p).trade = (s1.cells p).trade := (hmeta p).2.2
    have h2 : (s1.cells p).trade = none := rfl
    rw [h1, h2]
  have hbrain : ∀ p, (s.cells p).ty = CellType.wall → (res.1.cells p).brain = none := by
    intro p hwp
    have h1 : (res.1.cells p).brain = (s1.cells p).brain := (hmeta p).2.1
    have h2 : (s1.cells p).brain = (C p).brain := rfl
    have h3 : (C p).brain = (s.cells p).brain := by
      rw [hCp p]
      exact (update_wall_fields env _ _ _ _ hwp).1
    rw [h1, h2, h3]
    exact hwall p hwp
  have htyF : ∀ p, ((tick env s dec urng ords).cells p).ty = (s.cells p).ty := by
    intro p
    rw [htick_cells p]
    by_cases hw : (res.1.cells p).ty = CellType.wall
    · rw [if_pos hw]
      exact hty p
    · rw [if_neg hw]
      exact hty p
  refine ⟨hmain, htyF, ?_, ?_⟩
  · intro p
    rw [htick_cells p]
    by_cases hw : (res.1.cells p).ty = CellType.wall
    · rw [if_pos hw]
      exact htrade' p
    · rw [if_neg hw]
      exact htrade' p
  · intro p hwp
    have hwp' : (s.cells p).ty = CellType.wall := (htyF p).symm.trans hwp
    have hwres : (res.1.cells p).ty = CellType.wall := (hty p).trans hwp'
    constructor
    · rw [htick_cells p, if_pos hwres]
    · rw [htick_cells p, if_pos hwres]
      show (res.1.cells p).brain = none
      exact hbrain p hwp'

/-- Every reachable state conserves the total money and keeps its wall
cells empty-handed; pending trades are always cleared by the end of a
tick. -/
theorem reachable_inv {B S : Type} (env : SimEnv B S) (w h : ℕ) (s : SimSt B S w h)
    (hr : Reachable env w h s) :
    totalMoney s = w * h * RESERVE_MULTIPLIER ∧
    (∀ p, (s.cells p).trade = none) ∧
    (∀ p, (s.cells p).ty = CellType.wall →
      (s.cells p).money = 0 ∧ (s.cells p).brain = none) := by
  induction hr with
  | init walls =>
    refine ⟨?_, fun p => rfl, fun p hwp => ⟨rfl, rfl⟩⟩
    simp [totalMoney, moneySum, SimSt.new]
  | step s dec urng ords hs hperm IH =>
    obtain ⟨ih1, ih2, ih3⟩ := IH
    have hwall : ∀ p, (s.cells p).ty = CellType.wall → (s.cells p).brain = none :=
      fun p hp => (ih3 p hp).2
    obtain ⟨t1, t2, t3, t4⟩ := tick_spec env s dec urng ords hperm hwall ih2
    exact ⟨t1.trans ih1, t3, t4⟩

/-- C1: money conservation.  On every state reachable from `Sim::new`
(over all wall patterns, brain decisions, randomness and order
shuffles), the sum of the cells' money plus the reserve equals
`width * height * RESERVE_MULTIPLIER`, and in particular this holds
after every completed tick. -/
theorem C1_money_conservation {B S : Type} (env : SimEnv B S) (w h : ℕ)
    (s : SimSt B S w h) (hr : Reachable env w h s) :
    moneySum s + s.reserve = w * h * RESERVE_MULTIPLIER :=
  (reachable_inv env w h s hr).1

theorem C1_witness :
    moneySum (SimSt.new unitEnv 2 2 (fun _ => CellType.empty))
      + (SimSt.new unitEnv 2 2 (fun _ => CellType.empty)).reserve
      = 2 * 2 * RESERVE_MULTIPLIER :=
  C1_money_conservation unitEnv 2 2 (SimSt.new unitEnv 2 2 (fun _ => CellType.empty))
    (Reachable.init (fun _ => CellType.empty))

/-- C9: wall immunity.  On every reachable state every wall cell holds
zero money and no brain (in particular every tick sweeps the money
delivered to walls into the reserve before it completes), and
`Evonomics::update` never installs a brain into a wall cell: on wall
cells it leaves the occupant untouched, so no spawn, arrival or merge
reaches a wall. -/
theorem C9_wall_immunity :
    (∀ {B S : Type} (env : SimEnv B S) (w h : ℕ) (s : SimSt B S w h),
      Reachable env w h s → ∀ p, (s.cells p).ty = CellType.wall →
        (s.cells p).money = 0 ∧ (s.cells p).brain = none) ∧
    (∀ {B S : Type} (env : SimEnv B S) (c : MCell B S) (d : MDiff)
      (inc : Dir → MMove B) (r : URng B), c.ty = CellType.wall →
        (update env c d inc r).brain = c.brain) :=
  ⟨fun env w h s hr p hwp => (reachable_inv env w h s hr).2.2 p hwp,
    fun env c d inc r hwp => (update_wall_fields env c d inc r hwp).1⟩

theorem C9_witness :
    (((SimSt.new unitEnv 1 1 (fun _ => CellType.wall)).cells
        ((0 : Fin 1), (0 : Fin 1))).money = 0 ∧
      ((SimSt.new unitEnv 1 1 (fun _ => CellType.wall)).cells
        ((0 : Fin 1), (0 : Fin 1))).brain = none) ∧
    (update unitEnv (⟨5, 7, CellType.wall, (), none, none⟩ : MCell Unit Unit)
      ⟨0, 0, true, none⟩ (fun _ => ⟨0, 0, none⟩) noRng).brain
      = (⟨5, 7, CellType.wall, (), none, none⟩ : MCell Unit Unit).brain :=
  ⟨C9_wall_immunity.1 unitEnv 1 1 (SimSt.new unitEnv 1 1 (fun _ => CellType.wall))
      (Reachable.init (fun _ => CellType.wall)) ((0 : Fin 1), (0 : Fin 1)) rfl,
    C9_wall_immunity.2 unitEnv (⟨5, 7, CellType.wall, (), none, none⟩ : MCell Unit Unit)
      ⟨0, 0, true, none⟩ (fun _ => ⟨0, 0, none⟩) noRng rfl⟩

theorem fold_single_ask {B S : Type} {w h : ℕ} (st : SimSt B S w h) (o : MOrder w h)
    (ho : 0 < o.food) (hr : ¬ o.rate ≤ 1) :
    [o].foldl marketFold (st, ([] : List (MOrder w h)), ([] : List (MOrder w h)))
      = (st, ([] : List (MOrder w h)), [o]) := by
  show marketFold (st, [], []) o = _
  unfold marketFold
  dsimp only
  rw [if_neg (by omega), if_pos ho]
  rw [askLoop_eq_none st o [] [] rfl]
  rw [if_neg hr]
  rw [if_pos (show ((st, o)).2.food ≠ 0 from ho.ne')]
  rfl

theorem fold_single_bid {B S : Type} {w h : ℕ} (st : SimSt B S w h) (o : MOrder w h)
    (ho : o.food < 0) :
    [o].foldl marketFold (st, ([] : List (MOrder w h)), ([] : List (MOrder w h)))
      = (st, [o], ([] : List (MOrder w h))) := by
  show marketFold (st, [], []) o = _
  unfold marketFold
  dsimp only
  rw [if_pos ho]
  rw [bidLoop_eq_none st o [] [] rfl]
  rw [if_pos (show o.food ≠ 0 from ho.ne)]
  rfl

theorem c3_run_eq :
    c3ords.foldl marketFold (mktSt, ([] : List (MOrder 2 1)), ([] : List (MOrder 2 1)))
      = ((fulfill mktSt ⟨mp1, 3, 4⟩ ⟨mp0, 5, -3⟩).1, ([] : List (MOrder 2 1)),
          [(fulfill mktSt ⟨mp1, 3, 4⟩ ⟨mp0, 5, -3⟩).2.1]) := by
  have e0 : c3ords.foldl marketFold
      (mktSt, ([] : List (MOrder 2 1)), ([] : List (MOrder 2 1)))
      = marketFold (marketFold (mktSt, [], []) ⟨mp0, 5, -3⟩) ⟨mp1, 3, 4⟩ := rfl
  have e1 : marketFold (mktSt, ([] : List (MOrder 2 1)), ([] : List (MOrder 2 1)))
      ⟨mp0, 5, -3⟩ = (mktSt, [⟨mp0, 5, -3⟩], ([] : List (MOrder 2 1))) := by
    unfold marketFold
    dsimp only
    rw [if_pos (by decide)]
    rw [bidLoop_eq_none mktSt ⟨mp0, 5, -3⟩ [] [] rfl]
    rw [if_pos (by decide : (⟨mp0, 5, -3⟩ : MOrder 2 1).food ≠ 0)]
    rfl
  have e2 : marketFold (mktSt, [⟨mp0, 5, -3⟩], ([] : List (MOrder 2 1))) ⟨mp1, 3, 4⟩
      = askLoop mktSt ⟨mp1, 3, 4⟩ [⟨mp0, 5, -3⟩] [] := by
    unfold marketFold
    dsimp only
    rw [if_neg (by decide), if_pos (by decide)]
  have e3 : askLoop mktSt ⟨mp1, 3, 4⟩ [⟨mp0, 5, -3⟩] []
      = askLoop (fulfill mktSt ⟨mp1, 3, 4⟩ ⟨mp0, 5, -3⟩).1
          (fulfill mktSt ⟨mp1, 3, 4⟩ ⟨mp0, 5, -3⟩).2.1 [] [] := by
    rw [askLoop_eq_fill mktSt ⟨mp1, 3, 4⟩ [⟨mp0, 5, -3⟩] [] ⟨mp0, 5, -3⟩ [] rfl
      (by decide) (by decide)]
    rw [if_neg (by decide)]
    rfl
  have e4 : askLoop (fulfill mktSt ⟨mp1, 3, 4⟩ ⟨mp0, 5, -3⟩).1
      (fulfill mktSt ⟨mp1, 3, 4⟩ ⟨mp0, 5, -3⟩).2.1 [] []
      = ((fulfill mktSt ⟨mp1, 3, 4⟩ ⟨mp0, 5, -3⟩).1, ([] : List (MOrder 2 1)),
          [(fulfill mktSt ⟨mp1, 3, 4⟩ ⟨mp0, 5, -3⟩).2.1]) := by
    rw [askLoop_eq_none (fulfill mktSt ⟨mp1, 3, 4⟩ ⟨mp0, 5, -3⟩).1
      (fulfill mktSt ⟨mp1, 3, 4⟩ ⟨mp0, 5, -3⟩).2.1 [] [] rfl]
    rw [if_neg (by decide : ¬ (fulfill mktSt ⟨mp1, 3, 4⟩ ⟨mp0, 5, -3⟩).2.1.rate ≤ 1)]
    rfl
  rw [e0, e1, e2, e3, e4]

/-- C3 counterexample: in the bid(rate 5, qty -3) then ask(rate 3,
qty 4) scenario the fill happens at the *resting bid's* rate 5, not at
the incoming ask's rate 3, so the bid cell ends with 85 money, not the
91 the claim predicts. -/
theorem C3_cex :
    ((c3ords.foldl marketFold (mktSt, ([] : List (MOrder 2 1)),
      ([] : List (MOrder 2 1)))).1.cells mp0).money ≠ 91 := by
  rw [c3_run_eq]
  decide

/-- C3 (amended): processing bid(rate 5, qty -3) then ask(rate 3,
qty 4) against empty books fills exactly 3 units at the *resting*
order's rate 5: the bid cell pays 15 money and gains 3 food
(100 → 85, 10 → 13), the ask cell earns 15 money and loses 3 food
(50 → 65, 20 → 17), one unit rests as an ask at rate 3, and both
volume counters read 3. -/
theorem C3_matching_amended :
    ((c3ords.foldl marketFold (mktSt, ([] : List (MOrder 2 1)),
        ([] : List (MOrder 2 1)))).1.cells mp0).money = 85 ∧
    ((c3ords.foldl marketFold (mktSt, ([] : List (MOrder 2 1)),
        ([] : List (MOrder 2 1)))).1.cells mp0).food = 13 ∧
    ((c3ords.foldl marketFold (mktSt, ([] : List (MOrder 2 1)),
        ([] : List (MOrder 2 1)))).1.cells mp1).money = 65 ∧
    ((c3ords.foldl marketFold (mktSt, ([] : List (MOrder 2 1)),
        ([] : List (MOrder 2 1)))).1.cells mp1).food = 17 ∧
    (c3ords.foldl marketFold (mktSt, ([] : List (MOrder 2 1)),
        ([] : List (MOrder 2 1)))).1.buyVolume = 3 ∧
    (c3ords.foldl marketFold (mktSt, ([] : List (MOrder 2 1)),
        ([] : List (MOrder 2 1)))).1.sellVolume = 3 ∧
    (c3ords.foldl marketFold (mktSt, ([] : List (MOrder 2 1)),
        ([] : List (MOrder 2 1)))).2.1 = [] ∧
    (c3ords.foldl marketFold (mktSt, ([] : List (MOrder 2 1)),
        ([] : List (MOrder 2 1)))).2.2 = [⟨mp1, 3, 1⟩] := by
  rw [c3_run_eq]
  refine ⟨by decide, by decide, by decide, by decide, by decide, by decide, rfl, by decide⟩

theorem simst_eq_of_cells {B S : Type} {w h : ℕ} (s t : SimSt B S w h)
    (hc : ∀ p, s.cells p = t.cells p) (hr : s.reserve = t.reserve)
    (hlb : s.lastBid = t.lastBid) (hla : s.lastAsk = t.lastAsk)
    (hbv : s.buyVolume = t.buyVolume) (hsv : s.sellVolume = t.sellVolume) : s = t := by
  obtain ⟨sc, sr, slb, sla, sbv, ssv⟩ := s
  obtain ⟨tc, tr, tlb, tla, tbv, tsv⟩ := t
  dsimp only at hc hr hlb hla hbv hsv
  subst hr hlb hla hbv hsv
  have hcc : sc = tc := funext hc
  rw [hcc]

theorem c5_tick1_eq :
    tickCanon unitEnv mktSt c5dec1 (fun _ => noRng)
      = (⟨fun p => if p.2 = (0 : Fin 2)
            then ⟨9, 100, CellType.empty, (), some (), none⟩
            else ⟨19, 50, CellType.empty, (), some (), none⟩,
          128, none, some 3, 0, 0⟩ : SimSt Unit Unit 2 1) := by
  unfold tickCanon
  have hext : extractOrders (cycleCells unitEnv mktSt.cells c5dec1 (fun _ => noRng))
      = [⟨mp1, 3, 4⟩] := by decide
  rw [hext]
  set S1 : SimSt Unit Unit 2 1 :=
    ⟨fun p => { cycleCells unitEnv mktSt.cells c5dec1 (fun _ => noRng) p with trade := none },
      mktSt.reserve, mktSt.lastBid, mktSt.lastAsk, 0, 0⟩ with hS1
  have hfold := fold_single_ask S1 ⟨mp1, 3, 4⟩ (by decide) (by decide)
  apply simst_eq_of_cells
  · intro p
    show (if (([(⟨mp1, 3, 4⟩ : MOrder 2 1)].foldl marketFold
          (S1, [], [])).1.cells p).ty = CellType.wall
        then { ([(⟨mp1, 3, 4⟩ : MOrder 2 1)].foldl marketFold
          (S1, [], [])).1.cells p with money := 0 }
        else ([(⟨mp1, 3, 4⟩ : MOrder 2 1)].foldl marketFold
          (S1, [], [])).1.cells p) = _
    rw [hfold]
    obtain ⟨a, b⟩ := p
    fin_cases a <;> fin_cases b <;> rfl
  · show ([(⟨mp1, 3, 4⟩ : MOrder 2 1)].foldl marketFold (S1, [], [])).1.reserve
        + wallMoney ([(⟨mp1, 3, 4⟩ : MOrder 2 1)].foldl marketFold (S1, [], [])).1.cells
        = 128
    rw [hfold]
    decide
  · show (popMaxRate ([(⟨mp1, 3, 4⟩ : MOrder 2 1)].foldl marketFold (S1, [], [])).2.1).map
        (fun x : MOrder 2 1 × List (MOrder 2 1) => x.1.rate) = none
    rw [hfold]
    rfl
  · show (popMinRate ([(⟨mp1, 3, 4⟩ : MOrder 2 1)].foldl marketFold (S1, [], [])).2.2).map
        (fun x : MOrder 2 1 × List (MOrder 2 1) => x.1.rate) = some 3
    rw [hfold]
    rfl
  · show ([(⟨mp1, 3, 4⟩ : MOrder 2 1)].foldl marketFold (S1, [], [])).1.buyVolume = 0
    rw [hfold]
  · show ([(⟨mp1, 3, 4⟩ : MOrder 2 1)].foldl marketFold (S1, [], [])).1.sellVolume = 0
    rw [hfold]

theorem c5_tick2_eq :
    tickCanon unitEnv
      (⟨fun p => if p.2 = (0 : Fin 2)
          then ⟨9, 100, CellType.empty, (), some (), none⟩
          else ⟨19, 50, CellType.empty, (), some (), none⟩,
        128, none, some 3, 0, 0⟩ : SimSt Unit Unit 2 1) c5dec2 (fun _ => noRng)
      = (⟨fun p => if p.2 = (0 : Fin 2)
            then ⟨8, 100, CellType.empty, (), some (), none⟩
            else ⟨18, 50, CellType.empty, (), some (), none⟩,
          128, some 5, none, 0, 0⟩ : SimSt Unit Unit 2 1) := by
  unfold tickCanon
  have hext : extractOrders (cycleCells unitEnv
      ((⟨fun p => if p.2 = (0 : Fin 2)
          then ⟨9, 100, CellType.empty, (), some (), none⟩
          else ⟨19, 50, CellType.empty, (), some (), none⟩,
        128, none, some 3, 0, 0⟩ : SimSt Unit Unit 2 1)).cells c5dec2 (fun _ => noRng))
      = [⟨mp0, 5, -3⟩] := by decide
  rw [hext]
  set S1 : SimSt Unit Unit 2 1 :=
    ⟨fun p => { cycleCells unitEnv
        ((⟨fun p => if p.2 = (0 : Fin 2)
            then ⟨9, 100, CellType.empty, (), some (), none⟩
            else ⟨19, 50, CellType.empty, (), some (), none⟩,
          128, none, some 3, 0, 0⟩ : SimSt Unit Unit 2 1)).cells c5dec2 (fun _ => noRng) p
        with trade := none },
      ((⟨fun p => if p.2 = (0 : Fin 2)
          then ⟨9, 100, CellType.empty, (), some (), none⟩
          else ⟨19, 50, CellType.empty, (), some (), none⟩,
        128, none, some 3, 0, 0⟩ : SimSt Unit Unit 2 1)).reserve,
      ((⟨fun p => if p.2 = (0 : Fin 2)
          then ⟨9, 100, CellType.empty, (), some (), none⟩
          else ⟨19, 50, CellType.empty, (), some (), none⟩,
        128, none, some 3, 0, 0⟩ : SimSt Unit Unit 2 1)).lastBid,
      ((⟨fun p => if p.2 = (0 : Fin 2)
          then ⟨9, 100, CellType.empty, (), some (), none⟩
          else ⟨19, 50, CellType.empty, (), some (), none⟩,
        128, none, some 3, 0, 0⟩ : SimSt Unit Unit 2 1)).lastAsk, 0, 0⟩ with hS1
  have hfold := fold_single_bid S1 ⟨mp0, 5, -3⟩ (by decide)
  apply simst_eq_of_cells
  · intro p
    show (if (([(⟨mp0, 5, -3⟩ : MOrder 2 1)].foldl marketFold
          (S1, [], [])).1.cells p).ty = CellType.wall
        then { ([(⟨mp0, 5, -3⟩ : MOrder 2 1)].foldl marketFold
          (S1, [], [])).1.cells p with money := 0 }
        else ([(⟨mp0, 5, -3⟩ : MOrder 2 1)].foldl marketFold
          (S1, [], [])).1.cells p) = _
    rw [hfold]
    obtain ⟨a, b⟩ := p
    fin_cases a <;> fin_cases b <;> rfl
  · show ([(⟨mp0, 5, -3⟩ : MOrder 2 1)].foldl marketFold (S1, [], [])).1.reserve
        + wallMoney ([(⟨mp0, 5, -3⟩ : MOrder 2 1)].foldl marketFold (S1, [], [])).1.cells
        = 128
    rw [hfold]
    decide
  · show (popMaxRate ([(⟨mp0, 5, -3⟩ : MOrder 2 1)].foldl marketFold (S1, [], [])).2.1).map
        (fun x : MOrder 2 1 × List (MOrder 2 1) => x.1.rate) = some 5
    rw [hfold]
    rfl
  · show (popMinRate ([(⟨mp0, 5, -3⟩ : MOrder 2 1)].foldl marketFold (S1, [], [])).2.2).map
        (fun x : MOrder 2 1 × List (MOrder 2 1) => x.1.rate) = none
    rw [hfold]
    rfl
  · show ([(⟨mp0, 5, -3⟩ : MOrder 2 1)].foldl marketFold (S1, [], [])).1.buyVolume = 0
    rw [hfold]
  · show ([(⟨mp0, 5, -3⟩ : MOrder 2 1)].foldl marketFold (S1, [], [])).1.sellVolume = 0
    rw [hfold]

/-- C5 counterexample: the ask(rate 3, qty 4) left resting at the end
of tick 1 (visible as `last_ask = 3`) is *not* available during tick 2:
the bid(rate 5, qty -3) submitted in tick 2 matches nothing — no volume
trades, the bidder's money is untouched and the bid itself ends up
resting — because the bid/ask heaps are rebuilt empty inside every
`Sim::tick` call. -/
theorem C5_cex :
    (tickCanon unitEnv mktSt c5dec1 (fun _ => noRng)).lastAsk = some 3 ∧
    (tickCanon unitEnv (tickCanon unitEnv mktSt c5dec1 (fun _ => noRng)) c5dec2
        (fun _ => noRng)).buyVolume = 0 ∧
    ((tickCanon unitEnv (tickCanon unitEnv mktSt c5dec1 (fun _ => noRng)) c5dec2
        (fun _ => noRng)).cells mp0).money = 100 ∧
    (tickCanon unitEnv (tickCanon unitEnv mktSt c5dec1 (fun _ => noRng)) c5dec2
        (fun _ => noRng)).lastBid = some 5 := by
  rw [c5_tick1_eq, c5_tick2_eq]
  exact ⟨rfl, rfl, rfl, rfl⟩

/-- C5 (amended): the order books are local to one `Sim::tick` call.
Every tick matches its batch against heaps that start empty — a tick
run with an empty batch ends with empty books (no resting bid or ask to
report) and zero traded volume, whatever state, decisions and
randomness precede it; only the scalar telemetry `last_bid`/`last_ask`
of the previous tick survives in `Sim`, never the orders themselves. -/
theorem C5_book_local_to_tick {B S : Type} {w h : ℕ} (env : SimEnv B S)
    (s : SimSt B S w h) (dec : Fin h × Fin w → Decision)
    (urng : Fin h × Fin w → URng B) :
    (tick env s dec urng []).lastBid = none ∧
    (tick env s dec urng []).lastAsk = none ∧
    (tick env s dec urng []).buyVolume = 0 ∧
    (tick env s dec urng []).sellVolume = 0 :=
  ⟨rfl, rfl, rfl, rfl⟩

end Evo
